import Mathlib

/-!
# libcmdline: a verification development

A shallow embedding of `src/include/libcmdline/cmdline.h` and `src/src/cmdline.cpp`.

* A `std::string` is the list of its characters (`Str`).
* `size_t` is a natural number; where the source relies on wrap-around
  (`std::string::npos`, `equals - 2`) the arithmetic is taken modulo `2 ^ 64`.
* A C++ exception (`std::out_of_range` of `substr`), a failed `assert` and undefined
  behaviour are values of `Fault`, carried by `Except`.
* The parser is a record; a pointer into one of its lists is the index of the element
  (together with the element found there), and a write through the pointer replaces the
  element at that index.
* An enablement predicate is a nullary closure in the source; the state it closes over
  is passed explicitly, as the current values of all parameters of the parser.
* `Parser.parse` is the `assert` on `validateCommand` followed by `Parser.parseBody`, the
  rest of the function; statements on a parse are given for the body and, under the
  assertion, for `parse`.
-/

set_option autoImplicit false

namespace cmdline

/-! ## Strings and `size_t` -/

/-- A `std::string`, as the list of its characters. -/
abbrev Str := List Char

/-- Number of values of `size_t`. -/
def SIZE_MOD : Nat := 2 ^ 64

/-- The constant `std::string::npos`, the largest `size_t`. -/
def npos : Nat := SIZE_MOD - 1

/-- What can go wrong while a function of the library runs. -/
inductive Fault where
  /-- `assert` failed. -/
  | assertion
  /-- `std::out_of_range` thrown by `std::string::substr`. -/
  | out_of_range
  /-- Undefined behaviour (`front()` of an empty string, iterating past the end). -/
  | undefined
  deriving DecidableEq, Repr

/-- The call `s.find_first_of(c)`: index of the first `c` in `s`, `npos` when there is none. -/
def find_first_of (s : Str) (c : Char) : Nat :=
  if c ∈ s then s.indexOf c else npos

/-- The call `s.substr(pos, count)`: throws when `pos > s.size()`, otherwise the characters
from `pos` on, at most `count` of them. -/
def substr (s : Str) (pos count : Nat) : Except Fault Str :=
  if s.length < pos then .error .out_of_range else .ok ((s.drop pos).take count)

/-- The call `std::to_string(n)` for an unsigned `n`: its decimal digits. -/
def to_string (n : Nat) : Str := Nat.toDigits 10 n

/-! ## Token classification (`cmdline.cpp` 468-497) -/

/-- `Parser::isOption`: `arg.size() > 2 && arg[0] == '-' && arg[1] == '-'`. -/
def isOption (arg : Str) : Bool :=
  decide (arg.length > 2) && (arg[0]? == some '-') && (arg[1]? == some '-')

/-- `Parser::isOptionAbbr`: `arg.size() > 1 && !isOption(arg) && arg.front() == '-'`. -/
def isOptionAbbr (arg : Str) : Bool :=
  decide (arg.length > 1) && !isOption arg && (arg.head? == some '-')

/-- `Parser::getOptionName`: `arg.substr(2, equals - 2)` with
`equals = arg.find_first_of('=')`; the subtraction is a `size_t` subtraction. -/
def getOptionName (arg : Str) : Except Fault Str :=
  let equals := find_first_of arg '='
  substr arg 2 ((equals + SIZE_MOD - 2) % SIZE_MOD)

/-- `Parser::getOptionAbbr`: `arg.substr(1)`. -/
def getOptionAbbr (arg : Str) : Except Fault Str :=
  substr arg 1 npos

/-- `Parser::getNameEqualsValue`: the empty pair when there is no `=`, otherwise
`(getOptionName(arg.substr(0, eqpos)), arg.substr(eqpos + 1))`. -/
def getNameEqualsValue (arg : Str) : Except Fault (Str × Str) :=
  let eqpos := find_first_of arg '='
  if eqpos = npos then .ok ([], [])
  else
    (substr arg 0 eqpos).bind fun front =>
    (getOptionName front).bind fun name =>
    (substr arg ((eqpos + 1) % SIZE_MOD) npos).bind fun val =>
    .ok (name, val)

/-! ## Results (`cmdline.cpp` 35-84) -/

/-- `ParseResult`: the ordered list of error messages. -/
structure ParseResult where
  errors : List Str

/-- `ArgumentParseResult`: a `ParseResult` with the accepted flag of a dispatch branch. -/
structure ArgumentParseResult extends ParseResult where
  accepted : Bool

/-- `ParseResult::operator bool`: `errors.empty()`. -/
def ParseResult.toBool (r : ParseResult) : Bool := r.errors.isEmpty

/-- `ArgumentParseResult::operator bool` (the override): `accepted`. -/
def ArgumentParseResult.toBool (r : ArgumentParseResult) : Bool := r.accepted

/-- The constructor `ArgumentParseResult(bool accepted, const std::string& error)`: an empty
`error` gives no error. The implicit conversion from `bool` is `make b []`. -/
def ArgumentParseResult.make (accepted : Bool) (error : Str) : ArgumentParseResult :=
  { errors := if error.isEmpty then [] else [error], accepted := accepted }

/-- `ParseResult::merge` with a plain `ParseResult` argument: appends its errors and
returns its truth value. -/
def ParseResult.merge (self res : ParseResult) : ParseResult × Bool :=
  ({ errors := self.errors ++ res.errors }, res.toBool)

/-- `ParseResult::merge` with an `ArgumentParseResult` argument: the returned `bool` is
the virtual `operator bool`, that is `accepted`. -/
def ParseResult.mergeArg (self : ParseResult) (res : ArgumentParseResult) :
    ParseResult × Bool :=
  ({ errors := self.errors ++ res.errors }, res.toBool)

/-- `ParseResult::merge` called on an `ArgumentParseResult` with another one. -/
def ArgumentParseResult.merge (self res : ArgumentParseResult) :
    ArgumentParseResult × Bool :=
  ({ errors := self.errors ++ res.errors, accepted := self.accepted }, res.toBool)

/-- `ParseResult::errorStr`: every error followed by a newline. -/
def ParseResult.errorStr (r : ParseResult) : Str :=
  r.errors.foldl (fun result err => result ++ (err ++ ['\n'])) []

/-! ## Parameters (`cmdline.h` 16-200) -/

/-- `enum class Req`. -/
inductive Req where
  | required
  | optional
  deriving DecidableEq, Repr

/-- The constant `NoAbbr`. -/
def NoAbbr : Char := Char.ofNat 0

/-- The values of all parameters of a parser, in registration order: what an enablement
predicate can read when it is called. -/
structure Values where
  args : List Str
  options : List Str
  switches : List Str

/-- `ArgumentEnablePred` is `std::function<bool()>`; the state the closure reads is made
an argument. -/
abbrev ArgumentEnablePred := Values → Bool

/-- `enableAlways()`. -/
def enableAlways : ArgumentEnablePred := fun _ => true

/-- `enableWhenSwitchIsSet(s)` for the switch registered at index `s` of the parser: the
closure returns `s.on()`, that is `!s.value.empty()`. -/
def enableWhenSwitchIsSet (s : Nat) : ArgumentEnablePred :=
  fun v => !(v.switches.getD s []).isEmpty

/-- `struct HelpSection`. -/
structure HelpSection where
  name : Str
  description : Str

/-- `struct Argument` (the `helpSection` pointer is an index into the help sections). -/
structure Argument where
  name : Str
  value : Str
  required : Req
  enablePred : ArgumentEnablePred
  description : Str
  helpSection : Option Nat
  helpIndex : Nat

/-- `struct Option : Argument`. -/
structure CmdOption extends Argument where
  abbr : Char

/-- `struct Switch : Option`. -/
structure Switch extends CmdOption

/-- `Argument::expectsValue`. -/
def Argument.expectsValue (_ : Argument) : Bool := false

/-- `Option::expectsValue`. -/
def CmdOption.expectsValue (_ : CmdOption) : Bool := true

/-- `Switch::expectsValue`. -/
def Switch.expectsValue (_ : Switch) : Bool := false

/-- `Argument::enabled`: calls the predicate, here on the current values `v`. -/
def Argument.enabled (a : Argument) (v : Values) : Bool := a.enablePred v

/-- The constructor `Argument(name, value, required, description, enablePred)`. -/
def Argument.new (name value : Str) (req : Req) (description : Str)
    (enablePred : ArgumentEnablePred) : Argument :=
  { name := name, value := value, required := req, enablePred := enablePred,
    description := description, helpSection := none, helpIndex := 0 }

/-- The constructor `Option(name, abbr, value, required, description, enablePred)`. -/
def CmdOption.new (name : Str) (abbr : Char) (value : Str) (req : Req)
    (description : Str) (enablePred : ArgumentEnablePred) : CmdOption :=
  { toArgument := Argument.new name value req description enablePred, abbr := abbr }

/-- The constructor `Switch(name, abbr, description, enablePred)`:
`Option(name, abbr, "", Req::optional, description, enablePred)`. -/
def Switch.new (name : Str) (abbr : Char) (description : Str)
    (enablePred : ArgumentEnablePred) : Switch :=
  { toCmdOption := CmdOption.new name abbr [] Req.optional description enablePred }

/-- `Switch::setValue`: `value ? "1" : ""`. -/
def Switch.setValue (s : Switch) (value : Bool) : Switch :=
  { s with value := if value then ['1'] else [] }

/-- `Switch::on`: `!value.empty()`. -/
def Switch.on (s : Switch) : Bool := !s.value.isEmpty

/-! ## The parser record and its lookups (`cmdline.cpp` 231-415) -/

/-- `class Parser` (its data members; `helpPred` is the text the producer returns). -/
structure Parser where
  cmdname : Str
  args : List Argument
  options : List CmdOption
  switches : List Switch
  helpSections : List HelpSection
  autohelp : Bool
  helpMaxWidth : Nat
  helpMaxArgWidth : Nat
  helpPred : Option Str

/-- The range-for loops of the lookups: the first element satisfying `p`, with its index
(the pointer the source returns), or `none` for `nullptr`. -/
def findFirst {α : Type} (p : α → Bool) : List α → Option (Nat × α)
  | [] => none
  | x :: xs => if p x then some (0, x) else (findFirst p xs).map fun r => (r.1 + 1, r.2)

/-- Write through a pointer: replace the element at index `i` by `f` of it. -/
def modifyAt {α : Type} (f : α → α) : Nat → List α → List α
  | _, [] => []
  | 0, x :: xs => f x :: xs
  | i + 1, x :: xs => x :: modifyAt f i xs

/-- The current values of all parameters. -/
def Parser.values (P : Parser) : Values :=
  { args := P.args.map fun a => a.value,
    options := P.options.map fun o => o.value,
    switches := P.switches.map fun s => s.value }

/-- `Parser::getArgument(const std::string&)`. -/
def Parser.getArgument (P : Parser) (name : Str) : Option (Nat × Argument) :=
  findFirst (fun a => a.name == name) P.args

/-- `Parser::getArgument(size_t pos)`: `nullptr` when `args.size() <= pos`. -/
def Parser.getArgumentAt (P : Parser) (pos : Nat) : Option Argument :=
  if P.args.length ≤ pos then none else P.args[pos]?

/-- `Parser::getOption(const std::string&)`. -/
def Parser.getOption (P : Parser) (name : Str) : Option (Nat × CmdOption) :=
  findFirst (fun o => o.name == name) P.options

/-- `Parser::getOption(const char)`. -/
def Parser.getOptionByChar (P : Parser) (abbr : Char) : Option (Nat × CmdOption) :=
  findFirst (fun o => o.abbr == abbr) P.options

/-- `Parser::getSwitch(const std::string&)`. -/
def Parser.getSwitch (P : Parser) (name : Str) : Option (Nat × Switch) :=
  findFirst (fun s => s.name == name) P.switches

/-- `Parser::getSwitch(const char)`. -/
def Parser.getSwitchByChar (P : Parser) (abbr : Char) : Option (Nat × Switch) :=
  findFirst (fun s => s.abbr == abbr) P.switches

/-- The assignment `argument->value = v` for the argument at index `i`. -/
def Parser.setArgValue (P : Parser) (i : Nat) (v : Str) : Parser :=
  { P with args := modifyAt (fun a => { a with value := v }) i P.args }

/-- The assignment `option->value = v` for the option at index `i`. -/
def Parser.setOptionValue (P : Parser) (i : Nat) (v : Str) : Parser :=
  { P with options := modifyAt (fun o => { o with value := v }) i P.options }

/-- The call `sw->setValue(b)` for the switch at index `i`. -/
def Parser.setSwitchValue (P : Parser) (i : Nat) (b : Bool) : Parser :=
  { P with switches := modifyAt (fun s => s.setValue b) i P.switches }

/-- `Parser::addArgument(const Argument&)`. -/
def Parser.addArgument (P : Parser) (arg : Argument) : Parser :=
  { P with args := P.args ++ [arg] }

/-- `Parser::addOption(const Option&)`. -/
def Parser.addOption (P : Parser) (option : CmdOption) : Parser :=
  { P with options := P.options ++ [option] }

/-- `Parser::addSwitch(const Switch&)`. -/
def Parser.addSwitch (P : Parser) (sw : Switch) : Parser :=
  { P with switches := P.switches ++ [sw] }

/-- `Parser::addStandardHelpSwitch`. -/
def Parser.addStandardHelpSwitch (P : Parser) : Parser :=
  P.addSwitch (Switch.new "help".toList '?' "Show help message".toList enableAlways)

/-- The constructor `Parser(bool autohelp)`. -/
def Parser.new (autohelp : Bool) : Parser :=
  let P : Parser :=
    { cmdname := [], args := [], options := [], switches := [], helpSections := [],
      autohelp := autohelp, helpMaxWidth := 250, helpMaxArgWidth := 50, helpPred := none }
  if autohelp then P.addStandardHelpSwitch else P

/-! ## Validation passes (`cmdline.cpp` 417-466) -/

/-- The message `"Positional argument " + name + " is required"`. -/
def msgArgumentRequired (name : Str) : Str :=
  "Positional argument ".toList ++ name ++ " is required".toList

/-- The message `"Option " + name + " is required"`. -/
def msgOptionRequired (name : Str) : Str :=
  "Option ".toList ++ name ++ " is required".toList

/-- The message `"Positional argument \"" + name + "\" cannot be optional"`. -/
def msgCannotBeOptional (name : Str) : Str :=
  "Positional argument \"".toList ++ name ++ "\" cannot be optional".toList

/-- The loop of `Parser::validateArguments` over the remaining arguments: it returns at
the first enabled, required argument whose value is empty. -/
def validateArgumentsLoop (v : Values) : List Argument → ArgumentParseResult
  | [] => ArgumentParseResult.make true []
  | arg :: rest =>
    if !arg.enabled v then validateArgumentsLoop v rest
    else if arg.required == Req.required && arg.value.isEmpty then
      ArgumentParseResult.make false (msgArgumentRequired arg.name)
    else validateArgumentsLoop v rest

/-- `Parser::validateArguments`. -/
def Parser.validateArguments (P : Parser) : ArgumentParseResult :=
  validateArgumentsLoop P.values P.args

/-- The loop of `Parser::validateOptions` over the remaining options. -/
def validateOptionsLoop (v : Values) : List CmdOption → ArgumentParseResult
  | [] => ArgumentParseResult.make true []
  | opt :: rest =>
    if !opt.enabled v then validateOptionsLoop v rest
    else if opt.required == Req.required && opt.value.isEmpty then
      ArgumentParseResult.make false (msgOptionRequired opt.name)
    else validateOptionsLoop v rest

/-- `Parser::validateOptions`. -/
def Parser.validateOptions (P : Parser) : ArgumentParseResult :=
  validateOptionsLoop P.values P.options

/-- The loop of `Parser::validateCommand` over the remaining arguments, with the locals
`hasOptional` and `res`. -/
def validateCommandLoop : List Argument → Bool → ParseResult → ParseResult
  | [], _, res => res
  | arg :: rest, hasOptional, res =>
    if arg.required == Req.optional then validateCommandLoop rest true res
    else if hasOptional then
      validateCommandLoop rest hasOptional
        (res.merge { errors := [msgCannotBeOptional arg.name] }).1
    else validateCommandLoop rest hasOptional res

/-- `Parser::validateCommand`. -/
def Parser.validateCommand (P : Parser) : ParseResult :=
  validateCommandLoop P.args false { errors := [] }

/-! ## Token dispatch (`cmdline.cpp` 141-229) -/

/-- The message `"This command does not accept " + std::to_string(pos + 1) +
" positional arguments"`. The loop advances `pos` only below `args.size()`, so `pos + 1`
does not wrap. -/
def msgExcessPositional (pos : Nat) : Str :=
  "This command does not accept ".toList ++ to_string (pos + 1) ++
    " positional arguments".toList

/-- The message `"This command does not accept \"" + arg + "\" option"`. -/
def msgUnknownOption (arg : Str) : Str :=
  "This command does not accept \"".toList ++ arg ++ "\" option".toList

/-- The message `"This command does not accept \"" + arg + "\" switch"`. -/
def msgUnknownSwitch (arg : Str) : Str :=
  "This command does not accept \"".toList ++ arg ++ "\" switch".toList

/-- `Parser::parseArgument(arg, pos)`: the parser and `pos` after the call, and the
returned result. -/
def Parser.parseArgument (P : Parser) (arg : Str) (pos : Nat) :
    Parser × Nat × ArgumentParseResult :=
  if isOption arg || isOptionAbbr arg then (P, pos, ArgumentParseResult.make false [])
  else
    match P.getArgumentAt pos with
    | none => (P, pos, ArgumentParseResult.make false (msgExcessPositional pos))
    | some argument =>
      if !argument.enabled P.values then
        (P, pos, ArgumentParseResult.make false (msgExcessPositional pos))
      else if !argument.enabled P.values then
        (P, pos, ArgumentParseResult.make false [])
      else (P.setArgValue pos arg, pos + 1, ArgumentParseResult.make true [])

/-- `Parser::parseOption` from line 174 on, once `option` and `abbr` are computed:
the parser and `*activeOption` after the call, and the returned result. -/
def Parser.bindOption (P : Parser) (arg : Str) (activeOption : Option Nat)
    (option : Option (Nat × CmdOption)) (abbr : Bool) :
    Except Fault (Parser × Option Nat × ArgumentParseResult) :=
  match option with
  | none => .ok (P, activeOption, ArgumentParseResult.make false (msgUnknownOption arg))
  | some (i, opt) =>
    if !opt.enabled P.values then
      .ok (P, activeOption, ArgumentParseResult.make false (msgUnknownOption arg))
    else
      (getNameEqualsValue arg).bind fun nameVal =>
      if abbr then
        if !nameVal.2.isEmpty then
          .ok (P.setOptionValue i nameVal.2, activeOption, ArgumentParseResult.make true [])
        else if arg.length > 2 then
          (substr arg 2 npos).bind fun v =>
          .ok (P.setOptionValue i v, activeOption, ArgumentParseResult.make true [])
        else .ok (P, some i, ArgumentParseResult.make true [])
      else if !nameVal.1.isEmpty then
        .ok (P.setOptionValue i nameVal.2, activeOption, ArgumentParseResult.make true [])
      else .ok (P, some i, ArgumentParseResult.make true [])

/-- `Parser::parseOption(arg, activeOption)`. -/
def Parser.parseOption (P : Parser) (arg : Str) (activeOption : Option Nat) :
    Except Fault (Parser × Option Nat × ArgumentParseResult) :=
  if isOption arg then
    (getOptionName arg).bind fun name =>
    P.bindOption arg activeOption (P.getOption name) false
  else if isOptionAbbr arg then
    (getOptionAbbr arg).bind fun cluster =>
    match cluster with
    | [] => .error Fault.undefined
    | c :: _ => P.bindOption arg activeOption (P.getOptionByChar c) true
  else .ok (P, activeOption, ArgumentParseResult.make false [])

/-- The loop `for (char c : getOptionAbbr(arg))` of `Parser::parseSwitch` over the
remaining characters: it returns at the first character that is no enabled switch. -/
def switchCluster (arg : Str) : Str → Parser → Parser × ArgumentParseResult
  | [], P => (P, ArgumentParseResult.make true [])
  | c :: rest, P =>
    match P.getSwitchByChar c with
    | none => (P, ArgumentParseResult.make false (msgUnknownSwitch arg))
    | some (i, sw) =>
      if !sw.enabled P.values then
        (P, ArgumentParseResult.make false (msgUnknownSwitch arg))
      else switchCluster arg rest (P.setSwitchValue i true)

/-- `Parser::parseSwitch(arg)`. -/
def Parser.parseSwitch (P : Parser) (arg : Str) :
    Except Fault (Parser × ArgumentParseResult) :=
  if !isOption arg && !isOptionAbbr arg then .ok (P, ArgumentParseResult.make false [])
  else if isOptionAbbr arg then
    (getOptionAbbr arg).bind fun cluster => .ok (switchCluster arg cluster P)
  else
    (getOptionName arg).bind fun name =>
    match P.getSwitch name with
    | none => .ok (P, ArgumentParseResult.make false [])
    | some (i, sw) =>
      if !sw.enabled P.values then .ok (P, ArgumentParseResult.make false [])
      else .ok (P.setSwitchValue i true, ArgumentParseResult.make true [])

/-! ## The parse driver (`cmdline.cpp` 100-139) -/

/-- The parser together with the locals of `Parser::parse`. -/
structure ParseState where
  parser : Parser
  result : ParseResult
  activeOption : Option Nat
  pos : Nat

/-- One iteration of the loop of `Parser::parse`, for the token `arg`. -/
def parseToken (s : ParseState) (arg : Str) : Except Fault ParseState :=
  match s.activeOption with
  | some i =>
    .ok { s with parser := s.parser.setOptionValue i arg, activeOption := none }
  | none =>
    let argres := ArgumentParseResult.make false []
    let r1 := s.parser.parseArgument arg s.pos
    let m1 := argres.merge r1.2.2
    if m1.2 then .ok { s with parser := r1.1, pos := r1.2.1 }
    else
      (r1.1.parseOption arg s.activeOption).bind fun r2 =>
      let m2 := m1.1.merge r2.2.2
      if m2.2 then .ok { s with parser := r2.1, pos := r1.2.1, activeOption := r2.2.1 }
      else
        (r2.1.parseSwitch arg).bind fun r3 =>
        let m3 := m2.1.merge r3.2
        if m3.2 then .ok { s with parser := r3.1, pos := r1.2.1, activeOption := r2.2.1 }
        else
          .ok { parser := r3.1, result := (s.result.mergeArg m3.1).1,
                activeOption := r2.2.1, pos := r1.2.1 }

/-- The loop of `Parser::parse` over the remaining tokens. -/
def parseTokens (s : ParseState) : List Str → Except Fault ParseState
  | [] => .ok s
  | arg :: rest => (parseToken s arg).bind fun s1 => parseTokens s1 rest

/-- The state in which the loop of `Parser::parse` starts, `cmdname` being stored. -/
def Parser.start (P : Parser) (cmdname : Str) : ParseState :=
  { parser := { P with cmdname := cmdname }, result := { errors := [] },
    activeOption := none, pos := 0 }

/-- The two post-passes of `Parser::parse` and its return value. -/
def ParseState.finish (s : ParseState) : Parser × ParseResult :=
  let m1 := s.result.mergeArg s.parser.validateArguments
  let m2 := m1.1.mergeArg s.parser.validateOptions
  (s.parser, m2.1)

/-- `Parser::parse(const std::vector<std::string>& args)` below its `assert`, lines
104-138: the parser after the call and the returned result. This is what runs once the
assertion holds, and all that runs when `assert` is compiled out (`NDEBUG`). On an empty
vector `args.begin() + 1` is past the end. -/
def Parser.parseBody (P : Parser) (args : List Str) : Except Fault (Parser × ParseResult) :=
  match args with
  | [] => .error Fault.undefined
  | cmdname :: rest => (parseTokens (P.start cmdname) rest).bind fun s => .ok s.finish

/-- `Parser::parse(const std::vector<std::string>& args)`: the `assert` on
`validateCommand`, line 102, then the body. -/
def Parser.parse (P : Parser) (args : List Str) : Except Fault (Parser × ParseResult) :=
  if !P.validateCommand.toBool then .error Fault.assertion else P.parseBody args

/-! ## Help request and rendered forms (`cmdline.h` 256-260, `cmdline.cpp` 499-517) -/

/-- `Parser::helpRequested`: `sw && sw->on()` for `sw = getSwitch("help")`. -/
def Parser.helpRequested (P : Parser) : Bool :=
  match P.getSwitch "help".toList with
  | some (_, sw) => sw.on
  | none => false

/-- A `const Argument&` together with the dynamic type of the object it refers to. -/
inductive Param where
  | argument (a : Argument)
  | option (o : CmdOption)
  | switch (s : Switch)

/-- The `Argument` base of the object. -/
def Param.toArgument : Param → Argument
  | .argument a => a
  | .option o => o.toArgument
  | .switch s => s.toArgument

/-- The cast `dynamic_cast<const Option*>(&arg)`: null for a plain `Argument`. -/
def Param.asOption : Param → Option CmdOption
  | .argument _ => none
  | .option o => some o
  | .switch s => some s.toCmdOption

/-- The virtual call `expectsValue()`. -/
def Param.expectsValue : Param → Bool
  | .argument a => a.expectsValue
  | .option o => o.expectsValue
  | .switch s => s.expectsValue

/-- `Parser::getArgRepresentation`; `if (opt->abbr)` tests the character against zero. -/
def getArgRepresentation (arg : Param) : Str :=
  match arg.asOption with
  | some opt =>
    let res := "--".toList ++ opt.name
    let res := if opt.abbr ≠ NoAbbr then (res ++ ", -".toList) ++ [opt.abbr] else res
    let res := if arg.expectsValue then res ++ " [value]".toList else res
    res
  | none => arg.toArgument.name

/-! ## Help text (`cmdline.cpp` 408-416, 519-614) -/

/-- `Parser::getArguments`: the enabled arguments, in registration order. -/
def Parser.getArguments (P : Parser) : List Argument :=
  P.args.filter fun arg => arg.enabled P.values

/-- `Parser::getOptions`: the enabled options, in registration order. -/
def Parser.getOptions (P : Parser) : List CmdOption :=
  P.options.filter fun opt => opt.enabled P.values

/-- `Parser::getSwitches`: the enabled switches, in registration order. -/
def Parser.getSwitches (P : Parser) : List Switch :=
  P.switches.filter fun sw => sw.enabled P.values

/-- `Parser::getNameLength`: the loop over `args` with the local `result`. -/
def Parser.getNameLength (P : Parser) (args : List Param) : Nat :=
  args.foldl
    (fun result arg =>
      let width := (getArgRepresentation arg).length
      if width ≤ P.helpMaxArgWidth ∧ width > result then width else result)
    0

/-- The number of values of `int`, 32 bits wide. -/
def INT_MOD : Nat := 2 ^ 32

/-- The `int` that `std::setw(int)` receives for a `size_t` argument: the value modulo
`2^32`, read in two's complement. -/
def toInt (n : Nat) : Int :=
  if n % INT_MOD < 2 ^ 31 then ((n % INT_MOD : Nat) : Int)
  else ((n % INT_MOD : Nat) : Int) - (INT_MOD : Int)

/-- The output of `str << std::setw(w) << text` on a stream with `std::ios::left` set and
the default fill character: the text, then spaces up to the field width; a text that is
as long as the width or longer is written as it is. -/
def putLeft (w : Nat) (text : Str) : Str :=
  text ++ List.replicate (toInt w - (text.length : Int)).toNat ' '

/-- One iteration of the loop of the lambda `section` in `Parser::getHelp`: what is
written to the stream for the entry `arg`. -/
def sectionEntry (widest : Nat) (arg : Param) : Str :=
  let name := getArgRepresentation arg
  let width := name.length
  let indent := List.replicate 2 ' '
  let str :=
    if width > widest then (indent ++ name ++ "\n".toList) ++ (indent ++ putLeft widest " ".toList)
    else indent ++ putLeft widest name
  if !arg.toArgument.description.isEmpty then
    str ++ " = ".toList ++ (arg.toArgument.description ++ "\n".toList)
  else str ++ "\n".toList

/-- The lambda `section(args, name)` in `Parser::getHelp`: the content of the string
stream it returns. -/
def Parser.sectionText (P : Parser) (args : List Param) (name : Str) : Str :=
  let widest := P.getNameLength args
  let str := if !name.isEmpty then name ++ ":\n".toList else []
  args.foldl (fun str arg => str ++ sectionEntry widest arg) str

/-- `Parser::getHelp`. -/
def Parser.getHelp (P : Parser) : Str :=
  let result : Str := []
  let result :=
    match P.helpPred with
    | some help => result ++ (help ++ "\n\n".toList)
    | none => result
  let result := result ++ "Usage:\n\n".toList
  let args := P.getArguments
  let opts := P.getOptions
  let switches := P.getSwitches
  let result := result ++ ("  ".toList ++ P.cmdname ++ " [Options]".toList)
  let result := args.foldl (fun result arg => result ++ (" <".toList ++ arg.name ++ ">".toList))
    result
  let result := result ++ "\n".toList
  let result :=
    if !args.isEmpty then
      result ++ ("\n".toList ++ P.sectionText (args.map Param.argument) "Arguments".toList)
    else result
  let allOptions := opts.map Param.option ++ switches.map Param.switch
  let result :=
    if !allOptions.isEmpty then
      result ++ ("\n".toList ++ P.sectionText allOptions "Options".toList)
    else result
  result

/-- `Parser::setHelp(const std::string&)`: the producer `staticHelp(help)`. -/
def Parser.setHelp (P : Parser) (help : Str) : Parser :=
  { P with helpPred := some help }

/-! ## Vocabulary of the statements -/

/-- The test "this argument is required". -/
def Argument.isRequired (a : Argument) : Bool := a.required == Req.required

/-- The test "the token is not option-shaped", the condition under which
`parseArgument` handles it. -/
def isPositional (arg : Str) : Bool := !isOption arg && !isOptionAbbr arg

/-- The test "slot `pos` holds a registered argument that is enabled now", the condition
under which `parseArgument` accepts a positional token. -/
def Parser.slotOpen (P : Parser) (pos : Nat) : Bool :=
  match P.getArgumentAt pos with
  | some a => a.enabled P.values
  | none => false

/-- The parser after the tokens `ts` were stored, in order, in the positional arguments
of the slots `pos`, `pos + 1`, ... -/
def Parser.storeArgs : Parser → Nat → List Str → Parser
  | P, _, [] => P
  | P, pos, t :: ts => (P.setArgValue pos t).storeArgs (pos + 1) ts

/-! ## Example parsers (those named after a test case are from `test/parsertest.cpp`) -/

/-- `Parser::addArgument(name, value)` with the declared defaults of the other
parameters (`Req::required`, empty description, `enableAlways()`). -/
def Parser.addArgumentNamed (P : Parser) (name value : String) (req : Req) : Parser :=
  P.addArgument (Argument.new name.toList value.toList req [] enableAlways)

/-- `Parser::addOption(name, abbr, value)` with the declared defaults of the other
parameters (empty description, `enableAlways()`). -/
def Parser.addOptionNamed (P : Parser) (name : String) (abbr : Char) (value : String)
    (req : Req) : Parser :=
  P.addOption (CmdOption.new name.toList abbr value.toList req [] enableAlways)

/-- Test case "Parsing arguments": `qwerty` with value `default`, then `asdfgh`. -/
def testParsingArguments : Parser :=
  ((Parser.new true).addArgumentNamed "qwerty" "default" Req.required).addArgumentNamed
    "asdfgh" "" Req.required

/-- Test case "Nonexistent arguments": the single argument `aaa`. -/
def testNonexistentArguments : Parser :=
  (Parser.new true).addArgumentNamed "aaa" "" Req.required

/-- Test case "Defaults": the single argument `aaa` with value `default val`. -/
def testDefaults : Parser :=
  (Parser.new true).addArgumentNamed "aaa" "default val" Req.required

/-- Two required arguments `aaa` and `bbb` and two required options `oo` and `pp`, all
without a value. -/
def testSeveralMissing : Parser :=
  ((((Parser.new true).addArgumentNamed "aaa" "" Req.required).addArgumentNamed
    "bbb" "" Req.required).addOptionNamed "oo" NoAbbr "" Req.required).addOptionNamed
    "pp" NoAbbr "" Req.required

/-- Test cases "Parsing options" and "Parsing options with short syntax": the option
`qwerty` with abbreviation `q` and value `default`, then the option `asdfgh`. -/
def testParsingOptions : Parser :=
  ((Parser.new true).addOptionNamed "qwerty" 'q' "default" Req.optional).addOptionNamed
    "asdfgh" NoAbbr "" Req.optional

/-- A parser whose only option is named `a=b`. -/
def testEqualsInName : Parser :=
  (Parser.new true).addOptionNamed "a=b" NoAbbr "" Req.optional

/-- A parser whose only option is `dash`, abbreviated by the character `-`. -/
def testDashAbbr : Parser :=
  (Parser.new true).addOptionNamed "dash" '-' "" Req.optional

/-- Test case "Parsing conditional arguments": after the automatic `help` switch (index
0) the switch `switch` (index 1), and the argument `arg` enabled when that switch is
set. -/
def testConditionalArguments : Parser :=
  ((Parser.new true).addSwitch (Switch.new "switch".toList NoAbbr [] enableAlways)).addArgument
    (Argument.new "arg".toList [] Req.required [] (enableWhenSwitchIsSet 1))

/-- The index of the option registered under the abbreviation `c`, when it is enabled
now: what lets `parseOption` take a short-form token that starts with `c`. -/
def Parser.openOptionByChar (P : Parser) (c : Char) : Option Nat :=
  match P.getOptionByChar c with
  | some (i, o) => if o.enabled P.values then some i else none
  | none => none

/-- The index of the switch registered under the abbreviation `c`, when it is enabled
now. -/
def Parser.openSwitchByChar (P : Parser) (c : Char) : Option Nat :=
  match P.getSwitchByChar c with
  | some (j, sw) => if sw.enabled P.values then some j else none
  | none => none

/-- The parser after the switches abbreviated by the characters `cs` were set on, one
after the other (a character that is no enabled switch when it is reached sets
nothing). -/
def Parser.setSwitches : Parser → List Char → Parser
  | P, [] => P
  | P, c :: cs =>
    match P.openSwitchByChar c with
    | some j => (P.setSwitchValue j true).setSwitches cs
    | none => P.setSwitches cs

/-- The test "every character of `cs` is the abbreviation of a registered switch that is
enabled when the character is reached", the earlier switches being set on. -/
def Parser.allOpen : Parser → List Char → Bool
  | _, [] => true
  | P, c :: cs =>
    match P.openSwitchByChar c with
    | some j => (P.setSwitchValue j true).allOpen cs
    | none => false

/-- The switch that `Parser::addStandardHelpSwitch` registers. -/
def standardHelpSwitch : Switch :=
  Switch.new "help".toList '?' "Show help message".toList enableAlways

/-- The parser was built with auto-help: its first switch is the standard help switch,
whatever its value is by now. -/
def Parser.builtWithAutoHelp (P : Parser) : Prop :=
  ∃ v rest, P.switches = { standardHelpSwitch with value := v } :: rest

/-- Test cases "Requesting help": the required argument `arg`, with auto-help. -/
def testRequestingHelp : Parser :=
  (Parser.new true).addArgumentNamed "arg" "" Req.required

/-- A parser with the switch `expert` (index 1), the switch `level` abbreviated `l`
(index 2), and the option `level` abbreviated `l` that is enabled when `expert` is
set. -/
def testOptionAndSwitch : Parser :=
  (((Parser.new true).addSwitch (Switch.new "expert".toList 'x' [] enableAlways)).addSwitch
    (Switch.new "level".toList 'l' [] enableAlways)).addOption
    (CmdOption.new "level".toList 'l' [] Req.optional [] (enableWhenSwitchIsSet 1))

/-- A parser with the switches `aa` abbreviated `a` (index 1) and `bb` abbreviated `b`
(index 2), after the automatic `help` switch. -/
def testTwoSwitches : Parser :=
  ((Parser.new true).addSwitch (Switch.new "aa".toList 'a' [] enableAlways)).addSwitch
    (Switch.new "bb".toList 'b' [] enableAlways)

/-! ## Vocabulary of the frame and idempotence statements -/

/-- The test "the token `t`, read as an option, resolves to the option at index `i`":
by its long name, or by the first character of its short form. -/
def tokenNamesOption (P : Parser) (t : Str) (i : Nat) : Bool :=
  if isOption t then
    match getOptionName t with
    | .ok n => (P.getOption n).map (fun r => r.1) == some i
    | .error _ => false
  else if isOptionAbbr t then
    match getOptionAbbr t with
    | .ok (c :: _) => (P.getOptionByChar c).map (fun r => r.1) == some i
    | _ => false
  else false

/-- The test "the token `t`, read as a switch, resolves to the switch at index `j`": by
its long name, or by one of the characters of its short form. -/
def tokenNamesSwitch (P : Parser) (t : Str) (j : Nat) : Bool :=
  if isOption t then
    match getOptionName t with
    | .ok n => (P.getSwitch n).map (fun r => r.1) == some j
    | .error _ => false
  else if isOptionAbbr t then
    match getOptionAbbr t with
    | .ok cl => cl.any fun c => (P.getSwitchByChar c).map (fun r => r.1) == some j
    | .error _ => false
  else false

/-- No enablement predicate of the parser depends on the values of the parameters (as
is the case when all predicates are `enableAlways()`). -/
def Parser.constPreds (P : Parser) : Prop :=
  (∀ a ∈ P.args, ∀ v w : Values, a.enablePred v = a.enablePred w) ∧
  (∀ o ∈ P.options, ∀ v w : Values, o.enablePred v = o.enablePred w) ∧
  (∀ s ∈ P.switches, ∀ v w : Values, s.enablePred v = s.enablePred w)

/-- One assignment made while a token is dispatched. -/
inductive Write where
  /-- `argument->value = v` for the argument at index `k`. -/
  | arg (k : Nat) (v : Str)
  /-- `option->value = v` for the option at index `i`. -/
  | opt (i : Nat) (v : Str)
  /-- `sw->setValue(true)` for the switch at index `j`. -/
  | sw (j : Nat)

/-- The parser after one assignment. -/
def Parser.write (P : Parser) : Write → Parser
  | .arg k v => P.setArgValue k v
  | .opt i v => P.setOptionValue i v
  | .sw j => P.setSwitchValue j true

/-- The parser after a sequence of assignments. -/
def Parser.writes (P : Parser) (ws : List Write) : Parser :=
  ws.foldl Parser.write P

/-- The record with its value erased. -/
def Argument.blank (a : Argument) : Argument := { a with value := [] }

/-- The record with its value erased. -/
def CmdOption.blank (o : CmdOption) : CmdOption := { o with value := [] }

/-- The record with its value erased. -/
def Switch.blank (s : Switch) : Switch := { s with value := [] }

/-- The registry of the parser: the parser with all values erased. -/
def Parser.blank (P : Parser) : Parser :=
  { P with args := P.args.map Argument.blank, options := P.options.map CmdOption.blank,
           switches := P.switches.map Switch.blank }

/-- Two parsers with the same registry, of which either the predicates ignore the values
or the two are the same parser: dispatch takes the same decisions on both. -/
def Sim (P Q : Parser) : Prop :=
  Q.blank = P.blank ∧ (P.constPreds ∨ Q = P)

/-- The value last written to the argument at index `k`, if any. -/
def lastArg (k : Nat) : List Write → Option Str
  | [] => none
  | w :: ws =>
    match lastArg k ws with
    | some v => some v
    | none =>
      match w with
      | .arg k2 v => if k2 = k then some v else none
      | _ => none

/-- The value last written to the option at index `i`, if any. -/
def lastOpt (i : Nat) : List Write → Option Str
  | [] => none
  | w :: ws =>
    match lastOpt i ws with
    | some v => some v
    | none =>
      match w with
      | .opt i2 v => if i2 = i then some v else none
      | _ => none

/-- The test "the switch at index `j` was set on". -/
def lastSw (j : Nat) : List Write → Bool
  | [] => false
  | w :: ws =>
    lastSw j ws ||
      match w with
      | .sw j2 => decide (j2 = j)
      | _ => false

/-- The assignments one run of the token loop may make: to an argument slot the loop
passes over (from `lo`, below `hi`), to the option pending when the run starts or one a
token of `V` resolves to, and to a switch a token of `V` resolves to. -/
def Write.allowed (P : Parser) (lo hi : Nat) (act : Option Nat) (V : List Str) :
    Write → Prop
  | .arg k _ => lo ≤ k ∧ k < hi
  | .opt i _ => act = some i ∨ ∃ t ∈ V, tokenNamesOption P t i = true
  | .sw j => ∃ t ∈ V, tokenNamesSwitch P t j = true

/-- The parser of the test case "Parsing conditional arguments" with its argument made
optional: the switch `switch` (index 1), and the optional argument `arg` enabled when
that switch is set. -/
def testConditionalOptional : Parser :=
  ((Parser.new true).addSwitch (Switch.new "switch".toList NoAbbr [] enableAlways)).addArgument
    (Argument.new "arg".toList [] Req.optional [] (enableWhenSwitchIsSet 1))

/-- The parser of the test case "Parsing conditional arguments" with the abbreviation `s`
for its switch `switch` (index 1); the argument `arg` is enabled when that switch is
set. -/
def testConditionalAbbr : Parser :=
  ((Parser.new true).addSwitch (Switch.new "switch".toList 's' [] enableAlways)).addArgument
    (Argument.new "arg".toList [] Req.required [] (enableWhenSwitchIsSet 1))

/-- A parser whose only option is `eq`, abbreviated by the character `=`. -/
def testEqualsAbbr : Parser :=
  (Parser.new true).addOptionNamed "eq" '=' "" Req.optional

/-- Test case "Help arguments" of `test/helptest.cpp`. -/
def testHelpArguments : Parser :=
  ((((((Parser.new true).addArgument
    (Argument.new "arg".toList "default-value".toList Req.required "Some desc".toList
      enableAlways)).addArgumentNamed "arg-simple" "" Req.required).addOption
    (CmdOption.new "opt".toList 'o' "1337".toList Req.required "An option".toList
      enableAlways)).addOptionNamed "opt-simple" NoAbbr "" Req.optional).addSwitch
    (Switch.new "switch".toList 's' "A switch".toList enableAlways)).addSwitch
    (Switch.new "switch-simple".toList NoAbbr [] enableAlways)

/-- Test case "Help description" of `test/helptest.cpp`, before its call of `parse`. -/
def testHelpDescription : Parser :=
  ((Parser.new true).addArgumentNamed "arg" "" Req.required).setHelp
    "Example description".toList

/-- A parser without auto-help whose only option has a rendered form of 59 characters,
more than `helpMaxArgWidth`. -/
def testHelpWideOption : Parser :=
  (Parser.new false).addOption
    (CmdOption.new "output-directory-for-intermediate-build-artifacts".toList NoAbbr []
      Req.optional "Where to build".toList enableAlways)

/-- A parser with two optional arguments: one with the empty name, one whose name has 55
characters, more than `helpMaxArgWidth`. -/
def testHelpWideArgument : Parser :=
  ((Parser.new false).addArgument
    (Argument.new [] [] Req.optional "Anything".toList enableAlways)).addArgument
    (Argument.new "path-of-the-configuration-file-to-read-at-program-start".toList []
      Req.optional "Settings".toList enableAlways)

/-! ## Auxiliary facts -/

section Basics

@[simp] theorem except_bind_ok {α β : Type} (a : α) (f : α → Except Fault β) :
    (Except.ok a : Except Fault α).bind f = f a := rfl

@[simp] theorem except_bind_error {α β : Type} (e : Fault) (f : α → Except Fault β) :
    (Except.error e : Except Fault α).bind f = Except.error e := rfl

@[simp] theorem make_nil_errors (b : Bool) : (ArgumentParseResult.make b []).errors = [] := rfl

@[simp] theorem make_accepted (b : Bool) (e : Str) :
    (ArgumentParseResult.make b e).accepted = b := rfl

theorem make_errors_of_ne_nil (b : Bool) {e : Str} (h : e ≠ []) :
    (ArgumentParseResult.make b e).errors = [e] := by
  cases e with
  | nil => exact absurd rfl h
  | cons c cs => rfl

theorem msgExcessPositional_ne_nil (pos : Nat) : msgExcessPositional pos ≠ [] := by
  simp [msgExcessPositional]

theorem msgArgumentRequired_ne_nil (name : Str) : msgArgumentRequired name ≠ [] := by
  simp [msgArgumentRequired]

theorem msgOptionRequired_ne_nil (name : Str) : msgOptionRequired name ≠ [] := by
  simp [msgOptionRequired]

theorem msgUnknownOption_ne_nil (arg : Str) : msgUnknownOption arg ≠ [] := by
  simp [msgUnknownOption]

theorem msgUnknownSwitch_ne_nil (arg : Str) : msgUnknownSwitch arg ≠ [] := by
  simp [msgUnknownSwitch]

end Basics

/-! ## Command validation -/

section ValidateCommand

theorem isRequired_of_required {a : Argument} (h : a.required = Req.required) :
    a.isRequired = true := by
  simp [Argument.isRequired, h]

theorem isRequired_of_optional {a : Argument} (h : a.required = Req.optional) :
    a.isRequired = false := by
  rw [Argument.isRequired, h]; rfl

theorem validateCommandLoop_true (args : List Argument) (res : ParseResult) :
    validateCommandLoop args true res =
      { errors := res.errors ++
          (args.filter Argument.isRequired).map fun a => msgCannotBeOptional a.name } := by
  induction args generalizing res with
  | nil => simp [validateCommandLoop]
  | cons a rest ih =>
    cases hr : a.required
    · have h1 : (a.required == Req.optional) = false := by rw [hr]; rfl
      simp [validateCommandLoop, h1, ih, isRequired_of_required hr, ParseResult.merge]
    · have h1 : (a.required == Req.optional) = true := by rw [hr]; rfl
      simp [validateCommandLoop, h1, ih, isRequired_of_optional hr]

theorem validateCommandLoop_false (args : List Argument) (res : ParseResult) :
    validateCommandLoop args false res =
      { errors := res.errors ++
          ((args.dropWhile Argument.isRequired).filter Argument.isRequired).map
            fun a => msgCannotBeOptional a.name } := by
  induction args generalizing res with
  | nil => simp [validateCommandLoop]
  | cons a rest ih =>
    cases hr : a.required
    · have h1 : (a.required == Req.optional) = false := by rw [hr]; rfl
      simp [validateCommandLoop, h1, ih, List.dropWhile_cons, isRequired_of_required hr]
    · have h1 : (a.required == Req.optional) = true := by rw [hr]; rfl
      simp [validateCommandLoop, h1, validateCommandLoop_true, List.dropWhile_cons,
        isRequired_of_optional hr]

theorem validateCommand_errors (P : Parser) :
    P.validateCommand.errors =
      ((P.args.dropWhile Argument.isRequired).filter Argument.isRequired).map
        fun a => msgCannotBeOptional a.name := by
  simp [Parser.validateCommand, validateCommandLoop_false]

theorem shape_of_no_late_required (args : List Argument)
    (h : (args.dropWhile Argument.isRequired).filter Argument.isRequired = []) :
    ∃ m n, args.map (fun a => a.required) =
      List.replicate m Req.required ++ List.replicate n Req.optional := by
  induction args with
  | nil => exact ⟨0, 0, rfl⟩
  | cons a rest ih =>
    cases hr : a.required
    · have h2 : (rest.dropWhile Argument.isRequired).filter Argument.isRequired = [] := by
        simpa [List.dropWhile_cons, isRequired_of_required hr] using h
      obtain ⟨m, n, hmn⟩ := ih h2
      exact ⟨m + 1, n, by simp [hr, hmn, List.replicate_succ]⟩
    · have h3 : (a :: rest).filter Argument.isRequired = [] := by
        simpa [List.dropWhile_cons, isRequired_of_optional hr] using h
      have h2 : ∀ b ∈ rest, b.required = Req.optional := by
        intro b hb
        have h4 := List.filter_eq_nil_iff.mp h3 b (List.mem_cons_of_mem _ hb)
        cases hb2 : b.required
        · exact absurd (isRequired_of_required hb2) h4
        · rfl
      refine ⟨0, rest.length + 1, ?_⟩
      simp only [List.replicate_zero, List.nil_append, List.map_cons, hr, List.replicate_succ]
      congr 1
      apply List.eq_replicate_iff.mpr
      simpa using h2

theorem no_late_required_of_shape (args : List Argument) (m n : Nat)
    (h : args.map (fun a => a.required) =
      List.replicate m Req.required ++ List.replicate n Req.optional) :
    (args.dropWhile Argument.isRequired).filter Argument.isRequired = [] := by
  induction args generalizing m with
  | nil => rfl
  | cons a rest ih =>
    cases m with
    | zero =>
      have hall : ∀ b ∈ a :: rest, b.required = Req.optional := by
        intro b hb
        have : b.required ∈ (a :: rest).map (fun a => a.required) :=
          List.mem_map_of_mem _ hb
        rw [h] at this
        simpa using (List.mem_replicate.mp (by simpa using this)).2
      have ha : a.required = Req.optional := hall a (List.mem_cons_self _ _)
      rw [List.dropWhile_cons, isRequired_of_optional ha]
      apply List.filter_eq_nil_iff.mpr
      intro b hb
      simp [isRequired_of_optional (hall b hb)]
    | succ k =>
      simp only [List.map_cons, List.replicate_succ, List.cons_append, List.cons.injEq] at h
      rw [List.dropWhile_cons, isRequired_of_required h.1]
      exact ih k h.2

end ValidateCommand

/-- C10: `validateCommand` reports, in registration order, exactly one error
`Positional argument "<name>" cannot be optional` for each required argument registered
after some optional one (the required arguments left once the leading run of required
arguments is dropped); it is truthy iff the requirement flags have the shape
`required* optional*`; and its result depends on the names and requirement flags only,
not on values or enablement predicates. -/
theorem validateCommand_spec (P : Parser) :
    P.validateCommand.errors =
        ((P.args.dropWhile Argument.isRequired).filter Argument.isRequired).map
          (fun a => msgCannotBeOptional a.name) ∧
    (P.validateCommand.toBool = true ↔
      ∃ m n, P.args.map (fun a => a.required) =
        List.replicate m Req.required ++ List.replicate n Req.optional) ∧
    (∀ Q : Parser,
      Q.args.map (fun a => (a.name, a.required)) =
        P.args.map (fun a => (a.name, a.required)) →
      Q.validateCommand.errors = P.validateCommand.errors) := by
  refine ⟨validateCommand_errors P, ?_, ?_⟩
  · rw [ParseResult.toBool, validateCommand_errors, List.isEmpty_iff, List.map_eq_nil_iff]
    exact ⟨shape_of_no_late_required P.args,
      fun ⟨m, n, h⟩ => no_late_required_of_shape P.args m n h⟩
  · intro Q hQ
    rw [validateCommand_errors, validateCommand_errors]
    have key : ∀ l : List Argument,
        ((l.dropWhile Argument.isRequired).filter Argument.isRequired).map
          (fun a => msgCannotBeOptional a.name) =
        ((((l.map fun a => (a.name, a.required)).dropWhile
          fun p => p.2 == Req.required).filter fun p => p.2 == Req.required).map
            fun p => msgCannotBeOptional p.1) := by
      intro l
      induction l with
      | nil => rfl
      | cons a rest ih =>
        have hfil : ∀ l2 : List Argument,
            (l2.filter Argument.isRequired).map (fun a => msgCannotBeOptional a.name) =
            (((l2.map fun a => (a.name, a.required)).filter
              fun p => p.2 == Req.required).map fun p => msgCannotBeOptional p.1) := by
          intro l2
          induction l2 with
          | nil => rfl
          | cons b r2 ih2 =>
            by_cases hb : b.isRequired = true
            · have hb2 : (b.required == Req.required) = true := hb
              simp [List.filter_cons, hb, hb2, ih2]
            · have hb2 : (b.required == Req.required) = false := by
                simpa [Argument.isRequired] using hb
              simp [List.filter_cons, hb, hb2, ih2]
        by_cases ha : a.isRequired = true
        · have ha2 : (a.required == Req.required) = true := ha
          simp only [List.map_cons, List.dropWhile_cons, ha, ha2, if_true]
          exact ih
        · have ha2 : (a.required == Req.required) = false := by
            simpa [Argument.isRequired] using ha
          have ha3 : a.isRequired = false := by simpa using ha
          simp only [List.map_cons, List.dropWhile_cons, ha3, ha2]
          exact hfil (a :: rest)
    rw [key Q.args, key P.args, hQ]

/-! ## Positional tokens -/

section Positional

theorem parseOption_positional (P : Parser) (arg : Str) (act : Option Nat)
    (h : isPositional arg = true) :
    P.parseOption arg act = .ok (P, act, ArgumentParseResult.make false []) := by
  simp only [isPositional, Bool.and_eq_true, Bool.not_eq_true'] at h
  simp [Parser.parseOption, h.1, h.2]

theorem parseSwitch_positional (P : Parser) (arg : Str) (h : isPositional arg = true) :
    P.parseSwitch arg = .ok (P, ArgumentParseResult.make false []) := by
  simp only [isPositional, Bool.and_eq_true, Bool.not_eq_true'] at h
  simp [Parser.parseSwitch, h.1, h.2]

theorem parseArgument_closed (P : Parser) (arg : Str) (pos : Nat)
    (h : isPositional arg = true) (hslot : P.slotOpen pos = false) :
    P.parseArgument arg pos =
      (P, pos, ArgumentParseResult.make false (msgExcessPositional pos)) := by
  simp only [isPositional, Bool.and_eq_true, Bool.not_eq_true'] at h
  unfold Parser.slotOpen at hslot
  unfold Parser.parseArgument
  cases hg : P.getArgumentAt pos with
  | none => simp [h.1, h.2]
  | some a =>
    rw [hg] at hslot
    simp only at hslot
    simp [h.1, h.2, hslot]

theorem parseArgument_open (P : Parser) (arg : Str) (pos : Nat)
    (h : isPositional arg = true) (hslot : P.slotOpen pos = true) :
    P.parseArgument arg pos =
      (P.setArgValue pos arg, pos + 1, ArgumentParseResult.make true []) := by
  simp only [isPositional, Bool.and_eq_true, Bool.not_eq_true'] at h
  unfold Parser.slotOpen at hslot
  unfold Parser.parseArgument
  cases hg : P.getArgumentAt pos with
  | none => rw [hg] at hslot; exact absurd hslot (by simp)
  | some a =>
    rw [hg] at hslot
    simp only at hslot
    simp [h.1, h.2, hslot]

theorem parseToken_closed (s : ParseState) (arg : Str) (hidle : s.activeOption = none)
    (h : isPositional arg = true) (hslot : s.parser.slotOpen s.pos = false) :
    parseToken s arg =
      .ok { s with result := { errors := s.result.errors ++ [msgExcessPositional s.pos] } } := by
  cases s with
  | mk P res act pos =>
    simp only at hidle hslot
    subst hidle
    simp [parseToken, parseArgument_closed P arg pos h hslot, parseOption_positional P arg _ h,
      parseSwitch_positional P arg h, ArgumentParseResult.merge, ArgumentParseResult.toBool,
      ParseResult.mergeArg, make_errors_of_ne_nil _ (msgExcessPositional_ne_nil pos)]

theorem parseToken_open (s : ParseState) (arg : Str) (hidle : s.activeOption = none)
    (h : isPositional arg = true) (hslot : s.parser.slotOpen s.pos = true) :
    parseToken s arg =
      .ok { s with parser := s.parser.setArgValue s.pos arg, pos := s.pos + 1 } := by
  cases s with
  | mk P res act pos =>
    simp only at hidle hslot
    subst hidle
    simp [parseToken, parseArgument_open P arg pos h hslot, ArgumentParseResult.merge,
      ArgumentParseResult.toBool]

theorem parseTokens_closed (s : ParseState) (ts : List Str) (hidle : s.activeOption = none)
    (h : ∀ t ∈ ts, isPositional t = true) (hslot : s.parser.slotOpen s.pos = false) :
    parseTokens s ts =
      .ok { s with result :=
        { errors := s.result.errors ++ ts.map fun _ => msgExcessPositional s.pos } } := by
  induction ts generalizing s with
  | nil => simp [parseTokens]
  | cons t rest ih =>
    rw [parseTokens, parseToken_closed s t hidle (h t (List.mem_cons_self _ _)) hslot]
    simp only [except_bind_ok]
    rw [ih]
    · simp
    · exact hidle
    · exact fun u hu => h u (List.mem_cons_of_mem _ hu)
    · exact hslot

theorem parseTokens_open (s : ParseState) (ts : List Str) (hidle : s.activeOption = none)
    (h : ∀ t ∈ ts, isPositional t = true)
    (hslot : ∀ j, j < ts.length →
      (s.parser.storeArgs s.pos (ts.take j)).slotOpen (s.pos + j) = true) :
    parseTokens s ts =
      .ok { s with parser := s.parser.storeArgs s.pos ts, pos := s.pos + ts.length } := by
  induction ts generalizing s with
  | nil => simp [parseTokens, Parser.storeArgs]
  | cons t rest ih =>
    have h0 : s.parser.slotOpen s.pos = true := by
      simpa [Parser.storeArgs] using hslot 0 (by simp)
    rw [parseTokens, parseToken_open s t hidle (h t (List.mem_cons_self _ _)) h0]
    simp only [except_bind_ok]
    rw [ih]
    · simp [Parser.storeArgs, Nat.add_assoc, Nat.add_comm 1]
    · exact hidle
    · exact fun u hu => h u (List.mem_cons_of_mem _ hu)
    · intro j hj
      have := hslot (j + 1) (by simpa using hj)
      simpa [Parser.storeArgs, Nat.add_assoc, Nat.add_comm 1] using this

end Positional

/-! ## Stored values -/

section Stored

theorem modifyAt_length {α : Type} (f : α → α) (i : Nat) (l : List α) :
    (modifyAt f i l).length = l.length := by
  induction l generalizing i with
  | nil => simp [modifyAt]
  | cons x xs ih => cases i <;> simp [modifyAt, ih]

theorem modifyAt_getElem? {α : Type} (f : α → α) (i j : Nat) (l : List α) :
    (modifyAt f i l)[j]? = if i = j then l[j]?.map f else l[j]? := by
  induction l generalizing i j with
  | nil => simp [modifyAt]
  | cons x xs ih =>
    cases i with
    | zero => cases j <;> simp [modifyAt]
    | succ i => cases j <;> simp [modifyAt, ih]

theorem setArgValue_values (P : Parser) (i j : Nat) (v : Str) :
    ((P.setArgValue i v).args.map fun a => a.value)[j]? =
      if i = j ∧ j < P.args.length then some v else (P.args.map fun a => a.value)[j]? := by
  simp only [Parser.setArgValue, List.getElem?_map, modifyAt_getElem?]
  by_cases hij : i = j
  · subst hij
    by_cases hlt : i < P.args.length
    · simp [hlt, List.getElem?_eq_getElem hlt]
    · simp [hlt, List.getElem?_eq_none (Nat.le_of_not_lt hlt)]
  · simp [hij]

theorem setArgValue_length (P : Parser) (i : Nat) (v : Str) :
    (P.setArgValue i v).args.length = P.args.length := by
  simp [Parser.setArgValue, modifyAt_length]

theorem storeArgs_length (P : Parser) (pos : Nat) (ts : List Str) :
    (P.storeArgs pos ts).args.length = P.args.length := by
  induction ts generalizing P pos with
  | nil => rfl
  | cons t rest ih => simp [Parser.storeArgs, ih, setArgValue_length]

theorem storeArgs_options (P : Parser) (pos : Nat) (ts : List Str) :
    (P.storeArgs pos ts).options = P.options := by
  induction ts generalizing P pos with
  | nil => rfl
  | cons t rest ih => simp [Parser.storeArgs, ih, Parser.setArgValue]

theorem storeArgs_switches (P : Parser) (pos : Nat) (ts : List Str) :
    (P.storeArgs pos ts).switches = P.switches := by
  induction ts generalizing P pos with
  | nil => rfl
  | cons t rest ih => simp [Parser.storeArgs, ih, Parser.setArgValue]

theorem storeArgs_cmdname (P : Parser) (c : Str) (pos : Nat) (ts : List Str) :
    ({ P with cmdname := c } : Parser).storeArgs pos ts =
      { P.storeArgs pos ts with cmdname := c } := by
  induction ts generalizing P pos with
  | nil => rfl
  | cons t rest ih =>
    simp only [Parser.storeArgs]
    rw [← ih]
    rfl

theorem slotOpen_cmdname (P : Parser) (c : Str) (pos : Nat) :
    ({ P with cmdname := c } : Parser).slotOpen pos = P.slotOpen pos := rfl

theorem storeArgs_values_getElem? (P : Parser) (pos : Nat) (ts : List Str) (j : Nat)
    (hfit : pos + ts.length ≤ P.args.length) :
    ((P.storeArgs pos ts).args.map fun a => a.value)[j]? =
      if pos ≤ j ∧ j < pos + ts.length then ts[j - pos]?
      else (P.args.map fun a => a.value)[j]? := by
  induction ts generalizing P pos with
  | nil =>
    have h0 : ¬ (pos ≤ j ∧ j < pos + ([] : List Str).length) := by simp
    simp only [Parser.storeArgs, h0, if_false]
  | cons t rest ih =>
    simp only [List.length_cons] at hfit
    rw [Parser.storeArgs, ih _ _ (by rw [setArgValue_length]; omega), setArgValue_values]
    by_cases h1 : pos + 1 ≤ j ∧ j < pos + 1 + rest.length
    · have h2 : pos ≤ j ∧ j < pos + (rest.length + 1) := by omega
      have h3 : j - pos = (j - (pos + 1)) + 1 := by omega
      simp only [h1, h2, and_self, if_true, List.length_cons]
      rw [h3, List.getElem?_cons_succ]
    · by_cases h4 : pos = j
      · subst h4
        have h5 : pos < P.args.length := by omega
        simp [h5]
      · have h6 : ¬ (pos ≤ j ∧ j < pos + (rest.length + 1)) := by omega
        simp only [h1, h4, h6, if_false, false_and, List.length_cons]

theorem storeArgs_values (P : Parser) (ts : List Str) (hfit : ts.length ≤ P.args.length) :
    ((P.storeArgs 0 ts).args.map fun a => a.value) =
      ts ++ (P.args.map fun a => a.value).drop ts.length := by
  apply List.ext_getElem?
  intro j
  rw [storeArgs_values_getElem? P 0 ts j (by omega)]
  by_cases hj : j < ts.length
  · simp [hj, List.getElem?_append_left hj]
  · have hj2 : ts.length ≤ j := Nat.le_of_not_lt hj
    simp only [Nat.zero_le, Nat.zero_add, hj, and_false, if_false]
    rw [List.getElem?_append_right hj2, List.getElem?_drop]
    congr 1
    omega

theorem slotOpen_lt (P : Parser) (pos : Nat) (h : P.slotOpen pos = true) :
    pos < P.args.length := by
  unfold Parser.slotOpen Parser.getArgumentAt at h
  by_cases hle : P.args.length ≤ pos
  · simp [hle] at h
  · exact Nat.lt_of_not_le hle

end Stored

/-! ## The post-passes -/

section PostPasses

theorem validateArgumentsLoop_errors (v : Values) (args : List Argument) :
    (validateArgumentsLoop v args).errors = [] ↔
      ∀ a ∈ args, a.enabled v = true → a.required = Req.required → a.value ≠ [] := by
  induction args with
  | nil => simp [validateArgumentsLoop]
  | cons a rest ih =>
    unfold validateArgumentsLoop
    by_cases hen : a.enabled v = true
    · cases hr : a.required
      · cases hval : a.value with
        | nil =>
          simp [hen, hr, hval, make_errors_of_ne_nil _ (msgArgumentRequired_ne_nil a.name)]
        | cons c cs => simp [hen, hr, hval, ih]
      · have h1 : (Req.optional == Req.required) = false := rfl
        simp [hen, hr, h1, ih]
    · simp [hen, ih]

theorem validateOptionsLoop_errors (v : Values) (opts : List CmdOption) :
    (validateOptionsLoop v opts).errors = [] ↔
      ∀ o ∈ opts, o.enabled v = true → o.required = Req.required → o.value ≠ [] := by
  induction opts with
  | nil => simp [validateOptionsLoop]
  | cons o rest ih =>
    unfold validateOptionsLoop
    by_cases hen : o.enabled v = true
    · cases hr : o.required
      · cases hval : o.value with
        | nil =>
          simp [hen, hr, hval, make_errors_of_ne_nil _ (msgOptionRequired_ne_nil o.name)]
        | cons c cs => simp [hen, hr, hval, ih]
      · have h1 : (Req.optional == Req.required) = false := rfl
        simp [hen, hr, h1, ih]
    · simp [hen, ih]

theorem finish_errors (s : ParseState) :
    s.finish.2.errors =
      s.result.errors ++ s.parser.validateArguments.errors ++
        s.parser.validateOptions.errors := rfl

theorem finish_fst (s : ParseState) : s.finish.1 = s.parser := rfl

theorem parseBody_cons (P : Parser) (cmdname : Str) (ts : List Str) :
    P.parseBody (cmdname :: ts) =
      (parseTokens (P.start cmdname) ts).bind fun s => .ok s.finish := rfl

/-- When the assertion of `parse` holds, `parse` is its body. -/
theorem parse_of_valid (P : Parser) (args : List Str)
    (hv : P.validateCommand.toBool = true) : P.parse args = P.parseBody args := by
  simp [Parser.parse, hv]

/-- Whenever `parse` returns, its body returned the same. -/
theorem parseBody_of_parse (P : Parser) (args : List Str) (x : Parser × ParseResult)
    (h : P.parse args = .ok x) : P.parseBody args = .ok x := by
  unfold Parser.parse at h
  by_cases hv : P.validateCommand.toBool = true
  · simpa [hv] using h
  · simp [hv] at h

end PostPasses

/-! ## Claims on positional arguments and on the post-passes -/

section PositionalClaims

/-- C1: for every parser and every argv `cmdname :: ts` in which no token is
option-shaped and each of the first `ts.length` slots holds a registered argument that is
enabled when its token is dispatched, the body of `parse` returns, and so does `parse`
when its assertion on `validateCommand` holds; it stores the tokens, in order, in the
first `ts.length` positional arguments, keeps the values of the later arguments, the
options and the switches, and the result holds no dispatch error (only what the two
post-passes report). -/
theorem parse_positional (P : Parser) (cmdname : Str) (ts : List Str)
    (hts : ∀ t ∈ ts, isPositional t = true)
    (hen : ∀ j, j < ts.length → (P.storeArgs 0 (ts.take j)).slotOpen j = true) :
    ∃ P' r, P.parseBody (cmdname :: ts) = .ok (P', r) ∧
      (P.validateCommand.toBool = true → P.parse (cmdname :: ts) = .ok (P', r)) ∧
      P' = ({ P with cmdname := cmdname } : Parser).storeArgs 0 ts ∧
      (P'.args.map fun a => a.value) = ts ++ (P.args.map fun a => a.value).drop ts.length ∧
      P'.options = P.options ∧ P'.switches = P.switches ∧
      r.errors = P'.validateArguments.errors ++ P'.validateOptions.errors := by
  have hfit : ts.length ≤ P.args.length := by
    cases hl : ts.length with
    | zero => exact Nat.zero_le _
    | succ k =>
      have h1 := slotOpen_lt _ _ (hen k (by omega))
      rw [storeArgs_length] at h1
      omega
  have hrun := parseTokens_open (P.start cmdname) ts rfl hts (by
    intro j hj
    have h1 := hen j hj
    simp only [Parser.start, Nat.zero_add]
    rw [storeArgs_cmdname, slotOpen_cmdname]
    exact h1)
  refine ⟨({ P with cmdname := cmdname } : Parser).storeArgs 0 ts,
    (ParseState.finish { P.start cmdname with
      parser := (P.start cmdname).parser.storeArgs (P.start cmdname).pos ts,
      pos := (P.start cmdname).pos + ts.length }).2, ?_, ?_, rfl, ?_, ?_, ?_, ?_⟩
  · rw [parseBody_cons P cmdname ts, hrun]
    rfl
  · intro hv
    rw [parse_of_valid P _ hv, parseBody_cons P cmdname ts, hrun]
    rfl
  · exact storeArgs_values ({ P with cmdname := cmdname } : Parser) ts hfit
  · exact storeArgs_options ({ P with cmdname := cmdname } : Parser) 0 ts
  · exact storeArgs_switches ({ P with cmdname := cmdname } : Parser) 0 ts
  · rw [finish_errors]
    rfl

/-- C1, on the parser of the test case "Parsing arguments". -/
theorem parse_positional_witness :
    ∃ P' r, testParsingArguments.parse
        ["Test application".toList, "Something".toList, "blabla".toList] = .ok (P', r) ∧
      (P'.args.map fun a => a.value) = ["Something".toList, "blabla".toList] ∧
      r.errors = [] := by
  obtain ⟨P', r, _, h1, h2, h3, _, _, h6⟩ :=
    parse_positional testParsingArguments "Test application".toList
      ["Something".toList, "blabla".toList] (by decide) (by decide)
  refine ⟨P', r, h1 (by decide), ?_, ?_⟩
  · rw [h3]; rfl
  · rw [h6, h2]; rfl

/-- C6: a token that is not option-shaped and is dispatched in the idle state while the
slot `pos` holds no registered argument, or a disabled one, is rejected: `pos`, the
parser (so every parameter value) and the pending state are unchanged and the error
`This command does not accept <pos+1> positional arguments` is appended. Hence, when
exactly one argument is registered and the first positional token fills it, every
further positional token reports the number 2. -/
theorem excess_positional_rejected :
    (∀ (s : ParseState) (arg : Str), s.activeOption = none → isPositional arg = true →
      s.parser.slotOpen s.pos = false →
      parseToken s arg = .ok { s with result := { errors := s.result.errors ++
        ["This command does not accept ".toList ++ to_string (s.pos + 1) ++
          " positional arguments".toList] } }) ∧
    (∀ (P : Parser) (A : Argument) (cmdname t : Str) (ts : List Str),
      P.args = [A] → A.enabled P.values = true → isPositional t = true →
      (∀ u ∈ ts, isPositional u = true) →
      ∃ P' r, P.parse (cmdname :: t :: ts) = .ok (P', r) ∧
        (P'.args.map fun a => a.value) = [t] ∧
        P'.options = P.options ∧ P'.switches = P.switches ∧
        r.errors =
          (ts.map fun _ => "This command does not accept 2 positional arguments".toList) ++
            P'.validateArguments.errors ++ P'.validateOptions.errors) := by
  constructor
  · intro s arg hidle hpos hslot
    exact parseToken_closed s arg hidle hpos hslot
  · intro P A cmdname t ts hargs hen ht hts
    have hv : P.validateCommand.toBool = true := by
      rw [ParseResult.toBool, validateCommand_errors, hargs]
      by_cases hA : A.isRequired = true
      · simp [List.dropWhile_cons, hA]
      · have hA2 : A.isRequired = false := by simpa using hA
        simp [List.dropWhile_cons, hA2]
    have hopen : (P.start cmdname).parser.slotOpen (P.start cmdname).pos = true := by
      show P.slotOpen 0 = true
      simp only [Parser.slotOpen, Parser.getArgumentAt, hargs]
      simpa using hen
    have hstep := parseToken_open (P.start cmdname) t rfl ht hopen
    have hclosed :
        (({ P with cmdname := cmdname } : Parser).setArgValue 0 t).slotOpen 1 = false := by
      simp [Parser.slotOpen, Parser.getArgumentAt, Parser.setArgValue, hargs, modifyAt]
    have hrest := parseTokens_closed
      { P.start cmdname with
        parser := (P.start cmdname).parser.setArgValue (P.start cmdname).pos t,
        pos := (P.start cmdname).pos + 1 } ts rfl hts hclosed
    refine ⟨({ P with cmdname := cmdname } : Parser).setArgValue 0 t,
      (ParseState.finish
        { parser := ({ P with cmdname := cmdname } : Parser).setArgValue 0 t,
          result := { errors := ts.map fun _ => msgExcessPositional 1 },
          activeOption := none, pos := 1 }).2, ?_, ?_, rfl, rfl, ?_⟩
    · rw [parse_of_valid P _ hv, parseBody_cons P cmdname (t :: ts), parseTokens, hstep]
      simp only [except_bind_ok]
      rw [hrest]
      rfl
    · simp [Parser.setArgValue, hargs, modifyAt]
    · rw [finish_errors]
      rfl

/-- C6, on the parser of the test case "Nonexistent arguments": after `arg1` filled the
only argument, `arg2` and `arg3` both report the number 2. -/
theorem excess_positional_rejected_witness :
    (parseToken
        { parser := testNonexistentArguments, result := { errors := [] },
          activeOption := none, pos := 1 } "arg2".toList).toOption.map
      (fun s => (s.result.errors, s.pos)) =
        some (["This command does not accept 2 positional arguments".toList], 1) ∧
    ∃ P' r, testNonexistentArguments.parse
        ["appname".toList, "arg1".toList, "arg2".toList, "arg3".toList] = .ok (P', r) ∧
      (P'.args.map fun a => a.value) = ["arg1".toList] ∧
      r.errors = ["This command does not accept 2 positional arguments".toList,
        "This command does not accept 2 positional arguments".toList] := by
  constructor
  · rw [excess_positional_rejected.1 _ "arg2".toList rfl (by decide) (by decide)]
    rfl
  · obtain ⟨P', r, h1, h2, h3, _, h5⟩ :=
      excess_positional_rejected.2 testNonexistentArguments
        (Argument.new "aaa".toList [] Req.required [] enableAlways)
        "appname".toList "arg1".toList ["arg2".toList, "arg3".toList]
        rfl rfl (by decide) (by decide)
    have hval : P'.validateArguments.errors = [] := by
      apply (validateArgumentsLoop_errors _ _).mpr
      intro a ha _ _
      have hmem : a.value ∈ P'.args.map fun a => a.value := List.mem_map_of_mem _ ha
      rw [h2] at hmem
      rw [List.mem_singleton.mp hmem]
      decide
    have hopt : P'.validateOptions.errors = [] := by
      apply (validateOptionsLoop_errors _ _).mpr
      intro o ho
      rw [h3] at ho
      exact absurd ho (by simp [testNonexistentArguments, Parser.addArgumentNamed,
        Parser.addArgument, Parser.new, Parser.addStandardHelpSwitch, Parser.addSwitch])
    refine ⟨P', r, h1, h2, ?_⟩
    rw [h5, hval, hopt]
    rfl

end PositionalClaims

section PostPassClaims

/-- C7 (the code reports less than the claim says): with the required arguments `aaa`
and `bbb` and the required options `oo` and `pp` all empty, `parse` of `[appname]`
reports `aaa` and `oo` only: each post-pass returns at its first missing parameter. -/
theorem missing_required_first_only :
    (testSeveralMissing.parse ["appname".toList]).toOption.map (fun r => r.2.errors) =
      some ["Positional argument aaa is required".toList,
        "Option oo is required".toList] := by
  rfl

/-- C8: whenever `parse` (or its body) returns a truthy result, every positional argument
and every option that is enabled in the final state and required has a non-empty value;
and when all enabled required arguments and options already hold a value (a default),
the body of `parse` on the program name alone succeeds and changes nothing but `cmdname`,
and so does `parse` when its assertion on `validateCommand` holds. -/
theorem success_gives_required_values :
    (∀ (P : Parser) (argv : List Str) (P' : Parser) (r : ParseResult),
      P.parse argv = .ok (P', r) ∨ P.parseBody argv = .ok (P', r) → r.toBool = true →
      (∀ a ∈ P'.args, a.enabled P'.values = true → a.required = Req.required →
        a.value ≠ []) ∧
      (∀ o ∈ P'.options, o.enabled P'.values = true → o.required = Req.required →
        o.value ≠ [])) ∧
    (∀ (P : Parser) (cmdname : Str),
      (∀ a ∈ P.args, a.enabled P.values = true → a.required = Req.required →
        a.value ≠ []) →
      (∀ o ∈ P.options, o.enabled P.values = true → o.required = Req.required →
        o.value ≠ []) →
      ∃ r, P.parseBody [cmdname] = .ok ({ P with cmdname := cmdname }, r) ∧
        (P.validateCommand.toBool = true →
          P.parse [cmdname] = .ok ({ P with cmdname := cmdname }, r)) ∧
        r.toBool = true) := by
  constructor
  · intro P argv P' r hret htrue
    have hparse : P.parseBody argv = .ok (P', r) := by
      rcases hret with h | h
      · exact parseBody_of_parse P argv _ h
      · exact h
    cases argv with
    | nil => simp [Parser.parseBody] at hparse
    | cons cmdname ts =>
      rw [parseBody_cons] at hparse
      cases hrun : parseTokens (P.start cmdname) ts with
      | error e => rw [hrun] at hparse; simp at hparse
      | ok s =>
        rw [hrun] at hparse
        simp only [except_bind_ok, Except.ok.injEq] at hparse
        have hP : s.parser = P' := by rw [← finish_fst s, hparse]
        have hr : s.finish.2 = r := by rw [hparse]
        rw [ParseResult.toBool, List.isEmpty_iff, ← hr, finish_errors] at htrue
        simp only [List.append_eq_nil] at htrue
        rw [hP] at htrue
        exact ⟨(validateArgumentsLoop_errors _ _).mp htrue.1.2,
          (validateOptionsLoop_errors _ _).mp htrue.2⟩
  · intro P cmdname hargs hopts
    refine ⟨(P.start cmdname).finish.2, rfl, ?_, ?_⟩
    · intro hv
      rw [parse_of_valid P _ hv]
      rfl
    · rw [ParseResult.toBool, List.isEmpty_iff, finish_errors]
      have h1 : (P.start cmdname).parser.validateArguments.errors = [] :=
        (validateArgumentsLoop_errors _ _).mpr hargs
      have h2 : (P.start cmdname).parser.validateOptions.errors = [] :=
        (validateOptionsLoop_errors _ _).mpr hopts
      rw [h1, h2]
      rfl

/-- C8, on the parsers of the test cases "Parsing arguments" and "Defaults". -/
theorem success_gives_required_values_witness :
    (∃ P' r, testParsingArguments.parse
        ["Test application".toList, "Something".toList, "blabla".toList] = .ok (P', r) ∧
      r.toBool = true ∧
      ∀ a ∈ P'.args, a.enabled P'.values = true → a.required = Req.required →
        a.value ≠ []) ∧
    ∃ r, testDefaults.parseBody ["appname".toList] =
        .ok ({ testDefaults with cmdname := "appname".toList }, r) ∧
      (testDefaults.validateCommand.toBool = true →
        testDefaults.parse ["appname".toList] =
          .ok ({ testDefaults with cmdname := "appname".toList }, r)) ∧
      r.toBool = true :=
  ⟨⟨_, _, rfl, rfl,
      (success_gives_required_values.1 testParsingArguments
        ["Test application".toList, "Something".toList, "blabla".toList] _ _
        (Or.inl rfl) rfl).1⟩,
    success_gives_required_values.2 testDefaults "appname".toList
      (by
        intro a ha _ _
        have ha2 : a.value = "default val".toList := by
          simpa [testDefaults, Parser.addArgumentNamed, Parser.addArgument, Parser.new,
            Parser.addStandardHelpSwitch, Parser.addSwitch, Argument.new] using
            congrArg (fun a => a.value)
              (List.mem_singleton.mp (show a ∈ [Argument.new "aaa".toList
                "default val".toList Req.required [] enableAlways] from ha))
        rw [ha2]
        decide)
      (by
        intro o ho
        exact absurd ho (by simp [testDefaults, Parser.addArgumentNamed,
          Parser.addArgument, Parser.new, Parser.addStandardHelpSwitch,
          Parser.addSwitch]))⟩

end PostPassClaims

/-! ## The string functions on tokens -/

section Tokens

theorem SIZE_MOD_eq : SIZE_MOD = 18446744073709551616 := by
  norm_num [SIZE_MOD]

theorem npos_eq : npos = 18446744073709551615 := by
  norm_num [npos, SIZE_MOD]

theorem find_first_of_not_mem {s : Str} {c : Char} (h : c ∉ s) :
    find_first_of s c = npos := by
  simp [find_first_of, h]

theorem indexOf_split {c : Char} (pre post : Str) (h : c ∉ pre) :
    (pre ++ c :: post).indexOf c = pre.length := by
  induction pre with
  | nil => simp
  | cons x xs ih =>
    have hx : x ≠ c := fun hxc => h (by simp [hxc])
    have hxs : c ∉ xs := fun hm => h (List.mem_cons_of_mem _ hm)
    simp [List.indexOf_cons_ne _ hx, ih hxs]

theorem find_first_of_split {c : Char} (pre post : Str) (h : c ∉ pre) :
    find_first_of (pre ++ c :: post) c = pre.length := by
  have hm : c ∈ pre ++ c :: post := by simp
  simp [find_first_of, hm, indexOf_split pre post h]

theorem substr_ok (s : Str) (pos count : Nat) (h : pos ≤ s.length) :
    substr s pos count = .ok ((s.drop pos).take count) := by
  simp [substr, Nat.not_lt.mpr h]

theorem substr_rest (s : Str) (pos count : Nat) (h : pos ≤ s.length)
    (hc : s.length ≤ pos + count) : substr s pos count = .ok (s.drop pos) := by
  rw [substr_ok s pos count h, List.take_of_length_le]
  rw [List.length_drop]
  omega

/-- `getOptionName` on a token without `=`: everything after the first two characters. -/
theorem getOptionName_plain (arg : Str) (h : '=' ∉ arg) (h2 : 2 ≤ arg.length)
    (hlen : arg.length < SIZE_MOD) : getOptionName arg = .ok (arg.drop 2) := by
  simp only [getOptionName]
  rw [find_first_of_not_mem h]
  apply substr_rest _ _ _ h2
  rw [SIZE_MOD_eq] at hlen
  rw [npos_eq, SIZE_MOD_eq]
  omega

/-- `getOptionName` on a token with `=`: what stands between the first two characters
and the first `=`. -/
theorem getOptionName_split (pre post : Str) (h : '=' ∉ pre) (h2 : 2 ≤ pre.length)
    (hlen : (pre ++ '=' :: post).length < SIZE_MOD) :
    getOptionName (pre ++ '=' :: post) = .ok (pre.drop 2) := by
  simp only [getOptionName]
  rw [find_first_of_split pre post h]
  have hl : (pre ++ '=' :: post).length = pre.length + post.length + 1 := by
    simp; omega
  rw [hl, SIZE_MOD_eq] at hlen
  have hcount : (pre.length + SIZE_MOD - 2) % SIZE_MOD = pre.length - 2 := by
    rw [SIZE_MOD_eq]
    omega
  rw [hcount, substr_ok _ _ _ (by rw [hl]; omega)]
  apply congrArg Except.ok
  rw [List.drop_append_of_le_length h2, List.take_append_of_le_length (by simp)]
  apply List.take_of_length_le
  simp

/-- `getNameEqualsValue` on a token without `=`. -/
theorem getNameEqualsValue_plain (arg : Str) (h : '=' ∉ arg) :
    getNameEqualsValue arg = .ok ([], []) := by
  simp [getNameEqualsValue, find_first_of_not_mem h]

/-- `getNameEqualsValue` on a token with `=` after at least two characters. -/
theorem getNameEqualsValue_split (pre post : Str) (h : '=' ∉ pre) (h2 : 2 ≤ pre.length)
    (hlen : (pre ++ '=' :: post).length < SIZE_MOD) :
    getNameEqualsValue (pre ++ '=' :: post) = .ok (pre.drop 2, post) := by
  have hl : (pre ++ '=' :: post).length = pre.length + post.length + 1 := by
    simp; omega
  rw [hl, SIZE_MOD_eq] at hlen
  simp only [getNameEqualsValue]
  rw [find_first_of_split pre post h]
  have hne : pre.length ≠ npos := by rw [npos_eq]; omega
  have hmod : (pre.length + 1) % SIZE_MOD = pre.length + 1 := by
    rw [SIZE_MOD_eq]; omega
  simp only [hne, if_false, hmod]
  rw [substr_ok _ 0 _ (Nat.zero_le _)]
  simp only [List.drop_zero, except_bind_ok, List.take_left']
  rw [getOptionName_plain pre h h2 (by rw [SIZE_MOD_eq]; omega)]
  simp only [except_bind_ok]
  rw [substr_rest _ _ _ (by rw [hl]; omega) (by rw [hl, npos_eq]; omega)]
  simp only [except_bind_ok]
  have hd : (pre ++ '=' :: post).drop (pre.length + 1) = post := by
    rw [List.drop_append_eq_append_drop]
    simp
  rw [hd]

end Tokens

/-! ## Option tokens -/

section OptionTokens

theorem findFirst_some {α : Type} (p : α → Bool) (l : List α) (i : Nat) (x : α)
    (h : findFirst p l = some (i, x)) : l[i]? = some x ∧ p x = true := by
  induction l generalizing i with
  | nil => simp [findFirst] at h
  | cons y ys ih =>
    unfold findFirst at h
    by_cases hy : p y = true
    · simp only [hy, if_true, Option.some.injEq, Prod.mk.injEq] at h
      obtain ⟨h1, h2⟩ := h
      subst h1 h2
      exact ⟨by simp, hy⟩
    · simp only [hy, Bool.false_eq_true, if_false, Option.map_eq_some'] at h
      obtain ⟨⟨j, z⟩, hj, hz⟩ := h
      simp only [Prod.mk.injEq] at hz
      obtain ⟨h1, h2⟩ := hz
      subst h1 h2
      have := ih j hj
      exact ⟨by simpa using this.1, this.2⟩

theorem setOptionValue_value (P : Parser) (i : Nat) (o : CmdOption) (v : Str)
    (h : P.options[i]? = some o) :
    ((P.setOptionValue i v).options[i]?).map (fun o => o.value) = some v := by
  simp [Parser.setOptionValue, modifyAt_getElem?, h]

theorem isPositional_long (rest : Str) (h : rest ≠ []) :
    isPositional ('-' :: '-' :: rest) = false := by
  cases rest with
  | nil => exact absurd rfl h
  | cons c cs => simp [isPositional, isOption]

theorem isOption_long (rest : Str) (h : rest ≠ []) : isOption ('-' :: '-' :: rest) = true := by
  cases rest with
  | nil => exact absurd rfl h
  | cons c cs => simp [isOption]

theorem isOption_short (a : Char) (val : Str) (h : a ≠ '-' ∨ val = []) :
    isOption ('-' :: a :: val) = false := by
  rcases h with h | h
  · simp [isOption, h]
  · subst h
    simp [isOption]

theorem isOptionAbbr_short (a : Char) (val : Str) (h : a ≠ '-' ∨ val = []) :
    isOptionAbbr ('-' :: a :: val) = true := by
  simp [isOptionAbbr, isOption_short a val h]

theorem isPositional_short (a : Char) (val : Str) (h : a ≠ '-' ∨ val = []) :
    isPositional ('-' :: a :: val) = false := by
  simp [isPositional, isOptionAbbr_short a val h]

theorem parseArgument_optionShaped (P : Parser) (arg : Str) (pos : Nat)
    (h : isPositional arg = false) :
    P.parseArgument arg pos = (P, pos, ArgumentParseResult.make false []) := by
  have h2 : (isOption arg || isOptionAbbr arg) = true := by
    simp only [isPositional] at h
    cases h3 : isOption arg <;> cases h4 : isOptionAbbr arg <;> simp [h3, h4] at h ⊢
  simp [Parser.parseArgument, h2]

/-- When `parseOption` accepts the token, the iteration ends with its effect only. -/
theorem parseToken_of_parseOption (s : ParseState) (arg : Str) (P2 : Parser)
    (act2 : Option Nat) (hidle : s.activeOption = none) (hshape : isPositional arg = false)
    (hopt : s.parser.parseOption arg none =
      .ok (P2, act2, ArgumentParseResult.make true [])) :
    parseToken s arg = .ok { s with parser := P2, activeOption := act2 } := by
  cases s with
  | mk P res act pos =>
    simp only at hidle hopt
    subst hidle
    simp [parseToken, parseArgument_optionShaped P arg pos hshape, hopt,
      ArgumentParseResult.merge, ArgumentParseResult.toBool]

/-- The pending option consumes the next token, whatever it is. -/
theorem parseToken_pending (s : ParseState) (arg : Str) (i : Nat)
    (h : s.activeOption = some i) :
    parseToken s arg =
      .ok { s with parser := s.parser.setOptionValue i arg, activeOption := none } := by
  simp [parseToken, h]

theorem getOptionAbbr_short (a : Char) (val : Str) :
    getOptionAbbr ('-' :: a :: val) = .ok (a :: val.take (npos - 1)) := by
  have h : npos = (npos - 1) + 1 := by rw [npos_eq]
  rw [getOptionAbbr, substr_ok _ _ _ (by simp)]
  apply congrArg Except.ok
  rw [List.drop_one, List.tail_cons]
  conv_lhs => rw [h]
  rw [List.take_succ_cons]

theorem parseOption_long_assign (P : Parser) (n v : Str) (act : Option Nat) (i : Nat)
    (o : CmdOption) (hreg : P.getOption n = some (i, o))
    (hen : o.enabled P.values = true) (hn : n ≠ []) (heq : '=' ∉ n)
    (hlen : ('-' :: '-' :: (n ++ '=' :: v)).length < SIZE_MOD) :
    P.parseOption ('-' :: '-' :: (n ++ '=' :: v)) act =
      .ok (P.setOptionValue i v, act, ArgumentParseResult.make true []) := by
  have htok : '-' :: '-' :: (n ++ '=' :: v) = ('-' :: '-' :: n) ++ '=' :: v := rfl
  have hpre : '=' ∉ '-' :: '-' :: n := by simp [heq]
  rw [Parser.parseOption, isOption_long _ (by simp)]
  simp only [if_true]
  rw [htok, getOptionName_split _ v hpre (by simp) (by rw [← htok]; exact hlen)]
  simp only [except_bind_ok, List.drop_succ_cons, List.drop_zero, hreg, Parser.bindOption,
    hen, Bool.not_true, Bool.false_eq_true, if_false]
  rw [getNameEqualsValue_split _ v hpre (by simp) (by rw [← htok]; exact hlen)]
  simp [hn]

theorem parseOption_long_pending (P : Parser) (n : Str) (act : Option Nat) (i : Nat)
    (o : CmdOption) (hreg : P.getOption n = some (i, o))
    (hen : o.enabled P.values = true) (hn : n ≠ []) (heq : '=' ∉ n)
    (hlen : ('-' :: '-' :: n).length < SIZE_MOD) :
    P.parseOption ('-' :: '-' :: n) act =
      .ok (P, some i, ArgumentParseResult.make true []) := by
  have hpre : '=' ∉ '-' :: '-' :: n := by simp [heq]
  rw [Parser.parseOption, isOption_long _ hn]
  simp only [if_true]
  rw [getOptionName_plain _ hpre (by simp) hlen]
  simp only [except_bind_ok, List.drop_succ_cons, List.drop_zero, hreg, Parser.bindOption,
    hen, Bool.not_true, Bool.false_eq_true, if_false]
  rw [getNameEqualsValue_plain _ hpre]
  simp

theorem parseOption_short_pending (P : Parser) (a : Char) (act : Option Nat) (i : Nat)
    (o : CmdOption) (hreg : P.getOptionByChar a = some (i, o))
    (hen : o.enabled P.values = true) (ha : a ≠ '=') :
    P.parseOption ['-', a] act = .ok (P, some i, ArgumentParseResult.make true []) := by
  have hpre : '=' ∉ ['-', a] := by simp [Ne.symm ha]
  rw [Parser.parseOption, isOption_short a [] (Or.inr rfl),
    isOptionAbbr_short a [] (Or.inr rfl)]
  simp only [Bool.false_eq_true, if_false, if_true]
  rw [getOptionAbbr_short]
  simp only [except_bind_ok, hreg, Parser.bindOption, hen, Bool.not_true,
    Bool.false_eq_true, if_false]
  rw [getNameEqualsValue_plain _ hpre]
  simp

theorem first_split (c : Char) (l : Str) (h : c ∈ l) :
    ∃ x y, l = x ++ c :: y ∧ c ∉ x := by
  induction l with
  | nil => simp at h
  | cons d ds ih =>
    by_cases hd : d = c
    · exact ⟨[], ds, by simp [hd], by simp⟩
    · have hmem : c ∈ ds := by
        rcases List.mem_cons.mp h with h1 | h1
        · exact absurd h1.symm hd
        · exact h1
      obtain ⟨x, y, hxy, hx⟩ := ih hmem
      exact ⟨d :: x, y, by simp [hxy], by simp [hx, Ne.symm hd]⟩

theorem parseOption_short_attached (P : Parser) (a : Char) (val : Str) (act : Option Nat)
    (i : Nat) (o : CmdOption) (hreg : P.getOptionByChar a = some (i, o))
    (hen : o.enabled P.values = true) (ha1 : a ≠ '-') (ha2 : a ≠ '=') (hval : val ≠ [])
    (hlast : ∀ x y, val = x ++ '=' :: y → y = [])
    (hlen : ('-' :: a :: val).length < SIZE_MOD) :
    P.parseOption ('-' :: a :: val) act =
      .ok (P.setOptionValue i val, act, ArgumentParseResult.make true []) := by
  have hsub : substr ('-' :: a :: val) 2 npos = .ok val := by
    rw [substr_rest _ _ _ (by simp) (by rw [SIZE_MOD_eq] at hlen; rw [npos_eq]; omega)]
    rfl
  rw [Parser.parseOption, isOption_short a val (Or.inl ha1),
    isOptionAbbr_short a val (Or.inl ha1)]
  simp only [Bool.false_eq_true, if_false, if_true]
  rw [getOptionAbbr_short]
  simp only [except_bind_ok, hreg, Parser.bindOption, hen, Bool.not_true,
    Bool.false_eq_true, if_false]
  by_cases hmem : '=' ∈ val
  · obtain ⟨x, y, hxy, hx⟩ := first_split '=' val hmem
    have hy : y = [] := hlast x y hxy
    subst hy
    have hpre : '=' ∉ '-' :: a :: x := by simp [hx, Ne.symm ha2]
    have htok : '-' :: a :: val = ('-' :: a :: x) ++ ['='] := by simp [hxy]
    have hnv : getNameEqualsValue ('-' :: a :: val) = .ok (x, []) := by
      rw [htok, getNameEqualsValue_split _ [] hpre (by simp) (by rw [← htok]; exact hlen)]
      rfl
    rw [hnv]
    simp [hsub, hval]
  · have hpre : '=' ∉ '-' :: a :: val := by simp [hmem, Ne.symm ha2]
    rw [getNameEqualsValue_plain _ hpre]
    simp [hsub, hval]

theorem parseOption_short_equals (P : Parser) (a : Char) (v : Str) (act : Option Nat)
    (i : Nat) (o : CmdOption) (hreg : P.getOptionByChar a = some (i, o))
    (hen : o.enabled P.values = true) (ha1 : a ≠ '-') (ha2 : a ≠ '=') (hv : v ≠ [])
    (hlen : ('-' :: a :: '=' :: v).length < SIZE_MOD) :
    P.parseOption ('-' :: a :: '=' :: v) act =
      .ok (P.setOptionValue i v, act, ArgumentParseResult.make true []) := by
  have hpre : '=' ∉ ['-', a] := by simp [Ne.symm ha2]
  have htok : '-' :: a :: '=' :: v = ['-', a] ++ '=' :: v := rfl
  rw [Parser.parseOption, isOption_short a _ (Or.inl ha1),
    isOptionAbbr_short a _ (Or.inl ha1)]
  simp only [Bool.false_eq_true, if_false, if_true]
  rw [getOptionAbbr_short]
  simp only [except_bind_ok, hreg, Parser.bindOption, hen, Bool.not_true,
    Bool.false_eq_true, if_false]
  rw [htok, getNameEqualsValue_split _ v hpre (by simp) (by rw [← htok]; exact hlen)]
  simp [hv]

end OptionTokens

/-! ## Claims on option tokens -/

section OptionClaims

theorem parseBody_of_parseTokens (P : Parser) (cmdname : Str) (ts : List Str)
    (s : ParseState) (h : parseTokens (P.start cmdname) ts = .ok s) :
    P.parseBody (cmdname :: ts) = .ok s.finish := by
  rw [parseBody_cons P cmdname ts, h]
  rfl

theorem parseTokens_single (s s1 : ParseState) (tok : Str) (h : parseToken s tok = .ok s1) :
    parseTokens s [tok] = .ok s1 := by
  simp [parseTokens, h]

theorem parseTokens_pair (s s1 s2 : ParseState) (tok t : Str)
    (h1 : parseToken s tok = .ok s1) (h2 : parseToken s1 t = .ok s2) :
    parseTokens s [tok, t] = .ok s2 := by
  simp [parseTokens, h1, h2]

/-- C2 (amended): for an option that `getOption` finds under the long name `n`, enabled,
with `n` non-empty and free of `=`, and for every string `v` (empty or holding `=`
included), dispatching the token `--n=v` (shorter than 2^64 characters, as every
`std::string` is) in the idle state ends with the option's value equal to `v`, nothing
pending, no error added, and nothing else changed. -/
theorem long_equals_assigns (s : ParseState) (n v : Str) (i : Nat) (o : CmdOption)
    (hidle : s.activeOption = none)
    (hreg : s.parser.getOption n = some (i, o))
    (hen : o.enabled s.parser.values = true)
    (hn : n ≠ []) (heq : '=' ∉ n)
    (hlen : (['-', '-'] ++ n ++ ['='] ++ v).length < SIZE_MOD) :
    parseToken s (['-', '-'] ++ n ++ ['='] ++ v) =
      .ok { parser := s.parser.setOptionValue i v, result := s.result,
            activeOption := none, pos := s.pos } ∧
    ((s.parser.setOptionValue i v).options[i]?).map (fun o => o.value) = some v := by
  have htok : ['-', '-'] ++ n ++ ['='] ++ v = '-' :: '-' :: (n ++ '=' :: v) := by simp
  rw [htok] at hlen ⊢
  constructor
  · rw [parseToken_of_parseOption s _ _ none hidle (isPositional_long _ (by simp))
      (parseOption_long_assign s.parser n v none i o hreg hen hn heq hlen)]
  · exact setOptionValue_value _ i o v (findFirst_some _ _ i o hreg).1

/-- C2 (amended), on the parser of the test case "Parsing options" and the token
`--qwerty=4=2`. -/
theorem long_equals_assigns_witness :
    (parseToken (testParsingOptions.start "app".toList)
        (['-', '-'] ++ "qwerty".toList ++ ['='] ++ "4=2".toList)).toOption.map
      (fun s => (s.parser.options.map (fun o => o.value), s.activeOption, s.result.errors)) =
      some (["4=2".toList, []], none, []) := by
  rw [(long_equals_assigns (testParsingOptions.start "app".toList) "qwerty".toList
    "4=2".toList 0 (CmdOption.new "qwerty".toList 'q' "default".toList Req.optional []
      enableAlways) rfl rfl rfl (by decide) (by decide) (by decide)).1]
  rfl

/-- C2 as stated fails: the option named `a=b` is registered and enabled, yet the token
`--a=b=v` is looked up under the name `a`, is rejected with an error and leaves the
value empty. -/
theorem long_equals_name_with_equals :
    (testEqualsInName.getOption "a=b".toList).map
        (fun r => (r.1, r.2.enabled testEqualsInName.values)) = some (0, true) ∧
    (parseToken (testEqualsInName.start "app".toList) "--a=b=v".toList).toOption.map
        (fun s => (s.parser.options.map (fun o => o.value), s.result.errors)) =
      some ([[]], ["This command does not accept \"--a=b=v\" option".toList]) := by
  constructor <;> rfl

/-- C3 (amended): for every parser and every enabled option `o` found either under its
long name (non-empty, free of `=`) by the token `--<name>` or under its abbreviation
(other than `=`) by the token `-<abbr>`, parsing `[cmdname, tok, t]` stores the raw token
`t` as the value of `o` and ends idle, whatever `t` is: nothing else in the parser
changes and no error is recorded for `t`, so `t` is not dispatched. This is what the loop
and the body of `parse` do, and what `parse` does when its assertion on
`validateCommand` holds. -/
theorem pending_option_takes_next_token (P : Parser) (cmdname tok t : Str) (i : Nat)
    (o : CmdOption)
    (hen : o.enabled P.values = true)
    (hform :
      (tok = ['-', '-'] ++ o.name ∧ o.name ≠ [] ∧ '=' ∉ o.name ∧
        P.getOption o.name = some (i, o)) ∨
      (tok = ['-', o.abbr] ∧ o.abbr ≠ '=' ∧ P.getOptionByChar o.abbr = some (i, o)))
    (hlen : tok.length < SIZE_MOD) :
    parseTokens (P.start cmdname) [tok, t] =
      .ok { parser := ({ P with cmdname := cmdname } : Parser).setOptionValue i t,
            result := { errors := [] }, activeOption := none, pos := 0 } ∧
    P.parseBody [cmdname, tok, t] =
      .ok (ParseState.finish
        { parser := ({ P with cmdname := cmdname } : Parser).setOptionValue i t,
          result := { errors := [] }, activeOption := none, pos := 0 }) ∧
    (P.validateCommand.toBool = true →
      P.parse [cmdname, tok, t] =
        .ok (ParseState.finish
          { parser := ({ P with cmdname := cmdname } : Parser).setOptionValue i t,
            result := { errors := [] }, activeOption := none, pos := 0 })) ∧
    ((({ P with cmdname := cmdname } : Parser).setOptionValue i t).options[i]?).map
      (fun o => o.value) = some t := by
  have hstep1 : parseToken (P.start cmdname) tok =
      .ok { P.start cmdname with activeOption := some i } := by
    rcases hform with ⟨htok, hn, heq, hreg⟩ | ⟨htok, ha, hreg⟩
    · have htok2 : tok = '-' :: '-' :: o.name := by simp [htok]
      subst htok2
      exact parseToken_of_parseOption (P.start cmdname) _ _ (some i) rfl
        (isPositional_long _ hn)
        (parseOption_long_pending (P.start cmdname).parser o.name none i o hreg hen hn heq
          hlen)
    · subst htok
      exact parseToken_of_parseOption (P.start cmdname) _ _ (some i) rfl
        (isPositional_short _ _ (Or.inr rfl))
        (parseOption_short_pending (P.start cmdname).parser o.abbr none i o hreg hen ha)
  have hstep2 := parseToken_pending { P.start cmdname with activeOption := some i } t i rfl
  have hrun := parseTokens_pair _ _ _ tok t hstep1 hstep2
  have hget : P.options[i]? = some o := by
    rcases hform with ⟨_, _, _, hreg⟩ | ⟨_, _, hreg⟩
    · exact (findFirst_some _ _ i o hreg).1
    · exact (findFirst_some _ _ i o hreg).1
  have hbody := parseBody_of_parseTokens P cmdname [tok, t] _ hrun
  exact ⟨hrun, hbody, fun hv => (parse_of_valid P _ hv).trans hbody,
    setOptionValue_value _ i o t hget⟩

/-- C3 (amended), on the parser of the test case "Parsing options": the token `--asdfgh`,
the name of another option, is consumed as the value of `qwerty`. -/
theorem pending_option_takes_next_token_witness :
    (parseTokens (testParsingOptions.start "app".toList)
        [['-', '-'] ++ "qwerty".toList, "--asdfgh".toList]).toOption.map
      (fun s => (s.parser.options.map (fun o => o.value), s.activeOption, s.result.errors)) =
      some (["--asdfgh".toList, []], none, []) := by
  rw [(pending_option_takes_next_token testParsingOptions "app".toList
    (['-', '-'] ++ "qwerty".toList) "--asdfgh".toList 0
    (CmdOption.new "qwerty".toList 'q' "default".toList Req.optional [] enableAlways)
    rfl (Or.inl ⟨rfl, by decide, by decide, rfl⟩) (by decide)).1]
  rfl

/-- C3 as stated fails: the option named `a=b` is registered and enabled, yet parsing
`[app, --a=b, x]` rejects `--a=b`, leaves the value empty and dispatches `x` as a
positional token. -/
theorem pending_option_name_with_equals :
    (testEqualsInName.getOption "a=b".toList).map
        (fun r => (r.1, r.2.enabled testEqualsInName.values)) = some (0, true) ∧
    (testEqualsInName.parse ["app".toList, "--a=b".toList, "x".toList]).toOption.map
        (fun r => (r.1.options.map (fun o => o.value), r.2.errors)) =
      some ([[]], ["This command does not accept \"--a=b\" option".toList,
        "This command does not accept 1 positional arguments".toList]) := by
  constructor <;> rfl

end OptionClaims

section ShortOptionClaims

/-- C4 (amended): for every parser, an enabled option found under the abbreviation `a`,
with `a` neither `-` nor `=`, and a non-empty `val` in which `=` occurs at most as the
last character, parsing the single token `-a` followed by `val` stores `val` (all that
follows the abbreviation) in the option and leaves nothing pending (the body of `parse`,
and `parse` when its assertion on `validateCommand` holds); the two-token form `-a`,
`val` gives the same parser and the same result. -/
theorem short_attached_value (P : Parser) (cmdname : Str) (a : Char) (val : Str) (i : Nat)
    (o : CmdOption)
    (hreg : P.getOptionByChar a = some (i, o))
    (hen : o.enabled P.values = true)
    (ha1 : a ≠ '-') (ha2 : a ≠ '=') (hval : val ≠ [])
    (hlast : ∀ x y, val = x ++ '=' :: y → y = [])
    (hlen : (['-', a] ++ val).length < SIZE_MOD) :
    P.parseBody [cmdname, ['-', a] ++ val] =
      .ok (ParseState.finish
        { parser := ({ P with cmdname := cmdname } : Parser).setOptionValue i val,
          result := { errors := [] }, activeOption := none, pos := 0 }) ∧
    (P.validateCommand.toBool = true →
      P.parse [cmdname, ['-', a] ++ val] =
        .ok (ParseState.finish
          { parser := ({ P with cmdname := cmdname } : Parser).setOptionValue i val,
            result := { errors := [] }, activeOption := none, pos := 0 })) ∧
    P.parseBody [cmdname, ['-', a], val] = P.parseBody [cmdname, ['-', a] ++ val] ∧
    P.parse [cmdname, ['-', a], val] = P.parse [cmdname, ['-', a] ++ val] ∧
    ((({ P with cmdname := cmdname } : Parser).setOptionValue i val).options[i]?).map
      (fun o => o.value) = some val := by
  have hone : parseToken (P.start cmdname) (['-', a] ++ val) =
      .ok { P.start cmdname with
        parser := ({ P with cmdname := cmdname } : Parser).setOptionValue i val } :=
    parseToken_of_parseOption (P.start cmdname) _ _ none rfl
      (isPositional_short a val (Or.inl ha1))
      (parseOption_short_attached (P.start cmdname).parser a val none i o hreg hen ha1 ha2
        hval hlast hlen)
  have htwo1 : parseToken (P.start cmdname) ['-', a] =
      .ok { P.start cmdname with activeOption := some i } :=
    parseToken_of_parseOption (P.start cmdname) _ _ (some i) rfl
      (isPositional_short _ _ (Or.inr rfl))
      (parseOption_short_pending (P.start cmdname).parser a none i o hreg hen ha2)
  have htwo2 := parseToken_pending { P.start cmdname with activeOption := some i } val i rfl
  have h1 := parseBody_of_parseTokens P cmdname _ _ (parseTokens_single _ _ _ hone)
  have h2 := parseBody_of_parseTokens P cmdname _ _ (parseTokens_pair _ _ _ _ _ htwo1 htwo2)
  have h3 : P.parseBody [cmdname, ['-', a], val] = P.parseBody [cmdname, ['-', a] ++ val] :=
    h2.trans h1.symm
  refine ⟨h1, fun hv => (parse_of_valid P _ hv).trans h1, h3, ?_,
    setOptionValue_value _ i o val (findFirst_some _ _ i o hreg).1⟩
  unfold Parser.parse
  rw [h3]

/-- C4 (amended), on the parser of the test case "Parsing options with short syntax":
`-q42` and `-q`, `42` both store `42`. -/
theorem short_attached_value_witness :
    (testParsingOptions.parse ["app".toList, ['-', 'q'] ++ "42".toList]).toOption.map
        (fun r => (r.1.options.map (fun o => o.value), r.2.errors)) =
      some (["42".toList, []], []) ∧
    testParsingOptions.parse ["app".toList, ['-', 'q'], "42".toList] =
      testParsingOptions.parse ["app".toList, ['-', 'q'] ++ "42".toList] := by
  have h := short_attached_value testParsingOptions "app".toList 'q' "42".toList 0
    (CmdOption.new "qwerty".toList 'q' "default".toList Req.optional [] enableAlways)
    rfl rfl (by decide) (by decide) (by decide)
    (by
      intro x y hxy
      have hmem : '=' ∈ "42".toList := by rw [hxy]; simp
      exact absurd hmem (by decide))
    (by decide)
  refine ⟨?_, h.2.2.2.1⟩
  rw [h.2.1 (by decide)]
  rfl

/-- C4 as stated fails: with `val` the non-empty string `=1234`, the single token
`-q=1234` stores `1234`, not `val`, while the two tokens `-q`, `=1234` store `=1234`. -/
theorem attached_text_after_equals :
    (testParsingOptions.getOptionByChar 'q').map
        (fun r => (r.1, r.2.enabled testParsingOptions.values)) = some (0, true) ∧
    (testParsingOptions.parse ["app".toList, ['-', 'q'] ++ "=1234".toList]).toOption.map
        (fun r => (r.1.options.map (fun o => o.value), r.2.errors)) =
      some (["1234".toList, []], []) ∧
    (testParsingOptions.parse ["app".toList, ['-', 'q'], "=1234".toList]).toOption.map
        (fun r => (r.1.options.map (fun o => o.value), r.2.errors)) =
      some (["=1234".toList, []], []) := by
  refine ⟨?_, ?_, ?_⟩ <;> rfl

/-- C5 (amended): for every parser, an enabled option found under the abbreviation `a`,
with `a` neither `-` nor `=`, and a non-empty `val`, parsing the single token `-a=`
followed by `val` stores `val` in the option and leaves nothing pending; nothing else
changes and no error is recorded. This is what the loop and the body of `parse` do, and
what `parse` does when its assertion on `validateCommand` holds. -/
theorem short_equals_assigns (P : Parser) (cmdname : Str) (a : Char) (val : Str) (i : Nat)
    (o : CmdOption)
    (hreg : P.getOptionByChar a = some (i, o))
    (hen : o.enabled P.values = true)
    (ha1 : a ≠ '-') (ha2 : a ≠ '=') (hval : val ≠ [])
    (hlen : (['-', a, '='] ++ val).length < SIZE_MOD) :
    parseTokens (P.start cmdname) [['-', a, '='] ++ val] =
      .ok { parser := ({ P with cmdname := cmdname } : Parser).setOptionValue i val,
            result := { errors := [] }, activeOption := none, pos := 0 } ∧
    P.parseBody [cmdname, ['-', a, '='] ++ val] =
      .ok (ParseState.finish
        { parser := ({ P with cmdname := cmdname } : Parser).setOptionValue i val,
          result := { errors := [] }, activeOption := none, pos := 0 }) ∧
    (P.validateCommand.toBool = true →
      P.parse [cmdname, ['-', a, '='] ++ val] =
        .ok (ParseState.finish
          { parser := ({ P with cmdname := cmdname } : Parser).setOptionValue i val,
            result := { errors := [] }, activeOption := none, pos := 0 })) ∧
    ((({ P with cmdname := cmdname } : Parser).setOptionValue i val).options[i]?).map
      (fun o => o.value) = some val := by
  have hone : parseToken (P.start cmdname) (['-', a, '='] ++ val) =
      .ok { P.start cmdname with
        parser := ({ P with cmdname := cmdname } : Parser).setOptionValue i val } :=
    parseToken_of_parseOption (P.start cmdname) _ _ none rfl
      (isPositional_short a _ (Or.inl ha1))
      (parseOption_short_equals (P.start cmdname).parser a val none i o hreg hen ha1 ha2
        hval hlen)
  have hrun := parseTokens_single _ _ _ hone
  have hbody := parseBody_of_parseTokens P cmdname _ _ hrun
  exact ⟨hrun, hbody, fun hv => (parse_of_valid P _ hv).trans hbody,
    setOptionValue_value _ i o val (findFirst_some _ _ i o hreg).1⟩

/-- C5 (amended), on the parser of the test case "Parsing options with short syntax":
`-q=1234` stores `1234`. -/
theorem short_equals_assigns_witness :
    (parseTokens (testParsingOptions.start "app".toList)
        [['-', 'q', '='] ++ "1234".toList]).toOption.map
      (fun s => (s.parser.options.map (fun o => o.value), s.activeOption, s.result.errors)) =
      some (["1234".toList, []], none, []) := by
  rw [(short_equals_assigns testParsingOptions "app".toList 'q' "1234".toList 0
    (CmdOption.new "qwerty".toList 'q' "default".toList Req.optional [] enableAlways)
    rfl rfl (by decide) (by decide) (by decide) (by decide)).1]
  rfl

/-- C5 as stated fails: the option `dash` is registered under the abbreviation `-` and
enabled, yet the token `--=v`, that is `-`, the abbreviation, `=` and `v`, is a long-form
token for the empty name: it is rejected with an error and the value stays empty. -/
theorem short_equals_dash_abbreviation :
    (testDashAbbr.getOptionByChar '-').map
        (fun r => (r.1, r.2.enabled testDashAbbr.values)) = some (0, true) ∧
    (testDashAbbr.parse ["app".toList, ['-', '-', '='] ++ "v".toList]).toOption.map
        (fun r => (r.1.options.map (fun o => o.value), r.2.errors)) =
      some ([[]], ["This command does not accept \"--=v\" option".toList]) := by
  constructor <;> rfl

/-- The token `-q=` with nothing after `=` stores the text `=`, the long form `--qwerty=`
stores the empty string. -/
theorem short_equals_empty_value :
    (testParsingOptions.parse ["app".toList, "-q=".toList]).toOption.map
        (fun r => (r.1.options.map (fun o => o.value), r.2.errors)) =
      some (["=".toList, []], []) ∧
    (testParsingOptions.parse ["app".toList, "--qwerty=".toList]).toOption.map
        (fun r => (r.1.options.map (fun o => o.value), r.2.errors)) =
      some ([[], []], []) := by
  constructor <;> rfl

end ShortOptionClaims

/-! ## Conditional arguments -/

section Conditional

theorem parseOption_unknown (P : Parser) (n : Str) (act : Option Nat)
    (hopt : ∀ r, P.getOption n = some r → r.2.enabled P.values = false)
    (hn : n ≠ []) (heq : '=' ∉ n) (hlen : ('-' :: '-' :: n).length < SIZE_MOD) :
    P.parseOption ('-' :: '-' :: n) act =
      .ok (P, act, ArgumentParseResult.make false (msgUnknownOption ('-' :: '-' :: n))) := by
  have hpre : '=' ∉ '-' :: '-' :: n := by simp [heq]
  rw [Parser.parseOption, isOption_long _ hn]
  simp only [if_true]
  rw [getOptionName_plain _ hpre (by simp) hlen]
  simp only [except_bind_ok, List.drop_succ_cons, List.drop_zero]
  cases hg : P.getOption n with
  | none => rfl
  | some r =>
    obtain ⟨i, o⟩ := r
    have := hopt (i, o) hg
    simp only at this
    simp [Parser.bindOption, this]

theorem parseSwitch_long (P : Parser) (n : Str) (j : Nat) (sw : Switch)
    (hsw : P.getSwitch n = some (j, sw)) (hen : sw.enabled P.values = true)
    (hn : n ≠ []) (heq : '=' ∉ n) (hlen : ('-' :: '-' :: n).length < SIZE_MOD) :
    P.parseSwitch ('-' :: '-' :: n) =
      .ok (P.setSwitchValue j true, ArgumentParseResult.make true []) := by
  have hpre : '=' ∉ '-' :: '-' :: n := by simp [heq]
  have hab : isOptionAbbr ('-' :: '-' :: n) = false := by
    simp [isOptionAbbr, isOption_long _ hn]
  rw [Parser.parseSwitch, isOption_long _ hn, hab]
  simp only [Bool.not_true, Bool.false_and, Bool.false_eq_true, if_false]
  rw [getOptionName_plain _ hpre (by simp) hlen]
  simp [hsw, hen]

/-- A long-form token that no enabled option takes and that names an enabled switch: the
switch is set and the error of the option branch is dropped. -/
theorem parseToken_long_switch (s : ParseState) (n : Str) (j : Nat) (sw : Switch)
    (hidle : s.activeOption = none)
    (hopt : ∀ r, s.parser.getOption n = some r → r.2.enabled s.parser.values = false)
    (hsw : s.parser.getSwitch n = some (j, sw)) (hen : sw.enabled s.parser.values = true)
    (hn : n ≠ []) (heq : '=' ∉ n) (hlen : ('-' :: '-' :: n).length < SIZE_MOD) :
    parseToken s ('-' :: '-' :: n) =
      .ok { s with parser := s.parser.setSwitchValue j true } := by
  cases s with
  | mk P res act pos =>
    simp only at hidle hopt hsw hen
    subst hidle
    simp [parseToken, parseArgument_optionShaped P _ pos (isPositional_long _ hn),
      parseOption_unknown P n none hopt hn heq hlen,
      parseSwitch_long P n j sw hsw hen hn heq hlen,
      ArgumentParseResult.merge, ArgumentParseResult.toBool]

theorem setSwitchValue_on (P : Parser) (j : Nat) (sw : Switch)
    (h : P.switches[j]? = some sw) :
    ((P.setSwitchValue j true).values.switches.getD j []) = ['1'] := by
  simp [Parser.setSwitchValue, Parser.values, List.getD_eq_getElem?_getD, modifyAt_getElem?,
    h, Switch.setValue]

end Conditional

section ConditionalClaim

/-- C9 (amended): take a parser whose first registered argument `A` (required
and empty in the claim, any requirement and value here) is enabled by
`enableWhenSwitchIsSet` of the switch `sw`, where `sw` is off, enabled, found by
`getSwitch` under its name (non-empty, free of `=`) and no enabled option has that name;
let `t` be a token that is not option-shaped.
Parsing `[cmdname, t]` fails: `t` is rejected with the excess-positional error for slot 1
and only `cmdname` changes, so `A` keeps its value. Parsing `[cmdname, --<name>, t]`
turns `sw` on, stores `t` in `A` and records no dispatch error, the predicate being
evaluated when `t` is dispatched; it succeeds when moreover `t` is non-empty and every
other enabled required argument and option holds a value. Each result is that of the body
of `parse`, and of `parse` when its assertion on `validateCommand` holds. -/
theorem conditional_argument (P : Parser) (A : Argument) (rest : List Argument)
    (sw : Switch) (j : Nat) (cmdname t : Str)
    (hargs : P.args = A :: rest)
    (hpred : A.enablePred = enableWhenSwitchIsSet j)
    (hsw : P.getSwitch sw.name = some (j, sw))
    (hoff : sw.on = false)
    (hswen : sw.enabled P.values = true)
    (hopt : ∀ r, P.getOption sw.name = some r → r.2.enabled P.values = false)
    (hn : sw.name ≠ []) (heq : '=' ∉ sw.name)
    (hlen : (['-', '-'] ++ sw.name).length < SIZE_MOD)
    (ht : isPositional t = true) :
    (∃ r1, P.parseBody [cmdname, t] = .ok ({ P with cmdname := cmdname }, r1) ∧
      (P.validateCommand.toBool = true →
        P.parse [cmdname, t] = .ok ({ P with cmdname := cmdname }, r1)) ∧
      r1.errors = "This command does not accept 1 positional arguments".toList ::
        (({ P with cmdname := cmdname } : Parser).validateArguments.errors ++
          ({ P with cmdname := cmdname } : Parser).validateOptions.errors) ∧
      r1.toBool = false) ∧
    (∃ P2 r2, P.parseBody [cmdname, ['-', '-'] ++ sw.name, t] = .ok (P2, r2) ∧
      (P.validateCommand.toBool = true →
        P.parse [cmdname, ['-', '-'] ++ sw.name, t] = .ok (P2, r2)) ∧
      P2 = (({ P with cmdname := cmdname } : Parser).setSwitchValue j true).setArgValue 0 t ∧
      (P2.switches[j]?).map Switch.on = some true ∧
      (P2.args.map fun a => a.value) = t :: rest.map (fun a => a.value) ∧
      P2.options = P.options ∧
      r2.errors = P2.validateArguments.errors ++ P2.validateOptions.errors ∧
      (t ≠ [] →
        (∀ B ∈ rest, B.enabled P2.values = true → B.required = Req.required →
          B.value ≠ []) →
        (∀ o ∈ P.options, o.enabled P2.values = true → o.required = Req.required →
          o.value ≠ []) →
        r2.toBool = true)) := by
  have hswj : P.switches[j]? = some sw := (findFirst_some _ _ j sw hsw).1
  have hswval : sw.value = [] := by
    simpa [Switch.on] using hoff
  have htok : ['-', '-'] ++ sw.name = '-' :: '-' :: sw.name := rfl
  rw [htok] at hlen ⊢
  constructor
  · have hclosed : (P.start cmdname).parser.slotOpen (P.start cmdname).pos = false := by
      show P.slotOpen 0 = false
      simp [Parser.slotOpen, Parser.getArgumentAt, hargs, Argument.enabled, hpred,
        enableWhenSwitchIsSet, Parser.values, List.getD_eq_getElem?_getD, hswj, hswval]
    have hrun := parseTokens_single _ _ _ (parseToken_closed (P.start cmdname) t rfl ht hclosed)
    have hbody := parseBody_of_parseTokens P cmdname [t] _ hrun
    refine ⟨_, hbody, fun hv => (parse_of_valid P _ hv).trans hbody, ?_, ?_⟩
    · show ([] ++ [msgExcessPositional 0]) ++
          ({ P with cmdname := cmdname } : Parser).validateArguments.errors ++
          ({ P with cmdname := cmdname } : Parser).validateOptions.errors = _
      have hm : msgExcessPositional 0 =
          "This command does not accept 1 positional arguments".toList := by decide
      rw [hm]
      rfl
    · show (([] ++ [msgExcessPositional 0]) ++
          ({ P with cmdname := cmdname } : Parser).validateArguments.errors ++
          ({ P with cmdname := cmdname } : Parser).validateOptions.errors).isEmpty = false
      rfl
  · have hstep1 := parseToken_long_switch (P.start cmdname) sw.name j sw rfl hopt hsw hswen
      hn heq hlen
    have hopen : (({ P with cmdname := cmdname } : Parser).setSwitchValue j true).slotOpen 0 =
        true := by
      have hon := setSwitchValue_on ({ P with cmdname := cmdname } : Parser) j sw hswj
      have hA : (({ P with cmdname := cmdname } : Parser).setSwitchValue j
          true).getArgumentAt 0 = some A := by
        simp [Parser.getArgumentAt, Parser.setSwitchValue, hargs]
      simp only [Parser.slotOpen, hA, Argument.enabled, hpred, enableWhenSwitchIsSet, hon]
      rfl
    have hstep2 := parseToken_open
      { P.start cmdname with
        parser := ({ P with cmdname := cmdname } : Parser).setSwitchValue j true }
      t rfl ht hopen
    have hrun := parseTokens_pair _ _ _ _ t hstep1 hstep2
    have hparse := parseBody_of_parseTokens P cmdname _ _ hrun
    have hargs2 : ((({ P with cmdname := cmdname } : Parser).setSwitchValue j
        true).setArgValue 0 t).args = { A with value := t } :: rest := by
      simp [Parser.setArgValue, Parser.setSwitchValue, hargs, modifyAt]
    refine ⟨_, _, hparse, fun hv => (parse_of_valid P _ hv).trans hparse, rfl, ?_, ?_, rfl,
      rfl, ?_⟩
    · show ((modifyAt (fun s => s.setValue true) j P.switches)[j]?).map Switch.on = some true
      simp [modifyAt_getElem?, hswj, Switch.on, Switch.setValue]
    · show ((({ P with cmdname := cmdname } : Parser).setSwitchValue j
        true).setArgValue 0 t).args.map (fun a => a.value) = t :: rest.map fun a => a.value
      rw [hargs2]
      rfl
    · intro htne hrest hopts
      show (([] ++ ((({ P with cmdname := cmdname } : Parser).setSwitchValue j
          true).setArgValue 0 t).validateArguments.errors) ++
        ((({ P with cmdname := cmdname } : Parser).setSwitchValue j
          true).setArgValue 0 t).validateOptions.errors).isEmpty = true
      have h1 : ((({ P with cmdname := cmdname } : Parser).setSwitchValue j
          true).setArgValue 0 t).validateArguments.errors = [] := by
        apply (validateArgumentsLoop_errors _ _).mpr
        intro a ha hena hreqa
        rw [hargs2] at ha
        rcases List.mem_cons.mp ha with h | h
        · rw [h]
          exact htne
        · exact hrest a h hena hreqa
      have h2 : ((({ P with cmdname := cmdname } : Parser).setSwitchValue j
          true).setArgValue 0 t).validateOptions.errors = [] :=
        (validateOptionsLoop_errors _ _).mpr hopts
      rw [h1, h2]
      rfl

/-- C9 (amended), on the parser of the test case "Parsing conditional arguments". -/
theorem conditional_argument_witness :
    (∃ r1, testConditionalArguments.parse ["appname".toList, "arg".toList] =
        .ok ({ testConditionalArguments with cmdname := "appname".toList }, r1) ∧
      r1.toBool = false) ∧
    (∃ P2 r2, testConditionalArguments.parse
        ["appname".toList, ['-', '-'] ++ "switch".toList, "arg".toList] = .ok (P2, r2) ∧
      (P2.switches[1]?).map Switch.on = some true ∧
      (P2.args.map fun a => a.value) = ["arg".toList] ∧
      r2.toBool = true) := by
  have h := conditional_argument testConditionalArguments
    (Argument.new "arg".toList [] Req.required [] (enableWhenSwitchIsSet 1)) []
    (Switch.new "switch".toList NoAbbr [] enableAlways) 1 "appname".toList "arg".toList
    rfl rfl rfl rfl rfl
    (by
      intro r hr
      exact absurd hr (by simp [testConditionalArguments, Parser.getOption,
        Parser.addArgument, Parser.addSwitch, Parser.new, Parser.addStandardHelpSwitch,
        findFirst]))
    (by decide) (by decide) (by decide) (by decide)
  obtain ⟨⟨r1, _, h1, _, h3⟩, ⟨P2, r2, _, h4, _, h6, h7, _, _, h10⟩⟩ := h
  refine ⟨⟨r1, h1 (by decide), h3⟩, ⟨P2, r2, h4 (by decide), h6, h7, h10 (by decide) ?_ ?_⟩⟩
  · intro B hB
    exact absurd hB (by simp)
  · intro o ho
    exact absurd ho (by simp [testConditionalArguments, Parser.addArgument,
      Parser.addSwitch, Parser.new, Parser.addStandardHelpSwitch])

/-- C9 as stated fails: on the parser of the test case "Parsing conditional arguments"
the empty token is not option-shaped, yet parsing `[appname, --switch, ""]` does not
succeed: the switch is on, the argument holds the empty token and is reported missing. -/
theorem empty_token_under_switch :
    isPositional [] = true ∧
    (testConditionalArguments.parse
        ["appname".toList, "--switch".toList, []]).toOption.map
      (fun r => (r.1.args.map (fun a => a.value), r.1.switches.map Switch.on,
        r.2.errors, r.2.toBool)) =
      some ([[]], [false, true], ["Positional argument arg is required".toList], false) := by
  constructor <;> rfl

end ConditionalClaim

/-! ## Switch values, token classes and rendered forms -/

section Classification

/-- C13: a switch is on iff its value is non-empty; `setValue(true)` stores `1`,
`setValue(false)` stores the empty string, so `on()` after `setValue(b)` is `b`; a
freshly constructed switch is off and optional. -/
theorem switch_value_convention :
    (∀ s : Switch, s.on = true ↔ s.value ≠ []) ∧
    (∀ s : Switch, (s.setValue true).value = "1".toList ∧ (s.setValue false).value = []) ∧
    (∀ (s : Switch) (b : Bool), (s.setValue b).on = b) ∧
    (∀ (name : Str) (abbr : Char) (description : Str) (enablePred : ArgumentEnablePred),
      (Switch.new name abbr description enablePred).on = false ∧
      (Switch.new name abbr description enablePred).value = [] ∧
      (Switch.new name abbr description enablePred).required = Req.optional) := by
  refine ⟨?_, ?_, ?_, ?_⟩
  · intro s
    cases h : s.value <;> simp [Switch.on, h]
  · intro s
    exact ⟨rfl, rfl⟩
  · intro s b
    cases b <;> rfl
  · intro name abbr description enablePred
    exact ⟨rfl, rfl, rfl⟩

theorem isOption_iff (t : Str) :
    isOption t = true ↔ ∃ c rest, t = '-' :: '-' :: c :: rest := by
  constructor
  · intro h
    match t, h with
    | [], h => simp [isOption] at h
    | [_], h => simp [isOption] at h
    | [_, _], h => simp [isOption] at h
    | a :: b :: c :: rest, h =>
      simp only [isOption, List.length_cons, List.getElem?_cons_zero,
        List.getElem?_cons_succ, Bool.and_eq_true, decide_eq_true_eq, beq_iff_eq,
        Option.some.injEq] at h
      obtain ⟨⟨_, ha⟩, hb⟩ := h
      exact ⟨c, rest, by rw [ha, hb]⟩
  · rintro ⟨c, rest, rfl⟩
    simp [isOption]

/-- C14 (amended): `isOption(t)` holds iff `t` is longer than 2 characters and its first
two characters are `--`; so `--` is no long option, `---` is one, and a token with `--`
only in its interior is none. -/
theorem isOption_spec :
    (∀ t : Str, isOption t = true ↔ (2 < t.length ∧ t.take 2 = "--".toList)) ∧
    isOption "--".toList = false ∧
    isOption "---".toList = true ∧
    isOption "this-is--an-option".toList = false ∧
    isOption "option".toList = false ∧
    isOption "--option".toList = true ∧
    isOption "--option=value".toList = true := by
  refine ⟨?_, by decide, by decide, by decide, by decide, by decide, by decide⟩
  intro t
  rw [isOption_iff]
  constructor
  · rintro ⟨c, rest, rfl⟩
    exact ⟨by simp, rfl⟩
  · rintro ⟨hlen, htake⟩
    match t, hlen, htake with
    | a :: b :: c :: rest, _, htake =>
      simp only [List.take_succ_cons, List.take_zero] at htake
      have h2 : a :: [b] = '-' :: ['-'] := htake
      simp only [List.cons.injEq, and_true] at h2
      exact ⟨c, rest, by rw [h2.1, h2.2]⟩

/-- C14 as stated fails: the token `---` is longer than 2 characters and starts with
`--`, so `isOption` accepts it (as a long option named `-`). -/
theorem triple_dash_is_long_option :
    isOption "---".toList = true ∧ getOptionName "---".toList = .ok "-".toList := by
  constructor
  · decide
  · rfl

/-- C15 (amended): a token is positional (neither `isOption` nor `isOptionAbbr`, so that
`parseArgument` handles it) iff its first character is not `-` (the empty token
included) or it is `-` alone; the token `--` is a short-form token. -/
theorem isPositional_spec :
    (∀ t : Str, isPositional t = true ↔ (t.head? ≠ some '-' ∨ t = "-".toList)) ∧
    (∀ t : Str, isPositional t = true ↔ (isOption t = false ∧ isOptionAbbr t = false)) ∧
    isPositional "-".toList = true ∧ isPositional [] = true ∧
    isPositional "--".toList = false := by
  refine ⟨?_, ?_, by decide, by decide, by decide⟩
  · intro t
    match t with
    | [] => simp [isPositional, isOption, isOptionAbbr]
    | [a] =>
      simp only [isPositional, isOption, isOptionAbbr, List.length_singleton]
      by_cases ha : a = '-'
      · subst ha; decide
      · simp [ha]
    | a :: b :: rest =>
      by_cases ha : a = '-'
      · subst ha
        have : isPositional ('-' :: b :: rest) = false := by
          by_cases hb : b = '-' ∧ rest ≠ []
          · obtain ⟨hb1, hb2⟩ := hb
            subst hb1
            exact isPositional_long rest hb2
          · apply isPositional_short
            by_cases hb1 : b = '-'
            · right
              by_contra hne
              exact hb ⟨hb1, hne⟩
            · left; exact hb1
        simp [this]
      · have h1 : isOption (a :: b :: rest) = false := by
          cases rest <;> simp [isOption, ha]
        simp [isPositional, isOptionAbbr, h1, ha]
  · intro t
    cases h1 : isOption t <;> cases h2 : isOptionAbbr t <;> simp [isPositional, h1, h2]

/-- C15 as stated fails: the token `--` is not positional, `isOptionAbbr` accepts it;
with one registered argument, parsing `[appname, --]` leaves the argument empty and
reports an unknown option and an unknown switch. -/
theorem double_dash_is_short_form :
    isOptionAbbr "--".toList = true ∧ isPositional "--".toList = false ∧
    (testNonexistentArguments.parse ["appname".toList, "--".toList]).toOption.map
        (fun r => (r.1.args.map (fun a => a.value), r.2.errors)) =
      some ([[]], ["This command does not accept \"--\" option".toList,
        "This command does not accept \"--\" switch".toList,
        "Positional argument aaa is required".toList]) := by
  refine ⟨by decide, by decide, ?_⟩
  rfl

end Classification

section NameEqualsValue

/-- C16 (amended): for a token `t` (shorter than 2^64 characters) without `=`,
`getNameEqualsValue` returns two empty strings; for a long-form token `--n=v`, with `n`
free of `=`, it returns `(n, v)`: the name `getOptionName` gives, and all that follows
the first `=`; for a short-form token `-c`, `x`, `=`, `v`, with `c` and `x` free of `=`,
it returns `(x, v)`: the first two characters are dropped, the dash and the first
character of the cluster. -/
theorem getNameEqualsValue_spec (t : Str) (hlen : t.length < SIZE_MOD) :
    ('=' ∉ t → getNameEqualsValue t = .ok ([], [])) ∧
    (∀ n v : Str, '=' ∉ n → t = ['-', '-'] ++ n ++ ['='] ++ v →
      isOption t = true ∧ getOptionName t = .ok n ∧ getNameEqualsValue t = .ok (n, v)) ∧
    (∀ (c : Char) (x v : Str), c ≠ '=' → '=' ∉ x → t = ['-', c] ++ x ++ ['='] ++ v →
      getNameEqualsValue t = .ok (x, v)) := by
  refine ⟨getNameEqualsValue_plain t, ?_, ?_⟩
  · intro n v hn ht
    have ht2 : t = ('-' :: '-' :: n) ++ '=' :: v := by simp [ht]
    have hpre : '=' ∉ '-' :: '-' :: n := by simp [hn]
    subst ht2
    refine ⟨?_, ?_, ?_⟩
    · exact isOption_long (n ++ '=' :: v) (by simp)
    · exact getOptionName_split _ v hpre (by simp) hlen
    · exact getNameEqualsValue_split _ v hpre (by simp) hlen
  · intro c x v hc hx ht
    have ht2 : t = ('-' :: c :: x) ++ '=' :: v := by simp [ht]
    have hpre : '=' ∉ '-' :: c :: x := by simp [hx, Ne.symm hc]
    subst ht2
    exact getNameEqualsValue_split _ v hpre (by simp) hlen

/-- C16 (amended), on the token `--option=value` of the test case "Getting name and
value" and on the short-form token `-qx=1`. -/
theorem getNameEqualsValue_spec_witness :
    getNameEqualsValue (['-', '-'] ++ "option".toList ++ ['='] ++ "value".toList) =
      .ok ("option".toList, "value".toList) ∧
    getNameEqualsValue (['-', 'q'] ++ "x".toList ++ ['='] ++ "1".toList) =
      .ok ("x".toList, "1".toList) :=
  ⟨((getNameEqualsValue_spec _ (by decide)).2.1 "option".toList "value".toList (by decide)
      rfl).2.2,
    (getNameEqualsValue_spec _ (by decide)).2.2 'q' "x".toList "1".toList (by decide)
      (by decide) rfl⟩

/-- C16 as stated fails: for the short-form token `-q=1234` the first component is the
empty string, not the name `q` left after the leading dash. -/
theorem short_token_name_is_cut :
    isOptionAbbr "-q=1234".toList = true ∧
    getNameEqualsValue "-q=1234".toList = .ok ([], "1234".toList) := by
  constructor
  · decide
  · rfl

end NameEqualsValue

section Representation

/-- C20: `getArgRepresentation` gives the bare name for a positional argument; for an
option `--<name>`, then `, -<abbr>` iff an abbreviation is set (the character is not
`NoAbbr`), then ` [value]`; for a switch the same without the ` [value]` suffix. -/
theorem getArgRepresentation_spec :
    (∀ a : Argument, getArgRepresentation (.argument a) = a.name) ∧
    (∀ o : CmdOption, getArgRepresentation (.option o) =
      "--".toList ++ o.name ++ (if o.abbr ≠ NoAbbr then ", -".toList ++ [o.abbr] else []) ++
        " [value]".toList) ∧
    (∀ s : Switch, getArgRepresentation (.switch s) =
      "--".toList ++ s.name ++ (if s.abbr ≠ NoAbbr then ", -".toList ++ [s.abbr] else [])) ∧
    getArgRepresentation (.option (CmdOption.new "opt".toList 'o' "1337".toList
      Req.required "An option".toList enableAlways)) = "--opt, -o [value]".toList ∧
    getArgRepresentation (.option (CmdOption.new "opt-simple".toList NoAbbr []
      Req.optional [] enableAlways)) = "--opt-simple [value]".toList ∧
    getArgRepresentation (.switch (Switch.new "help".toList '?'
      "Show help message".toList enableAlways)) = "--help, -?".toList ∧
    getArgRepresentation (.switch (Switch.new "switch-simple".toList NoAbbr []
      enableAlways)) = "--switch-simple".toList ∧
    getArgRepresentation (.argument (Argument.new "arg".toList "default-value".toList
      Req.required "Some desc".toList enableAlways)) = "arg".toList := by
  refine ⟨fun a => rfl, ?_, ?_, by decide, by decide, by decide, by decide, by decide⟩
  · intro o
    by_cases h : o.abbr = NoAbbr <;>
      simp [getArgRepresentation, Param.asOption, Param.expectsValue,
        CmdOption.expectsValue, h]
  · intro s
    by_cases h : s.abbr = NoAbbr <;>
      simp [getArgRepresentation, Param.asOption, Param.expectsValue,
        Switch.expectsValue, h]

end Representation

/-! ## Short-form switch clusters -/

section Clusters

theorem findFirst_modifyAt {α : Type} (p : α → Bool) (f : α → α)
    (hpf : ∀ x, p (f x) = p x) (j : Nat) (l : List α) :
    findFirst p (modifyAt f j l) =
      (findFirst p l).map fun r => (r.1, if r.1 = j then f r.2 else r.2) := by
  induction l generalizing j with
  | nil => simp [modifyAt, findFirst]
  | cons x xs ih =>
    cases j with
    | zero =>
      by_cases hx : p x = true
      · simp [modifyAt, findFirst, hpf, hx]
      · simp [modifyAt, findFirst, hpf, hx, Option.map_map, Function.comp_def]
    | succ j =>
      by_cases hx : p x = true
      · simp [modifyAt, findFirst, hx]
      · simp [modifyAt, findFirst, hx, ih, Option.map_map, Function.comp_def]

theorem getSwitchByChar_setSwitchValue (P : Parser) (j : Nat) (b : Bool) (c : Char) :
    (P.setSwitchValue j b).getSwitchByChar c =
      (P.getSwitchByChar c).map fun r => (r.1, if r.1 = j then r.2.setValue b else r.2) := by
  simp only [Parser.getSwitchByChar, Parser.setSwitchValue]
  exact findFirst_modifyAt (fun s : Switch => s.abbr == c) (fun s => s.setValue b)
    (fun x => rfl) j P.switches

theorem getSwitch_setSwitchValue (P : Parser) (j : Nat) (b : Bool) (n : Str) :
    (P.setSwitchValue j b).getSwitch n =
      (P.getSwitch n).map fun r => (r.1, if r.1 = j then r.2.setValue b else r.2) := by
  simp only [Parser.getSwitch, Parser.setSwitchValue]
  exact findFirst_modifyAt (fun s : Switch => s.name == n) (fun s => s.setValue b)
    (fun x => rfl) j P.switches

theorem getOptionAbbr_cluster (cl : Str) (hlen : ('-' :: cl).length < SIZE_MOD) :
    getOptionAbbr ('-' :: cl) = .ok cl := by
  rw [getOptionAbbr, substr_rest _ _ _ (by simp)
    (by rw [SIZE_MOD_eq] at hlen; rw [npos_eq]; omega)]
  rfl

theorem isOptionAbbr_ne_nil (cl : Str) (h : isOptionAbbr ('-' :: cl) = true) : cl ≠ [] := by
  intro hcl
  subst hcl
  simp [isOptionAbbr] at h

theorem isPositional_of_isOptionAbbr (t : Str) (h : isOptionAbbr t = true) :
    isPositional t = false := by
  simp [isPositional, h]

theorem isOption_of_isOptionAbbr (t : Str) (h : isOptionAbbr t = true) :
    isOption t = false := by
  cases h1 : isOption t
  · rfl
  · simp [isOptionAbbr, h1] at h

/-- A short-form token whose first character is no enabled option: the option branch
rejects it with its error. -/
theorem parseOption_short_unknown (P : Parser) (c : Char) (cs : Str) (act : Option Nat)
    (hshort : isOptionAbbr ('-' :: c :: cs) = true)
    (hnone : P.openOptionByChar c = none) :
    P.parseOption ('-' :: c :: cs) act =
      .ok (P, act, ArgumentParseResult.make false (msgUnknownOption ('-' :: c :: cs))) := by
  rw [Parser.parseOption, isOption_of_isOptionAbbr _ hshort, hshort]
  simp only [Bool.false_eq_true, if_false, if_true]
  rw [getOptionAbbr_short]
  simp only [except_bind_ok]
  unfold Parser.openOptionByChar at hnone
  cases hg : P.getOptionByChar c with
  | none => rfl
  | some r =>
    obtain ⟨i, o⟩ := r
    rw [hg] at hnone
    have hdis : o.enabled P.values = false := by
      cases he : o.enabled P.values
      · rfl
      · simp [he] at hnone
    simp [Parser.bindOption, hdis]

theorem switchCluster_cons (arg : Str) (c : Char) (cs : Str) (P : Parser) :
    switchCluster arg (c :: cs) P =
      match P.getSwitchByChar c with
      | none => (P, ArgumentParseResult.make false (msgUnknownSwitch arg))
      | some (i, sw) =>
        if !sw.enabled P.values then
          (P, ArgumentParseResult.make false (msgUnknownSwitch arg))
        else switchCluster arg cs (P.setSwitchValue i true) := rfl

theorem switchCluster_cons_some (arg : Str) (c : Char) (cs : Str) (P : Parser) (j : Nat)
    (h : P.openSwitchByChar c = some j) :
    switchCluster arg (c :: cs) P = switchCluster arg cs (P.setSwitchValue j true) := by
  unfold Parser.openSwitchByChar at h
  rw [switchCluster_cons]
  cases hg : P.getSwitchByChar c with
  | none => rw [hg] at h; simp at h
  | some r =>
    obtain ⟨i, sw⟩ := r
    rw [hg] at h
    simp only at h ⊢
    cases he : sw.enabled P.values
    · simp [he] at h
    · simp only [he, if_true, Option.some.injEq] at h
      subst h
      simp

theorem switchCluster_cons_none (arg : Str) (c : Char) (cs : Str) (P : Parser)
    (h : P.openSwitchByChar c = none) :
    switchCluster arg (c :: cs) P =
      (P, ArgumentParseResult.make false (msgUnknownSwitch arg)) := by
  unfold Parser.openSwitchByChar at h
  rw [switchCluster_cons]
  cases hg : P.getSwitchByChar c with
  | none => rfl
  | some r =>
    obtain ⟨i, sw⟩ := r
    rw [hg] at h
    simp only at h ⊢
    cases he : sw.enabled P.values
    · simp
    · simp [he] at h

theorem allOpen_cons (c : Char) (cs : Str) (P : Parser) (h : P.allOpen (c :: cs) = true) :
    ∃ j, P.openSwitchByChar c = some j ∧ (P.setSwitchValue j true).allOpen cs = true := by
  unfold Parser.allOpen at h
  cases ho : P.openSwitchByChar c with
  | none => rw [ho] at h; simp at h
  | some j => rw [ho] at h; exact ⟨j, rfl, h⟩

theorem setSwitches_cons_some (c : Char) (cs : Str) (P : Parser) (j : Nat)
    (h : P.openSwitchByChar c = some j) :
    P.setSwitches (c :: cs) = (P.setSwitchValue j true).setSwitches cs := by
  rw [Parser.setSwitches, h]

theorem switchCluster_allOpen (arg : Str) (cl : Str) (P : Parser)
    (h : P.allOpen cl = true) :
    switchCluster arg cl P = (P.setSwitches cl, ArgumentParseResult.make true []) := by
  induction cl generalizing P with
  | nil => rfl
  | cons c cs ih =>
    obtain ⟨j, hj, hrest⟩ := allOpen_cons c cs P h
    rw [switchCluster_cons_some arg c cs P j hj, setSwitches_cons_some c cs P j hj]
    exact ih _ hrest

theorem switchCluster_firstClosed (arg : Str) (pre : Str) (c : Char) (post : Str)
    (P : Parser) (h : P.allOpen pre = true)
    (hc : (P.setSwitches pre).openSwitchByChar c = none) :
    switchCluster arg (pre ++ c :: post) P =
      (P.setSwitches pre, ArgumentParseResult.make false (msgUnknownSwitch arg)) := by
  induction pre generalizing P with
  | nil => exact switchCluster_cons_none arg c post P hc
  | cons d ds ih =>
    obtain ⟨j, hj, hrest⟩ := allOpen_cons d ds P h
    rw [setSwitches_cons_some d ds P j hj] at hc ⊢
    rw [List.cons_append, switchCluster_cons_some arg d _ P j hj]
    exact ih _ hrest hc

theorem parseSwitch_short (P : Parser) (cl : Str)
    (hshort : isOptionAbbr ('-' :: cl) = true) (hlen : ('-' :: cl).length < SIZE_MOD) :
    P.parseSwitch ('-' :: cl) = .ok (switchCluster ('-' :: cl) cl P) := by
  rw [Parser.parseSwitch, isOption_of_isOptionAbbr _ hshort, hshort,
    getOptionAbbr_cluster cl hlen]
  simp

/-- A short-form token that the option branch does not take and whose characters are all
open switches: every switch is set and no error is kept. -/
theorem parseToken_cluster_open (s : ParseState) (c : Char) (cs : Str)
    (hidle : s.activeOption = none)
    (hshort : isOptionAbbr ('-' :: c :: cs) = true)
    (hlen : ('-' :: c :: cs).length < SIZE_MOD)
    (hnone : s.parser.openOptionByChar c = none)
    (hopen : s.parser.allOpen (c :: cs) = true) :
    parseToken s ('-' :: c :: cs) =
      .ok { s with parser := s.parser.setSwitches (c :: cs) } := by
  cases s with
  | mk P res act pos =>
    simp only at hidle hnone hopen
    subst hidle
    simp [parseToken, parseArgument_optionShaped P _ pos (isPositional_of_isOptionAbbr _ hshort),
      parseOption_short_unknown P c cs none hshort hnone,
      parseSwitch_short P (c :: cs) hshort hlen,
      switchCluster_allOpen _ _ P hopen,
      ArgumentParseResult.merge, ArgumentParseResult.toBool]

/-- A short-form token that the option branch does not take and whose first closed
character comes after `pre`: the switches of `pre` stay set and both errors are kept. -/
theorem parseToken_cluster_closed (s : ParseState) (c : Char) (cs pre : Str) (d : Char)
    (post : Str)
    (hidle : s.activeOption = none)
    (hshort : isOptionAbbr ('-' :: c :: cs) = true)
    (hlen : ('-' :: c :: cs).length < SIZE_MOD)
    (hnone : s.parser.openOptionByChar c = none)
    (hsplit : c :: cs = pre ++ d :: post)
    (hopen : s.parser.allOpen pre = true)
    (hclosed : (s.parser.setSwitches pre).openSwitchByChar d = none) :
    parseToken s ('-' :: c :: cs) =
      .ok { s with
        parser := s.parser.setSwitches pre,
        result := { errors := s.result.errors ++
          [msgUnknownOption ('-' :: c :: cs), msgUnknownSwitch ('-' :: c :: cs)] } } := by
  cases s with
  | mk P res act pos =>
    simp only at hidle hnone hopen hclosed
    subst hidle
    have hsw : P.parseSwitch ('-' :: c :: cs) =
        .ok (P.setSwitches pre,
          ArgumentParseResult.make false (msgUnknownSwitch ('-' :: c :: cs))) := by
      rw [parseSwitch_short P (c :: cs) hshort hlen, hsplit,
        switchCluster_firstClosed _ pre d post P hopen hclosed]
    simp [parseToken, parseArgument_optionShaped P _ pos (isPositional_of_isOptionAbbr _ hshort),
      parseOption_short_unknown P c cs none hshort hnone, hsw,
      ArgumentParseResult.merge, ArgumentParseResult.toBool, ParseResult.mergeArg,
      make_errors_of_ne_nil _ (msgUnknownOption_ne_nil _),
      make_errors_of_ne_nil _ (msgUnknownSwitch_ne_nil _)]

end Clusters

section ClusterClaim

theorem openSwitchByChar_some (P : Parser) (c : Char) (j : Nat)
    (h : P.openSwitchByChar c = some j) :
    ∃ sw, P.getSwitchByChar c = some (j, sw) ∧ sw.enabled P.values = true := by
  unfold Parser.openSwitchByChar at h
  cases hg : P.getSwitchByChar c with
  | none => rw [hg] at h; simp at h
  | some r =>
    obtain ⟨i, sw⟩ := r
    rw [hg] at h
    simp only at h
    cases he : sw.enabled P.values
    · simp [he] at h
    · simp only [he, if_true, Option.some.injEq] at h
      subst h
      exact ⟨sw, rfl, he⟩

theorem setSwitches_keeps_on (cl : Str) (P : Parser) (c : Char) (i : Nat) (sw : Switch)
    (hg : P.getSwitchByChar c = some (i, sw)) (hon : sw.on = true) :
    ∃ sw2, (P.setSwitches cl).getSwitchByChar c = some (i, sw2) ∧ sw2.on = true := by
  induction cl generalizing P sw with
  | nil => exact ⟨sw, hg, hon⟩
  | cons d ds ih =>
    unfold Parser.setSwitches
    cases ho : P.openSwitchByChar d with
    | none => exact ih P sw hg hon
    | some j =>
      simp only
      apply ih (P.setSwitchValue j true) (if i = j then sw.setValue true else sw)
      · rw [getSwitchByChar_setSwitchValue, hg]
        rfl
      · by_cases hij : i = j
        · simp [hij, Switch.on, Switch.setValue]
        · simp [hij, hon]

theorem setSwitches_all_on (cl : Str) (P : Parser) (h : P.allOpen cl = true) :
    ∀ c ∈ cl, ∃ i sw, (P.setSwitches cl).getSwitchByChar c = some (i, sw) ∧
      sw.on = true := by
  induction cl generalizing P with
  | nil => intro c hc; simp at hc
  | cons d ds ih =>
    obtain ⟨j, hj, hrest⟩ := allOpen_cons d ds P h
    obtain ⟨sw0, hsw0, _⟩ := openSwitchByChar_some P d j hj
    intro c hc
    rw [setSwitches_cons_some d ds P j hj]
    rcases List.mem_cons.mp hc with hcd | hcds
    · subst hcd
      have hset : (P.setSwitchValue j true).getSwitchByChar c =
          some (j, sw0.setValue true) := by
        rw [getSwitchByChar_setSwitchValue, hsw0]
        simp
      obtain ⟨sw2, h2, hon2⟩ := setSwitches_keeps_on ds _ c j _ hset
        (by simp [Switch.on, Switch.setValue])
      exact ⟨j, sw2, h2, hon2⟩
    · exact ih _ hrest c hcds

/-- C17: take a short-form token `-c1...cn` (shorter than 2^64 characters), dispatched
in the idle state, whose first character is not the abbreviation of an option enabled
now. If every character is the abbreviation of a registered switch that is enabled when
it is reached, the token sets exactly those switches, all of them are on afterwards and
no error is added. Otherwise, with `d` the first character that is no such switch, after
`pre`, the switches of `pre` are set and stay set, nothing is done for the characters
after `d`, and the errors `This command does not accept "<token>" option` and
`This command does not accept "<token>" switch` are added. -/
theorem switch_cluster (s : ParseState) (c : Char) (cs : Str)
    (hidle : s.activeOption = none)
    (hshort : isOptionAbbr ('-' :: c :: cs) = true)
    (hlen : ('-' :: c :: cs).length < SIZE_MOD)
    (hnone : s.parser.openOptionByChar c = none) :
    (s.parser.allOpen (c :: cs) = true →
      parseToken s ('-' :: c :: cs) =
        .ok { parser := s.parser.setSwitches (c :: cs), result := s.result,
              activeOption := none, pos := s.pos } ∧
      ∀ x ∈ c :: cs, ∃ i sw,
        (s.parser.setSwitches (c :: cs)).getSwitchByChar x = some (i, sw) ∧ sw.on = true) ∧
    (∀ (pre : Str) (d : Char) (post : Str), c :: cs = pre ++ d :: post →
      s.parser.allOpen pre = true → (s.parser.setSwitches pre).openSwitchByChar d = none →
      parseToken s ('-' :: c :: cs) =
        .ok { parser := s.parser.setSwitches pre,
              result := { errors := s.result.errors ++
                ["This command does not accept \"".toList ++ ('-' :: c :: cs) ++
                    "\" option".toList,
                  "This command does not accept \"".toList ++ ('-' :: c :: cs) ++
                    "\" switch".toList] },
              activeOption := none, pos := s.pos } ∧
      ∀ x ∈ pre, ∃ i sw,
        (s.parser.setSwitches pre).getSwitchByChar x = some (i, sw) ∧ sw.on = true) := by
  constructor
  · intro hopen
    refine ⟨?_, setSwitches_all_on _ _ hopen⟩
    rw [parseToken_cluster_open s c cs hidle hshort hlen hnone hopen, ← hidle]
  · intro pre d post hsplit hopen hclosed
    refine ⟨?_, setSwitches_all_on _ _ hopen⟩
    rw [parseToken_cluster_closed s c cs pre d post hidle hshort hlen hnone hsplit hopen
      hclosed, ← hidle]
    rfl

/-- C17, on a parser with the switches `help` (`?`), `aa` (`a`) and `bb` (`b`): the
token `-ab` sets `aa` and `bb`; the token `-azb` sets `aa`, stops at `z`, leaves `bb` off
and adds the two errors. -/
theorem switch_cluster_witness :
    (parseToken (testTwoSwitches.start "app".toList) ('-' :: 'a' :: "b".toList)).toOption.map
        (fun s => (s.parser.switches.map Switch.on, s.result.errors)) =
      some ([false, true, true], []) ∧
    (parseToken (testTwoSwitches.start "app".toList)
        ('-' :: 'a' :: "zb".toList)).toOption.map
        (fun s => (s.parser.switches.map Switch.on, s.result.errors)) =
      some ([false, true, false],
        ["This command does not accept \"-azb\" option".toList,
          "This command does not accept \"-azb\" switch".toList]) := by
  constructor
  · rw [((switch_cluster (testTwoSwitches.start "app".toList) 'a' "b".toList rfl
      (by decide) (by decide) rfl).1 rfl).1]
    rfl
  · rw [((switch_cluster (testTwoSwitches.start "app".toList) 'a' "zb".toList rfl
      (by decide) (by decide) rfl).2 "a".toList 'z' "b".toList rfl rfl rfl).1]
    rfl

end ClusterClaim

/-! ## Options before switches, and the help switch -/

section Precedence

/-- C18 (amended): when a token `--<name>` (name non-empty, free of `=`) or `-<abbr>`
(abbreviation other than `=`), dispatched in the idle state, is resolved by `getOption`
to an option that is enabled now, the option branch handles it: the option is marked
pending and the parser is unchanged, so a switch registered under the same name or
abbreviation keeps its value. -/
theorem option_wins_over_switch (s : ParseState) (tok : Str) (i : Nat) (o : CmdOption)
    (hidle : s.activeOption = none)
    (hen : o.enabled s.parser.values = true)
    (hform :
      (tok = ['-', '-'] ++ o.name ∧ o.name ≠ [] ∧ '=' ∉ o.name ∧
        s.parser.getOption o.name = some (i, o)) ∨
      (tok = ['-', o.abbr] ∧ o.abbr ≠ '=' ∧ s.parser.getOptionByChar o.abbr = some (i, o)))
    (hlen : tok.length < SIZE_MOD) :
    parseToken s tok =
      .ok { parser := s.parser, result := s.result, activeOption := some i, pos := s.pos } ∧
    ∀ (s1 : ParseState), parseToken s tok = .ok s1 →
      s1.parser.switches = s.parser.switches ∧
      (∀ n, s1.parser.getSwitch n = s.parser.getSwitch n) ∧
      (∀ c, s1.parser.getSwitchByChar c = s.parser.getSwitchByChar c) := by
  have hstep : parseToken s tok =
      .ok { parser := s.parser, result := s.result, activeOption := some i, pos := s.pos } := by
    rcases hform with ⟨htok, hn, heq, hreg⟩ | ⟨htok, ha, hreg⟩
    · have htok2 : tok = '-' :: '-' :: o.name := by simp [htok]
      subst htok2
      exact parseToken_of_parseOption s _ _ (some i) hidle (isPositional_long _ hn)
        (parseOption_long_pending s.parser o.name none i o hreg hen hn heq hlen)
    · subst htok
      exact parseToken_of_parseOption s _ _ (some i) hidle
        (isPositional_short _ _ (Or.inr rfl))
        (parseOption_short_pending s.parser o.abbr none i o hreg hen ha)
  refine ⟨hstep, ?_⟩
  intro s1 hs1
  rw [hstep] at hs1
  simp only [Except.ok.injEq] at hs1
  subst hs1
  exact ⟨rfl, fun _ => rfl, fun _ => rfl⟩

/-- C18 (amended), on the parser with the switch and the option both named `level`, once
the switch `expert` that enables the option is on: `--level` marks the option pending and
the switch `level` stays off. -/
theorem option_wins_over_switch_witness :
    (parseToken ((testOptionAndSwitch.setSwitchValue 1 true).start "app".toList)
        (['-', '-'] ++ "level".toList)).toOption.map
      (fun s => (s.activeOption, s.parser.switches.map Switch.on)) =
      some (some 0, [false, true, false]) := by
  rw [(option_wins_over_switch ((testOptionAndSwitch.setSwitchValue 1 true).start
    "app".toList) (['-', '-'] ++ "level".toList) 0
    (CmdOption.new "level".toList 'l' [] Req.optional [] (enableWhenSwitchIsSet 1))
    rfl rfl (Or.inl ⟨rfl, by decide, by decide, rfl⟩) (by decide)).1]
  rfl

/-- C18 as stated fails: the name `level` and the abbreviation `l` are registered both as
an option and as a switch, but the option is disabled (its switch `expert` is off), so
the tokens `--level` and `-l` are handled by the switch branch: nothing is pending and
the switch `level` is turned on. -/
theorem disabled_option_yields_to_switch :
    (testOptionAndSwitch.getOption "level".toList).map (fun r => r.1) = some 0 ∧
    (testOptionAndSwitch.getSwitch "level".toList).map (fun r => (r.1, r.2.on)) =
      some (2, false) ∧
    (parseToken (testOptionAndSwitch.start "app".toList) "--level".toList).toOption.map
        (fun s => (s.activeOption, s.parser.switches.map Switch.on, s.result.errors)) =
      some (none, [false, false, true], []) ∧
    (parseToken (testOptionAndSwitch.start "app".toList) "-l".toList).toOption.map
        (fun s => (s.activeOption, s.parser.switches.map Switch.on, s.result.errors)) =
      some (none, [false, false, true], []) := by
  refine ⟨?_, ?_, ?_, ?_⟩ <;> rfl

end Precedence

section Help

theorem helpRequested_iff (P : Parser) :
    P.helpRequested = true ↔
      ∃ i sw, P.getSwitch "help".toList = some (i, sw) ∧ sw.on = true := by
  unfold Parser.helpRequested
  cases hg : P.getSwitch "help".toList with
  | none => simp
  | some r =>
    obtain ⟨i, sw⟩ := r
    constructor
    · intro h
      exact ⟨i, sw, rfl, h⟩
    · rintro ⟨i2, sw2, h1, h2⟩
      simp only [Option.some.injEq, Prod.mk.injEq] at h1
      rw [h1.2]
      exact h2

theorem getSwitch_help_of_built (P : Parser) (h : P.builtWithAutoHelp) :
    ∃ sw, P.getSwitch "help".toList = some (0, sw) ∧ sw.enabled P.values = true ∧
      P.getSwitchByChar '?' = some (0, sw) := by
  obtain ⟨v, rest, hsw⟩ := h
  refine ⟨{ standardHelpSwitch with value := v }, ?_, rfl, ?_⟩
  · rw [Parser.getSwitch, hsw]
    rfl
  · rw [Parser.getSwitchByChar, hsw]
    rfl

theorem helpRequested_setSwitchValue (P : Parser) (sw : Switch)
    (h : P.getSwitch "help".toList = some (0, sw)) :
    (P.setSwitchValue 0 true).helpRequested = true := by
  rw [helpRequested_iff]
  refine ⟨0, sw.setValue true, ?_, by simp [Switch.on, Switch.setValue]⟩
  rw [getSwitch_setSwitchValue, h]
  simp

/-- C19: `helpRequested()` is true iff `getSwitch("help")` finds a switch and it is on.
For every parser built with auto-help (its first switch is `help`, abbreviated `?`,
always enabled) and with no option named `help` or abbreviated `?`, parsing
`[cmdname, --help]` or `[cmdname, -?]` returns (the body of `parse`, and `parse` when its
assertion on `validateCommand` holds) and leaves `helpRequested()` true, whatever the
returned result is. The constructor with auto-help gives such a parser, registration
keeps it such, and the constructor without auto-help registers no switch. -/
theorem help_requested :
    (∀ P : Parser, P.helpRequested = true ↔
      ∃ i sw, P.getSwitch "help".toList = some (i, sw) ∧ sw.on = true) ∧
    (∀ (P : Parser) (cmdname tok : Str), P.builtWithAutoHelp →
      P.getOption "help".toList = none → P.getOptionByChar '?' = none →
      tok = "--help".toList ∨ tok = "-?".toList →
      ∃ P' r, P.parseBody [cmdname, tok] = .ok (P', r) ∧
        (P.validateCommand.toBool = true → P.parse [cmdname, tok] = .ok (P', r)) ∧
        P'.helpRequested = true) ∧
    ((Parser.new true).builtWithAutoHelp ∧
      (∀ (P : Parser) (a : Argument), P.builtWithAutoHelp →
        (P.addArgument a).builtWithAutoHelp) ∧
      (∀ (P : Parser) (o : CmdOption), P.builtWithAutoHelp →
        (P.addOption o).builtWithAutoHelp) ∧
      (∀ (P : Parser) (sw : Switch), P.builtWithAutoHelp →
        (P.addSwitch sw).builtWithAutoHelp)) ∧
    ((Parser.new false).switches = [] ∧
      (Parser.new false).getSwitch "help".toList = none ∧
      (Parser.new false).helpRequested = false) := by
  refine ⟨helpRequested_iff, ?_, ⟨⟨[], [], rfl⟩, ?_, ?_, ?_⟩, ⟨rfl, rfl, rfl⟩⟩
  · intro P cmdname tok hbuilt hopt hoptc htok
    obtain ⟨sw, hsw, hen, hswc⟩ := getSwitch_help_of_built P hbuilt
    have hstep : parseToken (P.start cmdname) tok =
        .ok { P.start cmdname with
          parser := ({ P with cmdname := cmdname } : Parser).setSwitchValue 0 true } := by
      rcases htok with htok | htok
      · subst htok
        exact parseToken_long_switch (P.start cmdname) "help".toList 0 sw rfl
          (by
            intro r hr
            have hr2 : P.getOption "help".toList = some r := hr
            rw [hopt] at hr2
            exact absurd hr2 (by simp))
          hsw hen (by decide) (by decide) (by decide)
      · subst htok
        have hopenS : (P.start cmdname).parser.openSwitchByChar '?' = some 0 := by
          show P.openSwitchByChar '?' = some 0
          simp [Parser.openSwitchByChar, hswc, hen]
        have hopenO : (P.start cmdname).parser.openOptionByChar '?' = none := by
          show P.openOptionByChar '?' = none
          simp [Parser.openOptionByChar, hoptc]
        have hall : (P.start cmdname).parser.allOpen ['?'] = true := by
          simp [Parser.allOpen, hopenS]
        show parseToken (P.start cmdname) ['-', '?'] = _
        rw [parseToken_cluster_open (P.start cmdname) '?' [] rfl (by decide) (by decide)
          hopenO hall]
        rw [setSwitches_cons_some '?' [] _ 0 hopenS]
        rfl
    have hrun := parseTokens_single _ _ _ hstep
    have hbody := parseBody_of_parseTokens P cmdname [tok] _ hrun
    refine ⟨_, _, hbody, fun hv => (parse_of_valid P _ hv).trans hbody, ?_⟩
    exact helpRequested_setSwitchValue ({ P with cmdname := cmdname } : Parser) sw hsw
  · rintro P a ⟨v, rest, h⟩
    exact ⟨v, rest, h⟩
  · rintro P o ⟨v, rest, h⟩
    exact ⟨v, rest, h⟩
  · rintro P sw ⟨v, rest, h⟩
    exact ⟨v, rest ++ [sw], by simp [Parser.addSwitch, h]⟩

/-- C19, on the parser of the test cases "Requesting help" (a required argument is
missing): help is requested after `--help` and after `-?`, and both results are
failures. -/
theorem help_requested_witness :
    (∃ P' r, testRequestingHelp.parse ["appname".toList, "--help".toList] = .ok (P', r) ∧
      P'.helpRequested = true ∧ r.toBool = false) ∧
    (∃ P' r, testRequestingHelp.parse ["appname".toList, "-?".toList] = .ok (P', r) ∧
      P'.helpRequested = true ∧ r.toBool = false) := by
  have hbuilt : testRequestingHelp.builtWithAutoHelp := ⟨[], [], rfl⟩
  constructor
  · obtain ⟨P', r, hbody, hparse, hhelp⟩ := help_requested.2.1 testRequestingHelp
      "appname".toList "--help".toList hbuilt rfl rfl (Or.inl rfl)
    refine ⟨P', r, hparse (by decide), hhelp, ?_⟩
    have h2 : (testRequestingHelp.parseBody
        ["appname".toList, "--help".toList]).toOption.map (fun x => x.2.toBool) =
        some false := rfl
    rw [hbody] at h2
    simpa [Except.toOption] using h2
  · obtain ⟨P', r, hbody, hparse, hhelp⟩ := help_requested.2.1 testRequestingHelp
      "appname".toList "-?".toList hbuilt rfl rfl (Or.inr rfl)
    refine ⟨P', r, hparse (by decide), hhelp, ?_⟩
    have h2 : (testRequestingHelp.parseBody
        ["appname".toList, "-?".toList]).toOption.map (fun x => x.2.toBool) =
        some false := rfl
    rw [hbody] at h2
    simpa [Except.toOption] using h2

end Help

/-! ## Assignments and registries -/

section Writes

theorem modifyAt_map_of_invariant {α β : Type} (f : α → α) (g : α → β)
    (h : ∀ x, g (f x) = g x) (i : Nat) (l : List α) :
    (modifyAt f i l).map g = l.map g := by
  induction l generalizing i with
  | nil => simp [modifyAt]
  | cons x xs ih => cases i <;> simp [modifyAt, h, ih]

theorem blank_setArgValue (P : Parser) (k : Nat) (v : Str) :
    (P.setArgValue k v).blank = P.blank := by
  simp only [Parser.blank, Parser.setArgValue]
  rw [modifyAt_map_of_invariant (fun a : Argument => { a with value := v }) Argument.blank
    (fun x => rfl)]

theorem blank_setOptionValue (P : Parser) (i : Nat) (v : Str) :
    (P.setOptionValue i v).blank = P.blank := by
  simp only [Parser.blank, Parser.setOptionValue]
  rw [modifyAt_map_of_invariant (fun o : CmdOption => { o with value := v }) CmdOption.blank
    (fun x => rfl)]

theorem blank_setSwitchValue (P : Parser) (j : Nat) (b : Bool) :
    (P.setSwitchValue j b).blank = P.blank := by
  simp only [Parser.blank, Parser.setSwitchValue]
  rw [modifyAt_map_of_invariant (fun s : Switch => s.setValue b) Switch.blank
    (fun x => rfl)]

theorem blank_write (P : Parser) (w : Write) : (P.write w).blank = P.blank := by
  cases w
  · exact blank_setArgValue P _ _
  · exact blank_setOptionValue P _ _
  · exact blank_setSwitchValue P _ _

theorem writes_nil (P : Parser) : P.writes [] = P := rfl

theorem writes_cons (P : Parser) (w : Write) (ws : List Write) :
    P.writes (w :: ws) = (P.write w).writes ws := rfl

theorem writes_append (P : Parser) (ws us : List Write) :
    P.writes (ws ++ us) = (P.writes ws).writes us := by
  simp [Parser.writes, List.foldl_append]

theorem blank_writes (P : Parser) (ws : List Write) : (P.writes ws).blank = P.blank := by
  induction ws generalizing P with
  | nil => rfl
  | cons w ws ih => rw [writes_cons, ih, blank_write]

theorem blank_args (P Q : Parser) (h : Q.blank = P.blank) :
    Q.args.map Argument.blank = P.args.map Argument.blank :=
  congrArg Parser.args h

theorem blank_options (P Q : Parser) (h : Q.blank = P.blank) :
    Q.options.map CmdOption.blank = P.options.map CmdOption.blank :=
  congrArg Parser.options h

theorem blank_switches (P Q : Parser) (h : Q.blank = P.blank) :
    Q.switches.map Switch.blank = P.switches.map Switch.blank :=
  congrArg Parser.switches h

theorem constPreds_of_blank (P Q : Parser) (h : Q.blank = P.blank) (hc : P.constPreds) :
    Q.constPreds := by
  obtain ⟨h1, h2, h3⟩ := hc
  refine ⟨?_, ?_, ?_⟩
  · intro a ha v w
    have hm : a.blank ∈ P.args.map Argument.blank := by
      rw [← blank_args P Q h]
      exact List.mem_map_of_mem _ ha
    obtain ⟨b, hb, hbe⟩ := List.mem_map.mp hm
    have hp : a.enablePred = b.enablePred := (congrArg Argument.enablePred hbe).symm
    rw [hp]
    exact h1 b hb v w
  · intro o ho v w
    have hm : o.blank ∈ P.options.map CmdOption.blank := by
      rw [← blank_options P Q h]
      exact List.mem_map_of_mem _ ho
    obtain ⟨b, hb, hbe⟩ := List.mem_map.mp hm
    have hp : o.enablePred = b.enablePred :=
      (congrArg (fun x : CmdOption => x.enablePred) hbe).symm
    rw [hp]
    exact h2 b hb v w
  · intro s hs v w
    have hm : s.blank ∈ P.switches.map Switch.blank := by
      rw [← blank_switches P Q h]
      exact List.mem_map_of_mem _ hs
    obtain ⟨b, hb, hbe⟩ := List.mem_map.mp hm
    have hp : s.enablePred = b.enablePred :=
      (congrArg (fun x : Switch => x.enablePred) hbe).symm
    rw [hp]
    exact h3 b hb v w

theorem Sim.refl (P : Parser) : Sim P P := ⟨rfl, Or.inr rfl⟩

theorem Sim.write {P Q : Parser} (h : Sim P Q) (w : Write) : Sim (P.write w) (Q.write w) := by
  obtain ⟨hb, hc⟩ := h
  refine ⟨by rw [blank_write, blank_write, hb], ?_⟩
  rcases hc with hc | hc
  · exact Or.inl (constPreds_of_blank P _ (blank_write P w) hc)
  · exact Or.inr (by rw [hc])

theorem Sim.writes {P Q : Parser} (h : Sim P Q) (ws : List Write) :
    Sim (P.writes ws) (Q.writes ws) := by
  induction ws generalizing P Q with
  | nil => exact h
  | cons w ws ih => exact ih (h.write w)

end Writes

/-! ## Dispatch reads the registry only -/

section Agreement

theorem findFirst_congr_blank {α : Type} (blank : α → α) (pred : α → ArgumentEnablePred)
    (hpred : ∀ x y, blank x = blank y → pred x = pred y)
    (p : α → Bool) (hp : ∀ x y, blank x = blank y → p x = p y)
    (v w : Values) (l m : List α) (hl : m.map blank = l.map blank)
    (hconst : ∀ x ∈ l, ∀ a b : Values, pred x a = pred x b) :
    (findFirst p m).map (fun r => (r.1, pred r.2 w)) =
      (findFirst p l).map (fun r => (r.1, pred r.2 v)) := by
  induction l generalizing m with
  | nil =>
    cases m with
    | nil => rfl
    | cons y ys => simp at hl
  | cons x xs ih =>
    cases m with
    | nil => simp at hl
    | cons y ys =>
      simp only [List.map_cons, List.cons.injEq] at hl
      obtain ⟨hxy, hrest⟩ := hl
      have hpxy : p y = p x := hp y x hxy
      have ih2 := ih ys hrest (fun z hz => hconst z (List.mem_cons_of_mem _ hz))
      unfold findFirst
      rw [hpxy]
      by_cases hx : p x = true
      · simp only [hx, if_true, Option.map_some']
        rw [hpred y x hxy, hconst x (List.mem_cons_self _ _) w v]
      · simp only [hx, Bool.false_eq_true, if_false, Option.map_map]
        have h3 := congrArg (Option.map fun r : Nat × Bool => (r.1 + 1, r.2)) ih2
        simpa [Option.map_map, Function.comp_def] using h3

theorem getElem?_congr_blank {α : Type} (blank : α → α) (pred : α → ArgumentEnablePred)
    (hpred : ∀ x y, blank x = blank y → pred x = pred y)
    (v w : Values) (l m : List α) (hl : m.map blank = l.map blank)
    (hconst : ∀ x ∈ l, ∀ a b : Values, pred x a = pred x b) (k : Nat) :
    (m[k]?).map (fun x => pred x w) = (l[k]?).map (fun x => pred x v) := by
  induction l generalizing m k with
  | nil =>
    cases m with
    | nil => rfl
    | cons y ys => simp at hl
  | cons x xs ih =>
    cases m with
    | nil => simp at hl
    | cons y ys =>
      simp only [List.map_cons, List.cons.injEq] at hl
      obtain ⟨hxy, hrest⟩ := hl
      cases k with
      | zero =>
        simp only [List.getElem?_cons_zero, Option.map_some']
        rw [hpred y x hxy, hconst x (List.mem_cons_self _ _) w v]
      | succ k =>
        simp only [List.getElem?_cons_succ]
        exact ih ys hrest (fun z hz => hconst z (List.mem_cons_of_mem _ hz)) k

theorem Sim.length_args {P Q : Parser} (h : Sim P Q) : Q.args.length = P.args.length := by
  have := congrArg List.length (blank_args P Q h.1)
  simpa using this

theorem Sim.getArgumentAt {P Q : Parser} (h : Sim P Q) (pos : Nat) :
    (Q.getArgumentAt pos).map (fun a => a.enabled Q.values) =
      (P.getArgumentAt pos).map (fun a => a.enabled P.values) := by
  obtain ⟨hb, hc⟩ := h
  rcases hc with hc | hc
  · have hlen : Q.args.length = P.args.length := Sim.length_args ⟨hb, Or.inl hc⟩
    unfold Parser.getArgumentAt
    rw [hlen]
    by_cases hle : P.args.length ≤ pos
    · simp [hle]
    · simp only [hle, if_false]
      exact getElem?_congr_blank Argument.blank Argument.enablePred
        (fun x y hxy => (congrArg (fun o : Argument => o.enablePred) hxy : _)) P.values Q.values P.args Q.args
        (blank_args P Q hb) hc.1 pos
  · rw [hc]

theorem Sim.slotOpen {P Q : Parser} (h : Sim P Q) (pos : Nat) :
    Q.slotOpen pos = P.slotOpen pos := by
  have hg := h.getArgumentAt pos
  unfold Parser.slotOpen
  cases hp : P.getArgumentAt pos <;> cases hq : Q.getArgumentAt pos <;>
    simp_all

theorem Sim.getOption {P Q : Parser} (h : Sim P Q) (n : Str) :
    (Q.getOption n).map (fun r => (r.1, r.2.enabled Q.values)) =
      (P.getOption n).map (fun r => (r.1, r.2.enabled P.values)) := by
  obtain ⟨hb, hc⟩ := h
  rcases hc with hc | hc
  · exact findFirst_congr_blank CmdOption.blank (fun o => o.enablePred)
      (fun x y hxy => (congrArg (fun o : CmdOption => o.enablePred) hxy : _))
      (fun o => o.name == n)
      (fun x y hxy => by
        have : x.name = y.name := (congrArg (fun o : CmdOption => o.name) hxy : _)
        simp [this])
      P.values Q.values P.options Q.options (blank_options P Q hb) hc.2.1
  · rw [hc]

theorem Sim.getOptionByChar {P Q : Parser} (h : Sim P Q) (c : Char) :
    (Q.getOptionByChar c).map (fun r => (r.1, r.2.enabled Q.values)) =
      (P.getOptionByChar c).map (fun r => (r.1, r.2.enabled P.values)) := by
  obtain ⟨hb, hc⟩ := h
  rcases hc with hc | hc
  · exact findFirst_congr_blank CmdOption.blank (fun o => o.enablePred)
      (fun x y hxy => (congrArg (fun o : CmdOption => o.enablePred) hxy : _))
      (fun o => o.abbr == c)
      (fun x y hxy => by
        have : x.abbr = y.abbr := (congrArg (fun o : CmdOption => o.abbr) hxy : _)
        simp [this])
      P.values Q.values P.options Q.options (blank_options P Q hb) hc.2.1
  · rw [hc]

theorem Sim.getSwitch {P Q : Parser} (h : Sim P Q) (n : Str) :
    (Q.getSwitch n).map (fun r => (r.1, r.2.enabled Q.values)) =
      (P.getSwitch n).map (fun r => (r.1, r.2.enabled P.values)) := by
  obtain ⟨hb, hc⟩ := h
  rcases hc with hc | hc
  · exact findFirst_congr_blank Switch.blank (fun o => o.enablePred)
      (fun x y hxy => (congrArg (fun o : Switch => o.enablePred) hxy : _))
      (fun o => o.name == n)
      (fun x y hxy => by
        have : x.name = y.name := (congrArg (fun o : Switch => o.name) hxy : _)
        simp [this])
      P.values Q.values P.switches Q.switches (blank_switches P Q hb) hc.2.2
  · rw [hc]

theorem Sim.getSwitchByChar {P Q : Parser} (h : Sim P Q) (c : Char) :
    (Q.getSwitchByChar c).map (fun r => (r.1, r.2.enabled Q.values)) =
      (P.getSwitchByChar c).map (fun r => (r.1, r.2.enabled P.values)) := by
  obtain ⟨hb, hc⟩ := h
  rcases hc with hc | hc
  · exact findFirst_congr_blank Switch.blank (fun o => o.enablePred)
      (fun x y hxy => (congrArg (fun o : Switch => o.enablePred) hxy : _))
      (fun o => o.abbr == c)
      (fun x y hxy => by
        have : x.abbr = y.abbr := (congrArg (fun o : Switch => o.abbr) hxy : _)
        simp [this])
      P.values Q.values P.switches Q.switches (blank_switches P Q hb) hc.2.2
  · rw [hc]

end Agreement

/-! ## The assignments made by one dispatch -/

section Effects

theorem findFirst_index_congr {α : Type} (blank : α → α) (p : α → Bool)
    (hp : ∀ x y, blank x = blank y → p x = p y) (l m : List α)
    (hl : m.map blank = l.map blank) :
    (findFirst p m).map (fun r => r.1) = (findFirst p l).map (fun r => r.1) := by
  induction l generalizing m with
  | nil =>
    cases m with
    | nil => rfl
    | cons y ys => simp at hl
  | cons x xs ih =>
    cases m with
    | nil => simp at hl
    | cons y ys =>
      simp only [List.map_cons, List.cons.injEq] at hl
      obtain ⟨hxy, hrest⟩ := hl
      have hpxy : p y = p x := hp y x hxy
      have ih2 := ih ys hrest
      unfold findFirst
      rw [hpxy]
      by_cases hx : p x = true
      · simp [hx]
      · simp only [hx, Bool.false_eq_true, if_false, Option.map_map]
        have h3 := congrArg (Option.map fun r : Nat => r + 1) ih2
        simpa [Option.map_map, Function.comp_def] using h3

theorem index_getOption {P Q : Parser} (h : Q.blank = P.blank) (n : Str) :
    (Q.getOption n).map (fun r => r.1) = (P.getOption n).map (fun r => r.1) :=
  findFirst_index_congr CmdOption.blank (fun o => o.name == n)
    (fun x y hxy => by
      have : x.name = y.name := (congrArg (fun o : CmdOption => o.name) hxy : _)
      simp [this])
    P.options Q.options (blank_options P Q h)

theorem index_getOptionByChar {P Q : Parser} (h : Q.blank = P.blank) (c : Char) :
    (Q.getOptionByChar c).map (fun r => r.1) = (P.getOptionByChar c).map (fun r => r.1) :=
  findFirst_index_congr CmdOption.blank (fun o => o.abbr == c)
    (fun x y hxy => by
      have : x.abbr = y.abbr := (congrArg (fun o : CmdOption => o.abbr) hxy : _)
      simp [this])
    P.options Q.options (blank_options P Q h)

theorem index_getSwitch {P Q : Parser} (h : Q.blank = P.blank) (n : Str) :
    (Q.getSwitch n).map (fun r => r.1) = (P.getSwitch n).map (fun r => r.1) :=
  findFirst_index_congr Switch.blank (fun o => o.name == n)
    (fun x y hxy => by
      have : x.name = y.name := (congrArg (fun o : Switch => o.name) hxy : _)
      simp [this])
    P.switches Q.switches (blank_switches P Q h)

theorem index_getSwitchByChar {P Q : Parser} (h : Q.blank = P.blank) (c : Char) :
    (Q.getSwitchByChar c).map (fun r => r.1) = (P.getSwitchByChar c).map (fun r => r.1) :=
  findFirst_index_congr Switch.blank (fun o => o.abbr == c)
    (fun x y hxy => by
      have : x.abbr = y.abbr := (congrArg (fun o : Switch => o.abbr) hxy : _)
      simp [this])
    P.switches Q.switches (blank_switches P Q h)

theorem tokenNamesOption_blank {P Q : Parser} (h : Q.blank = P.blank) (t : Str) (i : Nat) :
    tokenNamesOption Q t i = tokenNamesOption P t i := by
  unfold tokenNamesOption
  simp only [index_getOption h, index_getOptionByChar h]

theorem tokenNamesSwitch_blank {P Q : Parser} (h : Q.blank = P.blank) (t : Str) (j : Nat) :
    tokenNamesSwitch Q t j = tokenNamesSwitch P t j := by
  unfold tokenNamesSwitch
  simp only [index_getSwitch h, index_getSwitchByChar h]

theorem parseArgument_effect {P Q : Parser} (h : Sim P Q) (arg : Str) (pos : Nat) :
    ∃ ws r, P.parseArgument arg pos = (P.writes ws, pos + ws.length, r) ∧
      Q.parseArgument arg pos = (Q.writes ws, pos + ws.length, r) ∧
      (ws = [] ∨ (ws = [Write.arg pos arg] ∧ isPositional arg = true)) := by
  by_cases hpos : isPositional arg = true
  · have hso := h.slotOpen pos
    by_cases hopen : P.slotOpen pos = true
    · refine ⟨[Write.arg pos arg], _, parseArgument_open P arg pos hpos hopen, ?_,
        Or.inr ⟨rfl, hpos⟩⟩
      exact parseArgument_open Q arg pos hpos (by rw [hso]; exact hopen)
    · have hclosed : P.slotOpen pos = false := by simpa using hopen
      refine ⟨[], _, parseArgument_closed P arg pos hpos hclosed, ?_, Or.inl rfl⟩
      exact parseArgument_closed Q arg pos hpos (by rw [hso]; exact hclosed)
  · have hnp : isPositional arg = false := by simpa using hpos
    exact ⟨[], _, parseArgument_optionShaped P arg pos hnp,
      parseArgument_optionShaped Q arg pos hnp, Or.inl rfl⟩

end Effects

section OptionEffects

theorem bindOption_effect (P Q : Parser) (arg : Str) (act : Option Nat)
    (x y : Option (Nat × CmdOption)) (abbr : Bool)
    (hxy : y.map (fun r => (r.1, r.2.enabled Q.values)) =
      x.map (fun r => (r.1, r.2.enabled P.values)))
    (P1 : Parser) (act1 : Option Nat) (r : ArgumentParseResult)
    (hP : P.bindOption arg act x abbr = .ok (P1, act1, r)) :
    ∃ ws, P1 = P.writes ws ∧ Q.bindOption arg act y abbr = .ok (Q.writes ws, act1, r) ∧
      ((ws = [] ∧ act1 = act) ∨
        ∃ i, x.map (fun r => r.1) = some i ∧
          ((ws = [] ∧ act1 = some i) ∨ ∃ v, ws = [Write.opt i v] ∧ act1 = act)) := by
  cases x with
  | none =>
    cases y with
    | none =>
      simp only [Parser.bindOption, Except.ok.injEq, Prod.mk.injEq] at hP ⊢
      obtain ⟨rfl, rfl, rfl⟩ := hP
      exact ⟨[], rfl, ⟨rfl, rfl, rfl⟩, Or.inl ⟨rfl, rfl⟩⟩
    | some b => simp at hxy
  | some a =>
    obtain ⟨i, o⟩ := a
    cases y with
    | none => simp at hxy
    | some b =>
      obtain ⟨i2, o2⟩ := b
      simp only [Option.map_some', Option.some.injEq, Prod.mk.injEq] at hxy
      obtain ⟨rfl, hen⟩ := hxy
      simp only [Parser.bindOption] at hP ⊢
      rw [hen]
      cases he : o.enabled P.values
      · simp only [he, Bool.not_false, if_true, Except.ok.injEq, Prod.mk.injEq] at hP ⊢
        obtain ⟨rfl, rfl, rfl⟩ := hP
        exact ⟨[], rfl, ⟨rfl, rfl, rfl⟩, Or.inl ⟨rfl, rfl⟩⟩
      · simp only [he, Bool.not_true, Bool.false_eq_true, if_false] at hP ⊢
        cases hnv : getNameEqualsValue arg with
        | error e => rw [hnv] at hP; simp [Except.bind] at hP
        | ok nv =>
          rw [hnv] at hP
          simp only [Except.bind] at hP ⊢
          cases abbr
          · simp only [Bool.false_eq_true, if_false] at hP ⊢
            by_cases h1 : (!nv.1.isEmpty) = true
            · simp only [h1, if_true] at hP ⊢
              simp only [Except.ok.injEq, Prod.mk.injEq] at hP
              obtain ⟨rfl, rfl, rfl⟩ := hP
              exact ⟨[Write.opt i2 nv.2], rfl, rfl,
                Or.inr ⟨i2, rfl, Or.inr ⟨nv.2, rfl, rfl⟩⟩⟩
            · simp only [h1, Bool.false_eq_true, if_false] at hP ⊢
              simp only [Except.ok.injEq, Prod.mk.injEq] at hP
              obtain ⟨rfl, rfl, rfl⟩ := hP
              exact ⟨[], rfl, rfl, Or.inr ⟨i2, rfl, Or.inl ⟨rfl, rfl⟩⟩⟩
          · simp only [if_true] at hP ⊢
            by_cases h1 : (!nv.2.isEmpty) = true
            · simp only [h1, if_true] at hP ⊢
              simp only [Except.ok.injEq, Prod.mk.injEq] at hP
              obtain ⟨rfl, rfl, rfl⟩ := hP
              exact ⟨[Write.opt i2 nv.2], rfl, rfl,
                Or.inr ⟨i2, rfl, Or.inr ⟨nv.2, rfl, rfl⟩⟩⟩
            · simp only [h1, Bool.false_eq_true, if_false] at hP ⊢
              by_cases h2 : arg.length > 2
              · simp only [h2, if_true] at hP ⊢
                cases hs : substr arg 2 npos with
                | error e => rw [hs] at hP; simp at hP
                | ok v =>
                  rw [hs] at hP
                  simp only [Except.ok.injEq, Prod.mk.injEq] at hP
                  obtain ⟨rfl, rfl, rfl⟩ := hP
                  exact ⟨[Write.opt i2 v], rfl, rfl,
                    Or.inr ⟨i2, rfl, Or.inr ⟨v, rfl, rfl⟩⟩⟩
              · simp only [h2, if_false] at hP ⊢
                simp only [Except.ok.injEq, Prod.mk.injEq] at hP
                obtain ⟨rfl, rfl, rfl⟩ := hP
                exact ⟨[], rfl, rfl, Or.inr ⟨i2, rfl, Or.inl ⟨rfl, rfl⟩⟩⟩

theorem parseOption_effect {P Q : Parser} (h : Sim P Q) (arg : Str) (act : Option Nat)
    (P1 : Parser) (act1 : Option Nat) (r : ArgumentParseResult)
    (hP : P.parseOption arg act = .ok (P1, act1, r)) :
    ∃ ws, P1 = P.writes ws ∧ Q.parseOption arg act = .ok (Q.writes ws, act1, r) ∧
      ((ws = [] ∧ act1 = act) ∨
        ∃ i, tokenNamesOption P arg i = true ∧
          ((ws = [] ∧ act1 = some i) ∨ ∃ v, ws = [Write.opt i v] ∧ act1 = act)) := by
  unfold Parser.parseOption at hP ⊢
  unfold tokenNamesOption
  by_cases h1 : isOption arg = true
  · simp only [h1, if_true] at hP ⊢
    cases hn : getOptionName arg with
    | error e => rw [hn] at hP; simp [Except.bind] at hP
    | ok n =>
      rw [hn] at hP
      simp only [Except.bind] at hP ⊢
      obtain ⟨ws, h2, h3, h4⟩ := bindOption_effect P Q arg act _ _ false (h.getOption n) _ _ _ hP
      refine ⟨ws, h2, h3, ?_⟩
      rcases h4 with h4 | ⟨i, h5, h6⟩
      · exact Or.inl h4
      · exact Or.inr ⟨i, by simp [h5], h6⟩
  · simp only [h1, Bool.false_eq_true, if_false] at hP ⊢
    by_cases h7 : isOptionAbbr arg = true
    · simp only [h7, if_true] at hP ⊢
      cases hn : getOptionAbbr arg with
      | error e => rw [hn] at hP; simp [Except.bind] at hP
      | ok cl =>
        rw [hn] at hP
        simp only [Except.bind] at hP ⊢
        cases cl with
        | nil => simp at hP
        | cons c cs =>
          simp only at hP ⊢
          obtain ⟨ws, h2, h3, h4⟩ :=
            bindOption_effect P Q arg act _ _ true (h.getOptionByChar c) _ _ _ hP
          refine ⟨ws, h2, h3, ?_⟩
          rcases h4 with h4 | ⟨i, h5, h6⟩
          · exact Or.inl h4
          · exact Or.inr ⟨i, by simp [h5], h6⟩
    · simp only [h7, Bool.false_eq_true, if_false, Except.ok.injEq, Prod.mk.injEq] at hP ⊢
      obtain ⟨rfl, rfl, rfl⟩ := hP
      exact ⟨[], rfl, ⟨rfl, rfl, rfl⟩, Or.inl ⟨rfl, rfl⟩⟩

end OptionEffects

section SwitchEffects

theorem switchCluster_effect (arg : Str) (cl : Str) {P Q : Parser} (h : Sim P Q) :
    ∃ ws r, switchCluster arg cl P = (P.writes ws, r) ∧
      switchCluster arg cl Q = (Q.writes ws, r) ∧
      ∀ w ∈ ws, ∃ j, w = Write.sw j ∧
        ∃ c ∈ cl, (P.getSwitchByChar c).map (fun r => r.1) = some j := by
  induction cl generalizing P Q with
  | nil => exact ⟨[], _, rfl, rfl, by simp⟩
  | cons c cs ih =>
    have hg := h.getSwitchByChar c
    rw [switchCluster_cons, switchCluster_cons]
    cases hp : P.getSwitchByChar c with
    | none =>
      cases hq : Q.getSwitchByChar c with
      | none => exact ⟨[], _, rfl, rfl, by simp⟩
      | some b => rw [hp, hq] at hg; simp at hg
    | some a =>
      obtain ⟨j, sw⟩ := a
      cases hq : Q.getSwitchByChar c with
      | none => rw [hp, hq] at hg; simp at hg
      | some b =>
        obtain ⟨j2, sw2⟩ := b
        rw [hp, hq] at hg
        simp only [Option.map_some', Option.some.injEq, Prod.mk.injEq] at hg
        obtain ⟨rfl, hen⟩ := hg
        simp only [hen]
        cases he : sw.enabled P.values
        · simp only [Bool.not_false, if_true]
          exact ⟨[], _, rfl, rfl, by simp⟩
        · simp only [Bool.not_true, Bool.false_eq_true, if_false]
          obtain ⟨ws, r, h1, h2, h3⟩ := ih (h.write (Write.sw j2))
          refine ⟨Write.sw j2 :: ws, r, h1, h2, ?_⟩
          intro w hw
          rcases List.mem_cons.1 hw with hw | hw
          · exact ⟨j2, hw, c, List.mem_cons_self _ _, by rw [hp]; rfl⟩
          · obtain ⟨j, hj, c2, hc2, hc3⟩ := h3 w hw
            refine ⟨j, hj, c2, List.mem_cons_of_mem _ hc2, ?_⟩
            rw [← hc3]
            exact (index_getSwitchByChar (blank_write P (Write.sw j2)) c2).symm

theorem parseSwitch_effect {P Q : Parser} (h : Sim P Q) (arg : Str)
    (P1 : Parser) (r : ArgumentParseResult)
    (hP : P.parseSwitch arg = .ok (P1, r)) :
    ∃ ws, P1 = P.writes ws ∧ Q.parseSwitch arg = .ok (Q.writes ws, r) ∧
      ∀ w ∈ ws, ∃ j, w = Write.sw j ∧ tokenNamesSwitch P arg j = true := by
  unfold Parser.parseSwitch at hP ⊢
  unfold tokenNamesSwitch
  by_cases h0 : (!isOption arg && !isOptionAbbr arg) = true
  · simp only [h0, if_true] at hP ⊢
    simp only [Except.ok.injEq, Prod.mk.injEq] at hP
    obtain ⟨rfl, rfl⟩ := hP
    exact ⟨[], rfl, rfl, by simp⟩
  · simp only [h0, Bool.false_eq_true, if_false] at hP ⊢
    by_cases h1 : isOptionAbbr arg = true
    · have h2 : isOption arg = false := by
        cases h3 : isOption arg
        · rfl
        · exact absurd h1 (by
            have := isOption_iff arg
            unfold isOptionAbbr
            simp [h3])
      simp only [h1, h2, if_true, Bool.false_eq_true, if_false] at hP ⊢
      cases hn : getOptionAbbr arg with
      | error e => rw [hn] at hP; simp [Except.bind] at hP
      | ok cl =>
        rw [hn] at hP
        simp only [Except.bind] at hP ⊢
        obtain ⟨ws, r2, h4, h5, h6⟩ := switchCluster_effect arg cl h
        rw [h4] at hP
        simp only [Except.ok.injEq, Prod.mk.injEq] at hP
        obtain ⟨rfl, rfl⟩ := hP
        refine ⟨ws, rfl, by rw [h5], ?_⟩
        intro w hw
        obtain ⟨j, hj, c, hc, hc2⟩ := h6 w hw
        refine ⟨j, hj, ?_⟩
        simp only [List.any_eq_true]
        exact ⟨c, hc, by simp [hc2]⟩
    · have h2 : isOption arg = true := by
        cases h3 : isOption arg
        · simp [h3, h1] at h0
        · rfl
      simp only [h1, h2, if_true, Bool.false_eq_true, if_false] at hP ⊢
      cases hn : getOptionName arg with
      | error e => rw [hn] at hP; simp [Except.bind] at hP
      | ok n =>
        rw [hn] at hP
        simp only [Except.bind] at hP ⊢
        have hg := h.getSwitch n
        cases hp : P.getSwitch n with
        | none =>
          cases hq : Q.getSwitch n with
          | none =>
            rw [hp] at hP
            simp only [Except.ok.injEq, Prod.mk.injEq] at hP
            obtain ⟨rfl, rfl⟩ := hP
            exact ⟨[], rfl, rfl, by simp⟩
          | some b => rw [hp, hq] at hg; simp at hg
        | some a =>
          obtain ⟨j, sw⟩ := a
          cases hq : Q.getSwitch n with
          | none => rw [hp, hq] at hg; simp at hg
          | some b =>
            obtain ⟨j2, sw2⟩ := b
            rw [hp, hq] at hg
            simp only [Option.map_some', Option.some.injEq, Prod.mk.injEq] at hg
            obtain ⟨rfl, hen⟩ := hg
            rw [hp] at hP
            simp only [hen] at hP ⊢
            cases he : sw.enabled P.values
            · simp only [he, Bool.not_false, if_true, Except.ok.injEq, Prod.mk.injEq] at hP
              obtain ⟨rfl, rfl⟩ := hP
              exact ⟨[], rfl, rfl, by simp⟩
            · simp only [he, Bool.not_true, Bool.false_eq_true, if_false, Except.ok.injEq,
                Prod.mk.injEq] at hP
              obtain ⟨rfl, rfl⟩ := hP
              refine ⟨[Write.sw j2], rfl, rfl, ?_⟩
              intro w hw
              simp only [List.mem_singleton] at hw
              exact ⟨j2, hw, by simp⟩

end SwitchEffects

section TokenEffects

theorem allowed_of_stages (P : Parser) (arg : Str) (pos : Nat) (wa wo wsw : List Write)
    (ha : wa = [] ∨ (wa = [Write.arg pos arg] ∧ isPositional arg = true))
    (ho : ∀ w ∈ wo, ∃ i v, w = Write.opt i v ∧ tokenNamesOption P arg i = true)
    (hs : ∀ w ∈ wsw, ∃ j, w = Write.sw j ∧ tokenNamesSwitch P arg j = true) :
    ∀ w ∈ wa ++ (wo ++ wsw), w.allowed P pos (pos + wa.length) none [arg] := by
  intro w hw
  rcases List.mem_append.1 hw with hw | hw
  · rcases ha with ha | ⟨ha, _⟩
    · rw [ha] at hw; simp at hw
    · rw [ha] at hw ⊢
      simp only [List.mem_singleton] at hw
      subst hw
      exact ⟨le_refl _, by simp⟩
  · rcases List.mem_append.1 hw with hw | hw
    · obtain ⟨i, v, rfl, hi⟩ := ho w hw
      exact Or.inr ⟨arg, List.mem_singleton.2 rfl, hi⟩
    · obtain ⟨j, rfl, hj⟩ := hs w hw
      exact ⟨arg, List.mem_singleton.2 rfl, hj⟩

theorem stage_pos (arg : Str) (pos : Nat) (wa : List Write)
    (ha : wa = [] ∨ (wa = [Write.arg pos arg] ∧ isPositional arg = true)) :
    pos + wa.length ≤ pos + ([arg].filter isPositional).length := by
  rcases ha with ha | ⟨ha, hp⟩
  · rw [ha]; simp
  · rw [ha]; simp [List.filter, hp]

theorem option_stage (P0 P : Parser) (hb : P.blank = P0.blank) (arg : Str)
    (wo : List Write) (act2 : Option Nat)
    (ho : (wo = [] ∧ act2 = none) ∨
        ∃ i, tokenNamesOption P arg i = true ∧
          ((wo = [] ∧ act2 = some i) ∨ ∃ v, wo = [Write.opt i v] ∧ act2 = none)) :
    (∀ w ∈ wo, ∃ i v, w = Write.opt i v ∧ tokenNamesOption P0 arg i = true) ∧
      ∀ i, act2 = some i → tokenNamesOption P0 arg i = true := by
  rcases ho with ⟨rfl, rfl⟩ | ⟨i, hi, ⟨rfl, rfl⟩ | ⟨v, rfl, rfl⟩⟩
  · exact ⟨by simp, by simp⟩
  · rw [tokenNamesOption_blank hb] at hi
    refine ⟨by simp, ?_⟩
    intro i2 h2
    simp only [Option.some.injEq] at h2
    subst h2
    exact hi
  · rw [tokenNamesOption_blank hb] at hi
    refine ⟨?_, by simp⟩
    intro w hw
    simp only [List.mem_singleton] at hw
    exact ⟨i, v, hw, hi⟩

theorem switch_stage (P0 P : Parser) (hb : P.blank = P0.blank) (arg : Str)
    (wsw : List Write)
    (hs : ∀ w ∈ wsw, ∃ j, w = Write.sw j ∧ tokenNamesSwitch P arg j = true) :
    ∀ w ∈ wsw, ∃ j, w = Write.sw j ∧ tokenNamesSwitch P0 arg j = true := by
  intro w hw
  obtain ⟨j, hj, hj2⟩ := hs w hw
  rw [tokenNamesSwitch_blank hb] at hj2
  exact ⟨j, hj, hj2⟩

end TokenEffects

section TokenEffect

theorem parseToken_effect (s : ParseState) (Q : Parser) (h : Sim s.parser Q) (arg : Str)
    (s1 : ParseState) (hP : parseToken s arg = .ok s1) :
    ∃ ws, s1.parser = s.parser.writes ws ∧
      parseToken { s with parser := Q } arg = .ok { s1 with parser := Q.writes ws } ∧
      (∀ w ∈ ws, w.allowed s.parser s.pos s1.pos s.activeOption [arg]) ∧
      s.pos ≤ s1.pos ∧ s1.pos ≤ s.pos + ([arg].filter isPositional).length ∧
      ∀ i, s1.activeOption = some i → tokenNamesOption s.parser arg i = true := by
  cases hact : s.activeOption with
  | some i =>
    rw [parseToken_pending s arg i hact] at hP
    simp only [Except.ok.injEq] at hP
    subst hP
    refine ⟨[Write.opt i arg], rfl, ?_, ?_, le_refl _, Nat.le_add_right _ _, ?_⟩
    · exact parseToken_pending { s with parser := Q, activeOption := some i } arg i rfl
    · intro w hw
      simp only [List.mem_singleton] at hw
      subst hw
      exact Or.inl rfl
    · intro i2 h2
      simp at h2
  | none =>
    obtain ⟨wa, ra, ha1, ha2, ha3⟩ := parseArgument_effect h arg s.pos
    have hpos := stage_pos arg s.pos wa ha3
    unfold parseToken at hP ⊢
    simp only [hact] at hP ⊢
    rw [ha1] at hP
    rw [ha2]
    simp only at hP ⊢
    by_cases hm1 : ((ArgumentParseResult.make false []).merge ra).2 = true
    · simp only [hm1, if_true, Except.ok.injEq] at hP ⊢
      subst hP
      refine ⟨wa, rfl, rfl, ?_, Nat.le_add_right _ _, hpos, ?_⟩
      · have := allowed_of_stages s.parser arg s.pos wa [] [] ha3 (by simp) (by simp)
        simpa using this
      · intro i hi
        simp [hact] at hi
    · simp only [hm1, Bool.false_eq_true, if_false] at hP ⊢
      cases hpo : (s.parser.writes wa).parseOption arg none with
      | error e => rw [hpo] at hP; simp [Except.bind] at hP
      | ok r2 =>
        obtain ⟨P2, act2, ro⟩ := r2
        obtain ⟨wo, ho1, ho2, ho3⟩ := parseOption_effect (h.writes wa) arg none P2 act2 ro hpo
        obtain ⟨ho4, ho5⟩ := option_stage s.parser _ (blank_writes s.parser wa) arg wo act2 ho3
        rw [hpo] at hP
        rw [ho2]
        subst ho1
        simp only [Except.bind] at hP ⊢
        by_cases hm2 : (((ArgumentParseResult.make false []).merge ra).1.merge ro).2 = true
        · simp only [hm2, if_true, Except.ok.injEq] at hP ⊢
          subst hP
          refine ⟨wa ++ wo, by simp [writes_append], by simp [writes_append], ?_,
            Nat.le_add_right _ _, hpos, ho5⟩
          have := allowed_of_stages s.parser arg s.pos wa wo [] ha3 ho4 (by simp)
          simpa using this
        · simp only [hm2, Bool.false_eq_true, if_false] at hP ⊢
          cases hps : ((s.parser.writes wa).writes wo).parseSwitch arg with
          | error e => rw [hps] at hP; simp at hP
          | ok r3 =>
            obtain ⟨P3, rs⟩ := r3
            obtain ⟨wsw, hs1, hs2, hs3⟩ :=
              parseSwitch_effect ((h.writes wa).writes wo) arg P3 rs hps
            have hs4 := switch_stage s.parser _
              (by rw [blank_writes, blank_writes]) arg wsw hs3
            have hall := allowed_of_stages s.parser arg s.pos wa wo wsw ha3 ho4 hs4
            rw [hps] at hP
            rw [hs2]
            subst hs1
            simp only at hP ⊢
            by_cases hm3 : ((((ArgumentParseResult.make false []).merge ra).1.merge ro).1.merge
                rs).2 = true
            · simp only [hm3, if_true, Except.ok.injEq] at hP ⊢
              subst hP
              exact ⟨wa ++ (wo ++ wsw), by simp [writes_append], by simp [writes_append],
                hall, Nat.le_add_right _ _, hpos, ho5⟩
            · simp only [hm3, Bool.false_eq_true, if_false, Except.ok.injEq] at hP ⊢
              subst hP
              exact ⟨wa ++ (wo ++ wsw), by simp [writes_append], by simp [writes_append],
                hall, Nat.le_add_right _ _, hpos, ho5⟩

end TokenEffect

section LoopEffect

theorem allowed_head (P : Parser) (lo mid hi : Nat) (act : Option Nat) (t : Str)
    (V : List Str) (hle : mid ≤ hi) (w : Write) (h : w.allowed P lo mid act [t]) :
    w.allowed P lo hi act (t :: V) := by
  cases w with
  | arg k v => exact ⟨h.1, Nat.lt_of_lt_of_le h.2 hle⟩
  | opt i v =>
    rcases h with h | ⟨t2, ht2, h⟩
    · exact Or.inl h
    · simp only [List.mem_singleton] at ht2
      subst ht2
      exact Or.inr ⟨t2, List.mem_cons_self _ _, h⟩
  | sw j =>
    obtain ⟨t2, ht2, h⟩ := h
    simp only [List.mem_singleton] at ht2
    subst ht2
    exact ⟨t2, List.mem_cons_self _ _, h⟩

theorem allowed_tail (P0 P : Parser) (hb : P.blank = P0.blank) (lo mid hi : Nat)
    (act0 act : Option Nat) (t : Str) (V : List Str) (hle : lo ≤ mid)
    (hpend : ∀ i, act = some i → tokenNamesOption P0 t i = true)
    (w : Write) (h : w.allowed P mid hi act V) :
    w.allowed P0 lo hi act0 (t :: V) := by
  cases w with
  | arg k v => exact ⟨Nat.le_trans hle h.1, h.2⟩
  | opt i v =>
    rcases h with h | ⟨t2, ht2, h⟩
    · exact Or.inr ⟨t, List.mem_cons_self _ _, hpend i h⟩
    · rw [tokenNamesOption_blank hb] at h
      exact Or.inr ⟨t2, List.mem_cons_of_mem _ ht2, h⟩
  | sw j =>
    obtain ⟨t2, ht2, h⟩ := h
    rw [tokenNamesSwitch_blank hb] at h
    exact ⟨t2, List.mem_cons_of_mem _ ht2, h⟩

theorem parseTokens_effect (V : List Str) (s : ParseState) (Q : Parser)
    (h : Sim s.parser Q) (s2 : ParseState) (hP : parseTokens s V = .ok s2) :
    ∃ ws, s2.parser = s.parser.writes ws ∧
      parseTokens { s with parser := Q } V = .ok { s2 with parser := Q.writes ws } ∧
      (∀ w ∈ ws, w.allowed s.parser s.pos s2.pos s.activeOption V) ∧
      s.pos ≤ s2.pos ∧ s2.pos ≤ s.pos + (V.filter isPositional).length := by
  induction V generalizing s Q with
  | nil =>
    simp only [parseTokens, Except.ok.injEq] at hP
    subst hP
    exact ⟨[], rfl, rfl, by simp, le_refl _, Nat.le_add_right _ _⟩
  | cons t V ih =>
    simp only [parseTokens] at hP ⊢
    cases hpt : parseToken s t with
    | error e => rw [hpt] at hP; simp [Except.bind] at hP
    | ok s1 =>
      rw [hpt] at hP
      simp only [Except.bind] at hP
      obtain ⟨ws1, h1, hq1, hall1, hle1, hle2, hpend⟩ := parseToken_effect s Q h t s1 hpt
      have hsim : Sim s1.parser (Q.writes ws1) := by
        rw [h1]
        exact h.writes ws1
      obtain ⟨ws2, h2, hq2, hall2, hle3, hle4⟩ := ih s1 (Q.writes ws1) hsim hP
      refine ⟨ws1 ++ ws2, ?_, ?_, ?_, Nat.le_trans hle1 hle3, ?_⟩
      · rw [h2, h1, writes_append]
      · rw [hq1]
        simp only [Except.bind]
        rw [writes_append]
        exact hq2
      · intro w hw
        rcases List.mem_append.1 hw with hw | hw
        · exact allowed_head s.parser s.pos s1.pos s2.pos s.activeOption t V hle3 w
            (hall1 w hw)
        · exact allowed_tail s.parser s1.parser (by rw [h1, blank_writes]) s.pos s1.pos s2.pos
            s.activeOption s1.activeOption t V hle1 hpend w (hall2 w hw)
      · have hf : ((t :: V).filter isPositional).length =
            ([t].filter isPositional).length + (V.filter isPositional).length := by
          cases hp : isPositional t <;> simp [List.filter, hp]
          omega
        rw [hf]
        omega

end LoopEffect

/-! ## The parser after a sequence of assignments, parameter by parameter -/

section Pointwise

theorem write_args (P : Parser) (w : Write) (k : Nat) :
    (P.write w).args[k]? = (P.args[k]?).map fun a =>
      match w with
      | .arg k2 v => if k2 = k then { a with value := v } else a
      | _ => a := by
  cases w with
  | arg k2 v =>
    simp only [Parser.write, Parser.setArgValue, modifyAt_getElem?]
    by_cases hk : k2 = k <;> simp [hk]
  | opt i v => simp [Parser.write, Parser.setOptionValue]
  | sw j => simp [Parser.write, Parser.setSwitchValue]

theorem write_options (P : Parser) (w : Write) (i : Nat) :
    (P.write w).options[i]? = (P.options[i]?).map fun o =>
      match w with
      | .opt i2 v => if i2 = i then { o with value := v } else o
      | _ => o := by
  cases w with
  | arg k2 v => simp [Parser.write, Parser.setArgValue]
  | opt i2 v =>
    simp only [Parser.write, Parser.setOptionValue, modifyAt_getElem?]
    by_cases hk : i2 = i <;> simp [hk]
  | sw j => simp [Parser.write, Parser.setSwitchValue]

theorem write_switches (P : Parser) (w : Write) (j : Nat) :
    (P.write w).switches[j]? = (P.switches[j]?).map fun s =>
      match w with
      | .sw j2 => if j2 = j then s.setValue true else s
      | _ => s := by
  cases w with
  | arg k2 v => simp [Parser.write, Parser.setArgValue]
  | opt i2 v => simp [Parser.write, Parser.setOptionValue]
  | sw j2 =>
    simp only [Parser.write, Parser.setSwitchValue, modifyAt_getElem?]
    by_cases hk : j2 = j <;> simp [hk]

theorem writes_args (ws : List Write) (P : Parser) (k : Nat) :
    (P.writes ws).args[k]? = (P.args[k]?).map fun a =>
      match lastArg k ws with
      | some v => { a with value := v }
      | none => a := by
  induction ws generalizing P with
  | nil => simp [writes_nil, lastArg]
  | cons w ws ih =>
    rw [writes_cons, ih, write_args, Option.map_map]
    congr 1
    funext a
    simp only [Function.comp, lastArg]
    cases hl : lastArg k ws with
    | some v =>
      cases w with
      | arg k2 v2 => by_cases hk : k2 = k <;> simp [hk]
      | opt i v2 => rfl
      | sw j => rfl
    | none =>
      cases w with
      | arg k2 v => by_cases hk : k2 = k <;> simp [hk]
      | opt i v => rfl
      | sw j => rfl

theorem writes_options (ws : List Write) (P : Parser) (i : Nat) :
    (P.writes ws).options[i]? = (P.options[i]?).map fun o =>
      match lastOpt i ws with
      | some v => { o with value := v }
      | none => o := by
  induction ws generalizing P with
  | nil => simp [writes_nil, lastOpt]
  | cons w ws ih =>
    rw [writes_cons, ih, write_options, Option.map_map]
    congr 1
    funext a
    simp only [Function.comp, lastOpt]
    cases hl : lastOpt i ws with
    | some v =>
      cases w with
      | arg k2 v2 => rfl
      | opt i2 v2 => by_cases hk : i2 = i <;> simp [hk]
      | sw j => rfl
    | none =>
      cases w with
      | arg k2 v => rfl
      | opt i2 v => by_cases hk : i2 = i <;> simp [hk]
      | sw j => rfl

theorem setValue_setValue (s : Switch) : (s.setValue true).setValue true = s.setValue true :=
  rfl

theorem writes_switches (ws : List Write) (P : Parser) (j : Nat) :
    (P.writes ws).switches[j]? = (P.switches[j]?).map fun s =>
      if lastSw j ws then s.setValue true else s := by
  induction ws generalizing P with
  | nil => simp [writes_nil, lastSw]
  | cons w ws ih =>
    rw [writes_cons, ih, write_switches, Option.map_map]
    congr 1
    funext a
    simp only [Function.comp, lastSw]
    cases w with
    | arg k2 v => by_cases hl : lastSw j ws = true <;> simp [hl]
    | opt i2 v => by_cases hl : lastSw j ws = true <;> simp [hl]
    | sw j2 =>
      by_cases hl : lastSw j ws = true <;> by_cases hk : j2 = j <;>
        simp [hl, hk, setValue_setValue]

theorem write_fields (P : Parser) (w : Write) :
    (P.write w).cmdname = P.cmdname ∧ (P.write w).helpSections = P.helpSections ∧
      (P.write w).autohelp = P.autohelp ∧ (P.write w).helpMaxWidth = P.helpMaxWidth ∧
      (P.write w).helpMaxArgWidth = P.helpMaxArgWidth ∧ (P.write w).helpPred = P.helpPred := by
  cases w <;> exact ⟨rfl, rfl, rfl, rfl, rfl, rfl⟩

theorem writes_fields (ws : List Write) (P : Parser) :
    (P.writes ws).cmdname = P.cmdname ∧ (P.writes ws).helpSections = P.helpSections ∧
      (P.writes ws).autohelp = P.autohelp ∧ (P.writes ws).helpMaxWidth = P.helpMaxWidth ∧
      (P.writes ws).helpMaxArgWidth = P.helpMaxArgWidth ∧
      (P.writes ws).helpPred = P.helpPred := by
  induction ws generalizing P with
  | nil => exact ⟨rfl, rfl, rfl, rfl, rfl, rfl⟩
  | cons w ws ih =>
    obtain ⟨h1, h2, h3, h4, h5, h6⟩ := ih (P.write w)
    obtain ⟨g1, g2, g3, g4, g5, g6⟩ := write_fields P w
    rw [writes_cons]
    exact ⟨h1.trans g1, h2.trans g2, h3.trans g3, h4.trans g4, h5.trans g5, h6.trans g6⟩

theorem writes_writes (ws : List Write) (P : Parser) :
    (P.writes ws).writes ws = P.writes ws := by
  obtain ⟨h1, h2, h3, h4, h5, h6⟩ := writes_fields ws (P.writes ws)
  have ha : ((P.writes ws).writes ws).args = (P.writes ws).args := by
    apply List.ext_getElem?
    intro k
    rw [writes_args ws (P.writes ws) k, writes_args ws P k, Option.map_map]
    congr 1
    funext a
    simp only [Function.comp]
    cases lastArg k ws <;> rfl
  have ho : ((P.writes ws).writes ws).options = (P.writes ws).options := by
    apply List.ext_getElem?
    intro k
    rw [writes_options ws (P.writes ws) k, writes_options ws P k, Option.map_map]
    congr 1
    funext a
    simp only [Function.comp]
    cases lastOpt k ws <;> rfl
  have hs : ((P.writes ws).writes ws).switches = (P.writes ws).switches := by
    apply List.ext_getElem?
    intro k
    rw [writes_switches ws (P.writes ws) k, writes_switches ws P k, Option.map_map]
    congr 1
    funext a
    simp only [Function.comp]
    cases lastSw k ws <;> rfl
  generalize (P.writes ws).writes ws = A at *
  generalize P.writes ws = B at *
  cases A
  cases B
  simp_all

end Pointwise

section Untouched

theorem lastArg_none (k : Nat) (ws : List Write) (h : ∀ v, Write.arg k v ∉ ws) :
    lastArg k ws = none := by
  induction ws with
  | nil => rfl
  | cons w ws ih =>
    have h1 := ih fun v hv => h v (List.mem_cons_of_mem _ hv)
    simp only [lastArg, h1]
    cases w with
    | arg k2 v =>
      by_cases hk : k2 = k
      · subst hk
        exact absurd (List.mem_cons_self _ _) (h v)
      · simp [hk]
    | opt i v => rfl
    | sw j => rfl

theorem lastOpt_none (i : Nat) (ws : List Write) (h : ∀ v, Write.opt i v ∉ ws) :
    lastOpt i ws = none := by
  induction ws with
  | nil => rfl
  | cons w ws ih =>
    have h1 := ih fun v hv => h v (List.mem_cons_of_mem _ hv)
    simp only [lastOpt, h1]
    cases w with
    | arg k2 v => rfl
    | opt i2 v =>
      by_cases hk : i2 = i
      · subst hk
        exact absurd (List.mem_cons_self _ _) (h v)
      · simp [hk]
    | sw j => rfl

theorem lastSw_false (j : Nat) (ws : List Write) (h : Write.sw j ∉ ws) :
    lastSw j ws = false := by
  induction ws with
  | nil => rfl
  | cons w ws ih =>
    have h1 := ih fun hv => h (List.mem_cons_of_mem _ hv)
    simp only [lastSw, h1, Bool.false_or]
    cases w with
    | arg k2 v => rfl
    | opt i2 v => rfl
    | sw j2 =>
      by_cases hk : j2 = j
      · subst hk
        exact absurd (List.mem_cons_self _ _) h
      · simp [hk]

theorem parseTokens_of_parseBody (P : Parser) (cmdname : Str) (V : List Str) (P1 : Parser)
    (r : ParseResult) (h : P.parseBody (cmdname :: V) = .ok (P1, r)) :
    ∃ s1, parseTokens (P.start cmdname) V = .ok s1 ∧ s1.finish = (P1, r) := by
  simp only [Parser.parseBody] at h
  cases hp : parseTokens (P.start cmdname) V with
  | error e => rw [hp] at h; simp [Except.bind] at h
  | ok s1 =>
    rw [hp] at h
    simp only [Except.bind, Except.ok.injEq] at h
    exact ⟨s1, rfl, h⟩

end Untouched

/-! ## Parameters absent from the token vector -/

section Frame

/-- C11: whenever `parse` returns for the parser `P` on `cmdname :: V` (with its assertion,
or its body alone), every option that no token of `V` resolves to (by its long name, or by
the first character of a short token) and every switch that no token of `V` resolves to
(by its long name, or by a character of a short token) is the same record after the call
as before it, value included; and so is every argument at a slot from the final `pos` of
the loop on, `pos` being the number of accepted positional tokens, at most the number of
positional tokens of `V`. `P` is arbitrary, so the values kept are whatever was there:
defaults or values written between two calls. -/
theorem parse_keeps_absent_parameters (P : Parser) (cmdname : Str) (V : List Str)
    (P1 : Parser) (r : ParseResult)
    (h : P.parse (cmdname :: V) = .ok (P1, r) ∨ P.parseBody (cmdname :: V) = .ok (P1, r)) :
    (∀ i, (∀ t ∈ V, tokenNamesOption P t i = false) → P1.options[i]? = P.options[i]?) ∧
    (∀ j, (∀ t ∈ V, tokenNamesSwitch P t j = false) → P1.switches[j]? = P.switches[j]?) ∧
    ∃ s1, parseTokens (P.start cmdname) V = .ok s1 ∧ s1.parser = P1 ∧
      s1.pos ≤ (V.filter isPositional).length ∧
      ∀ k, s1.pos ≤ k → P1.args[k]? = P.args[k]? := by
  have hb : P.parseBody (cmdname :: V) = .ok (P1, r) := by
    rcases h with h | h
    · exact parseBody_of_parse P _ _ h
    · exact h
  obtain ⟨s1, hs1, hfin⟩ := parseTokens_of_parseBody P cmdname V P1 r hb
  have hP1 : s1.parser = P1 := by
    have := congrArg Prod.fst hfin
    simpa [finish_fst] using this
  obtain ⟨ws, hw1, _, hall, _, hle⟩ :=
    parseTokens_effect V (P.start cmdname) (P.start cmdname).parser (Sim.refl _) s1 hs1
  have hP1w : P1 = (P.start cmdname).parser.writes ws := by rw [← hP1, hw1]
  refine ⟨?_, ?_, s1, hs1, hP1, by simpa [Parser.start] using hle, ?_⟩
  · intro i hi
    have hn : lastOpt i ws = none := by
      apply lastOpt_none
      intro v hv
      rcases hall _ hv with h1 | ⟨t, ht, h1⟩
      · simp [Parser.start] at h1
      · have h2 : tokenNamesOption P t i = true := h1
        rw [hi t ht] at h2
        exact absurd h2 (by simp)
    rw [hP1w, writes_options, hn]
    show Option.map (fun o => o) P.options[i]? = P.options[i]?
    simp
  · intro j hj
    have hn : lastSw j ws = false := by
      apply lastSw_false
      intro hv
      obtain ⟨t, ht, h1⟩ := hall _ hv
      have h2 : tokenNamesSwitch P t j = true := h1
      rw [hj t ht] at h2
      exact absurd h2 (by simp)
    rw [hP1w, writes_switches, hn]
    show Option.map (fun s => s) P.switches[j]? = P.switches[j]?
    simp
  · intro k hk
    have hn : lastArg k ws = none := by
      apply lastArg_none
      intro v hv
      have h1 := (hall _ hv).2
      omega
    rw [hP1w, writes_args, hn]
    show Option.map (fun a => a) P.args[k]? = P.args[k]?
    simp

/-- C11 on the parser of the test case "Parsing options": after `--asdfgh=1338` alone the
option `qwerty` (index 0) still holds its record, default included. -/
theorem parse_keeps_absent_parameters_witness :
    ∃ P1 r, testParsingOptions.parse ["appname".toList, "--asdfgh=1338".toList] =
        .ok (P1, r) ∧
      (∀ t ∈ ["--asdfgh=1338".toList], tokenNamesOption testParsingOptions t 0 = false) ∧
      P1.options[0]? = testParsingOptions.options[0]? ∧
      (P1.options[0]?).map (fun o => o.value) = some "default".toList :=
  ⟨_, _, rfl,
    by
      intro t ht
      simp only [List.mem_singleton] at ht
      subst ht
      rfl,
    (parse_keeps_absent_parameters testParsingOptions "appname".toList
      ["--asdfgh=1338".toList] _ _ (Or.inl rfl)).1 0
      (by
        intro t ht
        simp only [List.mem_singleton] at ht
        subst ht
        rfl),
    rfl⟩

end Frame

/-! ## Parsing the same vector twice -/

section Twice

theorem validateCommandLoop_blank (l m : List Argument)
    (h : m.map Argument.blank = l.map Argument.blank) (b : Bool) (res : ParseResult) :
    validateCommandLoop m b res = validateCommandLoop l b res := by
  induction l generalizing m b res with
  | nil =>
    cases m with
    | nil => rfl
    | cons y ys => simp at h
  | cons x xs ih =>
    cases m with
    | nil => simp at h
    | cons y ys =>
      simp only [List.map_cons, List.cons.injEq] at h
      obtain ⟨hxy, hrest⟩ := h
      have hr : y.required = x.required := (congrArg (fun a : Argument => a.required) hxy : _)
      have hn : y.name = x.name := (congrArg (fun a : Argument => a.name) hxy : _)
      simp only [validateCommandLoop, hr, hn, ih ys hrest]

theorem start_of_cmdname (P : Parser) (c : Str) (h : P.cmdname = c) :
    P.start c = { parser := P, result := { errors := [] }, activeOption := none, pos := 0 } := by
  subst h
  rfl

theorem parseBody_twice (P : Parser) (cmdname : Str) (V : List Str) (P1 : Parser)
    (r1 : ParseResult) (hc : P.constPreds)
    (hb : P.parseBody (cmdname :: V) = .ok (P1, r1)) :
    P1.parseBody (cmdname :: V) = .ok (P1, r1) ∧ P1.validateCommand = P.validateCommand := by
  obtain ⟨s1, hs1, hfin⟩ := parseTokens_of_parseBody P cmdname V P1 r1 hb
  have hP1 : s1.parser = P1 := by
    have := congrArg Prod.fst hfin
    simpa [finish_fst] using this
  have hsim0 : Sim (P.start cmdname).parser (P.start cmdname).parser := Sim.refl _
  obtain ⟨ws, hw1, _, _, _, _⟩ :=
    parseTokens_effect V (P.start cmdname) (P.start cmdname).parser hsim0 s1 hs1
  have hP1w : P1 = (P.start cmdname).parser.writes ws := by rw [← hP1, hw1]
  have hblank : P1.blank = (P.start cmdname).parser.blank := by rw [hP1w, blank_writes]
  have hsim : Sim (P.start cmdname).parser P1 := ⟨hblank, Or.inl hc⟩
  obtain ⟨ws2, hw2, hq2, _, _, _⟩ := parseTokens_effect V (P.start cmdname) P1 hsim s1 hs1
  have hfix : P1.writes ws2 = P1 := by
    have h3 : P1 = (P.start cmdname).parser.writes ws2 := by rw [← hP1, hw2]
    calc P1.writes ws2 = ((P.start cmdname).parser.writes ws2).writes ws2 := by rw [← h3]
      _ = (P.start cmdname).parser.writes ws2 := writes_writes ws2 _
      _ = P1 := h3.symm
  have hname : P1.cmdname = cmdname := by
    rw [hP1w, (writes_fields ws _).1]
    rfl
  have hstart : P1.start cmdname = { P.start cmdname with parser := P1 } :=
    start_of_cmdname P1 cmdname hname
  have hs2 : ({ s1 with parser := P1.writes ws2 } : ParseState) = s1 := by
    rw [hfix, ← hP1]
  refine ⟨?_, ?_⟩
  · rw [parseBody_cons, hstart, hq2, hs2]
    simp only [Except.bind]
    rw [hfin]
  · unfold Parser.validateCommand
    exact validateCommandLoop_blank P.args P1.args
      (blank_args (P.start cmdname).parser P1 hblank) false _

/-- C12 (amended): for every parser whose enablement predicates do not depend on the
values of the parameters, and every argv on which `parse` returns (with its assertion, or
its body alone), parsing the same argv again on the parser so obtained returns, leaves the
parser as it is, every parameter with the value it had after the first call, and returns
the same result. -/
theorem parse_twice (P : Parser) (argv : List Str) (P1 : Parser) (r1 : ParseResult)
    (hc : P.constPreds)
    (h : P.parse argv = .ok (P1, r1) ∨ P.parseBody argv = .ok (P1, r1)) :
    P1.parseBody argv = .ok (P1, r1) ∧
      (P.parse argv = .ok (P1, r1) → P1.parse argv = .ok (P1, r1)) := by
  have hb : P.parseBody argv = .ok (P1, r1) := by
    rcases h with h | h
    · exact parseBody_of_parse P _ _ h
    · exact h
  cases argv with
  | nil => simp [Parser.parseBody] at hb
  | cons cmdname V =>
    obtain ⟨h1, h2⟩ := parseBody_twice P cmdname V P1 r1 hc hb
    refine ⟨h1, ?_⟩
    intro hp
    have hv : P.validateCommand.toBool = true := by
      by_cases hv : P.validateCommand.toBool = true
      · exact hv
      · simp [Parser.parse, hv] at hp
    rw [parse_of_valid P1 _ (by rw [h2]; exact hv)]
    exact h1

end Twice

section TwiceExamples

/-- C12 on the parser of the test case "Parsing options", whose predicates are all
`enableAlways()`: the second parse of the same argv changes nothing. -/
theorem parse_twice_witness :
    testParsingOptions.constPreds ∧
    ∃ P1 r1, testParsingOptions.parse
        ["appname".toList, "-q".toList, "1234".toList, "--asdfgh=1338".toList] =
          .ok (P1, r1) ∧
      (P1.options.map fun o => o.value) = ["1234".toList, "1338".toList] ∧
      P1.parseBody ["appname".toList, "-q".toList, "1234".toList, "--asdfgh=1338".toList] =
        .ok (P1, r1) ∧
      P1.parse ["appname".toList, "-q".toList, "1234".toList, "--asdfgh=1338".toList] =
        .ok (P1, r1) :=
  have hc : testParsingOptions.constPreds := by
    refine ⟨?_, ?_, ?_⟩
    · intro a ha
      exact absurd ha (by simp [testParsingOptions, Parser.addOptionNamed, Parser.addOption,
        Parser.new, Parser.addStandardHelpSwitch, Parser.addSwitch])
    · intro o ho v w
      have ho2 : o ∈ [CmdOption.new "qwerty".toList 'q' "default".toList Req.optional []
          enableAlways, CmdOption.new "asdfgh".toList NoAbbr [] Req.optional []
          enableAlways] := ho
      simp only [List.mem_cons, List.mem_singleton, List.not_mem_nil, or_false] at ho2
      rcases ho2 with rfl | rfl <;> rfl
    · intro s hs v w
      have hs2 : s ∈ [standardHelpSwitch] := hs
      simp only [List.mem_singleton] at hs2
      subst hs2
      rfl
  ⟨hc, _, _, rfl, rfl,
    (parse_twice testParsingOptions
      ["appname".toList, "-q".toList, "1234".toList, "--asdfgh=1338".toList] _ _ hc
      (Or.inl rfl)).1,
    (parse_twice testParsingOptions
      ["appname".toList, "-q".toList, "1234".toList, "--asdfgh=1338".toList] _ _ hc
      (Or.inl rfl)).2 rfl⟩

/-- C12 as stated fails when an enablement predicate reads the values. All parameters of
`testOptionAndSwitch` are optional; the first parse of `[appname, -lx]` succeeds and sets
the switches `level` and `expert`, leaving the option `level` empty; the second parse of
the same argv succeeds as well and, the option being enabled by now, stores `x` in it.
On `testConditionalOptional` the first parse of `[appname, arg, --switch]` refuses `arg`
and sets the switch; the second one stores `arg` in the optional argument. -/
theorem second_parse_stores_more :
    (testOptionAndSwitch.args = [] ∧
      (testOptionAndSwitch.options.map fun o => o.required) = [Req.optional] ∧
      (testOptionAndSwitch.switches.map fun s => s.required) =
        [Req.optional, Req.optional, Req.optional]) ∧
    (∃ P1 r1 P2 r2,
      testOptionAndSwitch.parse ["appname".toList, "-lx".toList] = .ok (P1, r1) ∧
      r1.toBool = true ∧
      P1.parse ["appname".toList, "-lx".toList] = .ok (P2, r2) ∧
      r2.toBool = true ∧
      (P1.switches.map Switch.on) = [false, true, true] ∧
      (P1.options.map fun o => o.value) = [[]] ∧
      (P2.options.map fun o => o.value) = ["x".toList]) ∧
    ∃ P1 r1 P2 r2,
      testConditionalOptional.parse ["appname".toList, "arg".toList, "--switch".toList] =
        .ok (P1, r1) ∧
      P1.parse ["appname".toList, "arg".toList, "--switch".toList] = .ok (P2, r2) ∧
      (testConditionalOptional.args.map fun a => a.required) = [Req.optional] ∧
      (P1.args.map fun a => a.value) = [[]] ∧
      (P2.args.map fun a => a.value) = ["arg".toList] :=
  ⟨⟨rfl, rfl, rfl⟩, ⟨_, _, _, _, rfl, rfl, rfl, rfl, rfl, rfl, rfl⟩,
    ⟨_, _, _, _, rfl, rfl, rfl, rfl, rfl⟩⟩

end TwiceExamples

/-! ## Results -/

section Results

theorem errorStr_foldl (acc : Str) (errs : List Str) :
    errs.foldl (fun result err => result ++ (err ++ ['\n'])) acc =
      acc ++ (errs.map fun e => e ++ ['\n']).flatten := by
  induction errs generalizing acc with
  | nil => simp
  | cons e es ih => simp [List.foldl, ih, List.append_assoc]

/-- C23: a `ParseResult` is truthy iff its error list is empty; `errorStr()` is the
concatenation, in list order, of each error followed by one newline, the empty string
when there is no error; an `ArgumentParseResult` is truthy iff its accepted flag is set,
whether or not it carries an error; `merge(r)` appends the errors of `r` in order, leaves
the accepted flag of the receiver alone, and returns the truth value of `r` (through the
virtual `operator bool`: the accepted flag when `r` is an `ArgumentParseResult`). -/
theorem result_truthiness :
    (∀ r : ParseResult, r.toBool = true ↔ r.errors = []) ∧
    (∀ r : ParseResult, r.errorStr = (r.errors.map fun e => e ++ ['\n']).flatten) ∧
    ParseResult.errorStr { errors := [] } = [] ∧
    ParseResult.errorStr { errors := ["first".toList, "second".toList] } =
      "first\nsecond\n".toList ∧
    (∀ r : ArgumentParseResult, r.toBool = true ↔ r.accepted = true) ∧
    (∀ (b : Bool) (e : Str), (ArgumentParseResult.make b e).toBool = b ∧
      (ArgumentParseResult.make b e).errors = if e = [] then [] else [e]) ∧
    (∀ self res : ParseResult,
      (self.merge res).1.errors = self.errors ++ res.errors ∧
      (self.merge res).2 = res.toBool) ∧
    (∀ (self : ParseResult) (res : ArgumentParseResult),
      (self.mergeArg res).1.errors = self.errors ++ res.errors ∧
      (self.mergeArg res).2 = res.toBool) ∧
    (∀ self res : ArgumentParseResult,
      (self.merge res).1.errors = self.errors ++ res.errors ∧
      (self.merge res).1.accepted = self.accepted ∧
      (self.merge res).2 = res.toBool) := by
  refine ⟨?_, ?_, rfl, rfl, ?_, ?_, ?_, ?_, ?_⟩
  · intro r
    simp [ParseResult.toBool]
  · intro r
    unfold ParseResult.errorStr
    rw [errorStr_foldl]
    simp
  · intro r
    simp [ArgumentParseResult.toBool]
  · intro b e
    refine ⟨rfl, ?_⟩
    unfold ArgumentParseResult.make
    cases e <;> simp
  · intro self res
    exact ⟨rfl, rfl⟩
  · intro self res
    exact ⟨rfl, rfl⟩
  · intro self res
    exact ⟨rfl, rfl, rfl⟩

end Results

/-! ## The result of each dispatch branch -/

section BranchShapes

theorem bindOption_shape (P : Parser) (arg : Str) (act : Option Nat)
    (x : Option (Nat × CmdOption)) (abbr : Bool)
    (P2 : Parser) (act2 : Option Nat) (r : ArgumentParseResult)
    (h : P.bindOption arg act x abbr = .ok (P2, act2, r)) :
    r = ArgumentParseResult.make true [] ∨
      (P2 = P ∧ act2 = act ∧ r = ArgumentParseResult.make false (msgUnknownOption arg)) := by
  cases x with
  | none =>
    simp only [Parser.bindOption, Except.ok.injEq, Prod.mk.injEq] at h
    obtain ⟨rfl, rfl, rfl⟩ := h
    exact Or.inr ⟨rfl, rfl, rfl⟩
  | some a =>
    obtain ⟨i, o⟩ := a
    simp only [Parser.bindOption] at h
    cases he : o.enabled P.values
    · simp only [he, Bool.not_false, if_true, Except.ok.injEq, Prod.mk.injEq] at h
      obtain ⟨rfl, rfl, rfl⟩ := h
      exact Or.inr ⟨rfl, rfl, rfl⟩
    · simp only [he, Bool.not_true, Bool.false_eq_true, if_false] at h
      cases hnv : getNameEqualsValue arg with
      | error e => rw [hnv] at h; simp [Except.bind] at h
      | ok nv =>
        rw [hnv] at h
        simp only [Except.bind] at h
        left
        cases abbr
        · simp only [Bool.false_eq_true, if_false] at h
          by_cases h1 : (!nv.1.isEmpty) = true
          · simp only [h1, if_true, Except.ok.injEq, Prod.mk.injEq] at h
            exact h.2.2.symm
          · simp only [h1, Bool.false_eq_true, if_false, Except.ok.injEq, Prod.mk.injEq] at h
            exact h.2.2.symm
        · simp only [if_true] at h
          by_cases h1 : (!nv.2.isEmpty) = true
          · simp only [h1, if_true, Except.ok.injEq, Prod.mk.injEq] at h
            exact h.2.2.symm
          · simp only [h1, Bool.false_eq_true, if_false] at h
            by_cases h2 : arg.length > 2
            · simp only [h2, if_true] at h
              cases hs : substr arg 2 npos with
              | error e => rw [hs] at h; simp at h
              | ok v =>
                rw [hs] at h
                simp only [Except.ok.injEq, Prod.mk.injEq] at h
                exact h.2.2.symm
            · simp only [h2, if_false, Except.ok.injEq, Prod.mk.injEq] at h
              exact h.2.2.symm

theorem parseOption_shape (P : Parser) (arg : Str) (act : Option Nat)
    (P2 : Parser) (act2 : Option Nat) (r : ArgumentParseResult)
    (h : P.parseOption arg act = .ok (P2, act2, r)) :
    r = ArgumentParseResult.make true [] ∨
      (P2 = P ∧ act2 = act ∧
        r = ArgumentParseResult.make false
          (if isPositional arg then [] else msgUnknownOption arg)) := by
  by_cases hp : isPositional arg = true
  · rw [parseOption_positional P arg act hp] at h
    simp only [Except.ok.injEq, Prod.mk.injEq] at h
    obtain ⟨rfl, rfl, rfl⟩ := h
    exact Or.inr ⟨rfl, rfl, by simp [hp]⟩
  · have hp2 : isPositional arg = false := by simpa using hp
    simp only [hp2, Bool.false_eq_true, if_false]
    unfold Parser.parseOption at h
    by_cases h1 : isOption arg = true
    · simp only [h1, if_true] at h
      cases hn : getOptionName arg with
      | error e => rw [hn] at h; simp [Except.bind] at h
      | ok n =>
        rw [hn] at h
        simp only [Except.bind] at h
        exact bindOption_shape P arg act _ false P2 act2 r h
    · simp only [h1, Bool.false_eq_true, if_false] at h
      by_cases h7 : isOptionAbbr arg = true
      · simp only [h7, if_true] at h
        cases hn : getOptionAbbr arg with
        | error e => rw [hn] at h; simp [Except.bind] at h
        | ok cl =>
          rw [hn] at h
          simp only [Except.bind] at h
          cases cl with
          | nil => simp at h
          | cons c cs =>
            simp only at h
            exact bindOption_shape P arg act _ true P2 act2 r h
      · exfalso
        simp [isPositional, h1, h7] at hp2

theorem switchCluster_shape (arg : Str) (cl : Str) (P : Parser) :
    (switchCluster arg cl P).2 = ArgumentParseResult.make true [] ∨
      (switchCluster arg cl P).2 = ArgumentParseResult.make false (msgUnknownSwitch arg) := by
  induction cl generalizing P with
  | nil => exact Or.inl rfl
  | cons c cs ih =>
    rw [switchCluster_cons]
    cases hg : P.getSwitchByChar c with
    | none => exact Or.inr rfl
    | some a =>
      obtain ⟨j, sw⟩ := a
      simp only
      cases he : sw.enabled P.values
      · exact Or.inr rfl
      · simp only [Bool.not_true, Bool.false_eq_true, if_false]
        exact ih _

theorem parseSwitch_shape (P : Parser) (arg : Str) (P3 : Parser) (r : ArgumentParseResult)
    (h : P.parseSwitch arg = .ok (P3, r)) :
    r = ArgumentParseResult.make true [] ∨
      (isOptionAbbr arg = true ∧ r = ArgumentParseResult.make false (msgUnknownSwitch arg)) ∨
      (isOptionAbbr arg = false ∧ P3 = P ∧ r = ArgumentParseResult.make false []) := by
  unfold Parser.parseSwitch at h
  by_cases h0 : (!isOption arg && !isOptionAbbr arg) = true
  · simp only [h0, if_true, Except.ok.injEq, Prod.mk.injEq] at h
    obtain ⟨rfl, rfl⟩ := h
    have : isOptionAbbr arg = false := by
      cases h4 : isOptionAbbr arg
      · rfl
      · simp [h4] at h0
    exact Or.inr (Or.inr ⟨this, rfl, rfl⟩)
  · simp only [h0, Bool.false_eq_true, if_false] at h
    by_cases h1 : isOptionAbbr arg = true
    · simp only [h1, if_true] at h
      cases hn : getOptionAbbr arg with
      | error e => rw [hn] at h; simp [Except.bind] at h
      | ok cl =>
        rw [hn] at h
        simp only [Except.bind, Except.ok.injEq] at h
        have h2 := switchCluster_shape arg cl P
        rw [h] at h2
        rcases h2 with h2 | h2
        · exact Or.inl h2
        · exact Or.inr (Or.inl ⟨h1, h2⟩)
    · have h1f : isOptionAbbr arg = false := by simpa using h1
      simp only [h1, Bool.false_eq_true, if_false] at h
      cases hn : getOptionName arg with
      | error e => rw [hn] at h; simp [Except.bind] at h
      | ok n =>
        rw [hn] at h
        simp only [Except.bind] at h
        cases hg : P.getSwitch n with
        | none =>
          rw [hg] at h
          simp only [Except.ok.injEq, Prod.mk.injEq] at h
          obtain ⟨rfl, rfl⟩ := h
          exact Or.inr (Or.inr ⟨h1f, rfl, rfl⟩)
        | some a =>
          obtain ⟨j, sw⟩ := a
          rw [hg] at h
          simp only at h
          cases he : sw.enabled P.values
          · simp only [he, Bool.not_false, if_true, Except.ok.injEq, Prod.mk.injEq] at h
            obtain ⟨rfl, rfl⟩ := h
            exact Or.inr (Or.inr ⟨h1f, rfl, rfl⟩)
          · simp only [he, Bool.not_true, Bool.false_eq_true, if_false, Except.ok.injEq,
              Prod.mk.injEq] at h
            exact Or.inl h.2.symm

end BranchShapes

/-! ## Errors of an option-shaped token -/

section OptionTokenErrors

theorem optionShaped_cases (t : Str) (h : isPositional t = false) :
    (isOption t = true ∧ isOptionAbbr t = false) ∨
      (isOption t = false ∧ isOptionAbbr t = true) := by
  cases h1 : isOption t <;> cases h2 : isOptionAbbr t
  · simp [isPositional, h1, h2] at h
  · exact Or.inr ⟨rfl, rfl⟩
  · exact Or.inl ⟨rfl, rfl⟩
  · have := isOption_of_isOptionAbbr t h2
    rw [h1] at this
    exact absurd this (by simp)

/-- C27: take an option-shaped token `t` dispatched in the idle state, on which
`parseOption` and `parseSwitch` return. If both refuse it, the token adds to the result
exactly the message `This command does not accept "<t>" option` when it is long-form, and
that message followed by `This command does not accept "<t>" switch` when it is
short-form; position and pending option stay as they are. If `parseOption` refuses it and
`parseSwitch` accepts it, `parseOption` had returned the option message, and the token
adds no error at all. -/
theorem option_token_errors (s : ParseState) (t : Str) (hidle : s.activeOption = none)
    (hshape : isPositional t = false) :
    (∀ r2 r3, s.parser.parseOption t none = .ok r2 → r2.2.2.accepted = false →
      s.parser.parseSwitch t = .ok r3 → r3.2.accepted = false →
      parseToken s t =
        .ok { parser := r3.1,
              result := { errors := s.result.errors ++
                if isOption t then [msgUnknownOption t]
                else [msgUnknownOption t, msgUnknownSwitch t] },
              activeOption := none, pos := s.pos }) ∧
    (∀ r2 r3, s.parser.parseOption t none = .ok r2 → r2.2.2.accepted = false →
      s.parser.parseSwitch t = .ok r3 → r3.2.accepted = true →
      r2.2.2.errors = [msgUnknownOption t] ∧
      parseToken s t =
        .ok { parser := r3.1, result := s.result, activeOption := none, pos := s.pos }) := by
  cases s with
  | mk P res act pos =>
    simp only at hidle
    subst hidle
    have hopt : ∀ r2, P.parseOption t none = .ok r2 → r2.2.2.accepted = false →
        r2 = (P, none, ArgumentParseResult.make false (msgUnknownOption t)) := by
      intro r2 h2 hacc
      obtain ⟨P2, act2, ro⟩ := r2
      rcases parseOption_shape P t none P2 act2 ro h2 with h3 | ⟨h3, h4, h5⟩
      · rw [h3] at hacc
        simp [ArgumentParseResult.make] at hacc
      · rw [h3, h4, h5]
        simp [hshape]
    refine ⟨?_, ?_⟩
    · intro r2 r3 h2 hacc2 h3 hacc3
      have h2b := hopt r2 h2 hacc2
      subst h2b
      obtain ⟨P3, rs⟩ := r3
      rcases optionShaped_cases t hshape with ⟨hlong, hab⟩ | ⟨hlong, hab⟩
      · rcases parseSwitch_shape P t P3 rs h3 with h4 | ⟨h4, _⟩ | ⟨_, h5, h6⟩
        · rw [h4] at hacc3
          simp [ArgumentParseResult.make] at hacc3
        · rw [hab] at h4
          exact absurd h4 (by simp)
        · subst h5
          subst h6
          simp [parseToken, parseArgument_optionShaped P3 t pos hshape, h2, h3,
            ArgumentParseResult.merge, ArgumentParseResult.toBool, ParseResult.mergeArg,
            make_errors_of_ne_nil _ (msgUnknownOption_ne_nil _), make_nil_errors, hlong]
      · rcases parseSwitch_shape P t P3 rs h3 with h4 | ⟨_, h4⟩ | ⟨h4, _⟩
        · rw [h4] at hacc3
          simp [ArgumentParseResult.make] at hacc3
        · subst h4
          simp [parseToken, parseArgument_optionShaped P t pos hshape, h2, h3,
            ArgumentParseResult.merge, ArgumentParseResult.toBool, ParseResult.mergeArg,
            make_errors_of_ne_nil _ (msgUnknownOption_ne_nil _),
            make_errors_of_ne_nil _ (msgUnknownSwitch_ne_nil _), hlong]
        · rw [hab] at h4
          exact absurd h4 (by simp)
    · intro r2 r3 h2 hacc2 h3 hacc3
      have h2b := hopt r2 h2 hacc2
      subst h2b
      obtain ⟨P3, rs⟩ := r3
      refine ⟨make_errors_of_ne_nil _ (msgUnknownOption_ne_nil _), ?_⟩
      simp only at hacc3
      simp [parseToken, parseArgument_optionShaped P t pos hshape, h2, h3,
        ArgumentParseResult.merge, ArgumentParseResult.toBool, hacc3]

end OptionTokenErrors

section OptionTokenErrorsExamples

/-- C27 on the parser `testTwoSwitches`: the long token `--zz` adds the option message
alone, the short token `-z` adds the option message and the switch message, and the short
token `-a`, a switch, adds nothing. -/
theorem option_token_errors_witness :
    (parseToken (testTwoSwitches.start "app".toList) "--zz".toList).toOption.map
        (fun s => s.result.errors) =
      some ["This command does not accept \"--zz\" option".toList] ∧
    (parseToken (testTwoSwitches.start "app".toList) "-z".toList).toOption.map
        (fun s => s.result.errors) =
      some ["This command does not accept \"-z\" option".toList,
        "This command does not accept \"-z\" switch".toList] ∧
    (parseToken (testTwoSwitches.start "app".toList) "-a".toList).toOption.map
        (fun s => (s.result.errors, s.parser.switches.map Switch.on)) =
      some ([], [false, true, false]) := by
  refine ⟨?_, ?_, ?_⟩
  · rw [(option_token_errors (testTwoSwitches.start "app".toList) "--zz".toList rfl rfl).1
      _ _ rfl rfl rfl rfl]
    rfl
  · rw [(option_token_errors (testTwoSwitches.start "app".toList) "-z".toList rfl rfl).1
      _ _ rfl rfl rfl rfl]
    rfl
  · rw [((option_token_errors (testTwoSwitches.start "app".toList) "-a".toList rfl rfl).2
      _ _ rfl rfl rfl rfl).2]
    rfl

end OptionTokenErrorsExamples

/-! ## An option pending at the end of input -/

section PendingAtEnd

theorem parseTokens_append (s : ParseState) (V W : List Str) :
    parseTokens s (V ++ W) = (parseTokens s V).bind fun s1 => parseTokens s1 W := by
  induction V generalizing s with
  | nil => rfl
  | cons t V ih =>
    simp only [List.cons_append, parseTokens]
    cases parseToken s t with
    | error e => rfl
    | ok s1 => exact ih s1

theorem bindOption_pending (P : Parser) (arg : Str) (x : Option (Nat × CmdOption))
    (abbr : Bool) (P2 : Parser) (i : Nat) (r : ArgumentParseResult)
    (h : P.bindOption arg none x abbr = .ok (P2, some i, r)) :
    P2 = P ∧ r = ArgumentParseResult.make true [] ∧
      ∃ o, x = some (i, o) ∧ o.enabled P.values = true := by
  cases x with
  | none => simp [Parser.bindOption] at h
  | some a =>
    obtain ⟨i2, o⟩ := a
    simp only [Parser.bindOption] at h
    cases he : o.enabled P.values
    · simp [he] at h
    · simp only [he, Bool.not_true, Bool.false_eq_true, if_false] at h
      cases hnv : getNameEqualsValue arg with
      | error e => rw [hnv] at h; simp [Except.bind] at h
      | ok nv =>
        rw [hnv] at h
        simp only [Except.bind] at h
        cases abbr
        · simp only [Bool.false_eq_true, if_false] at h
          by_cases h1 : (!nv.1.isEmpty) = true
          · simp [h1] at h
          · simp only [h1, Bool.false_eq_true, if_false, Except.ok.injEq, Prod.mk.injEq,
              Option.some.injEq] at h
            obtain ⟨rfl, rfl, rfl⟩ := h
            exact ⟨rfl, rfl, o, rfl, he⟩
        · simp only [if_true] at h
          by_cases h1 : (!nv.2.isEmpty) = true
          · simp [h1] at h
          · simp only [h1, Bool.false_eq_true, if_false] at h
            by_cases h2 : arg.length > 2
            · simp only [h2, if_true] at h
              cases hs : substr arg 2 npos with
              | error e => rw [hs] at h; simp at h
              | ok v => rw [hs] at h; simp at h
            · simp only [h2, if_false, Except.ok.injEq, Prod.mk.injEq,
                Option.some.injEq] at h
              obtain ⟨rfl, rfl, rfl⟩ := h
              exact ⟨rfl, rfl, o, rfl, he⟩

theorem parseOption_pending (P : Parser) (arg : Str) (P2 : Parser) (i : Nat)
    (r : ArgumentParseResult) (h : P.parseOption arg none = .ok (P2, some i, r)) :
    P2 = P ∧ r = ArgumentParseResult.make true [] ∧ isPositional arg = false ∧
      tokenNamesOption P arg i = true ∧
      ∃ o, P.options[i]? = some o ∧ o.enabled P.values = true := by
  unfold Parser.parseOption at h
  unfold tokenNamesOption
  by_cases h1 : isOption arg = true
  · simp only [h1, if_true] at h ⊢
    cases hn : getOptionName arg with
    | error e => rw [hn] at h; simp [Except.bind] at h
    | ok n =>
      rw [hn] at h
      simp only [Except.bind] at h
      obtain ⟨h2, h3, o, h4, h5⟩ := bindOption_pending P arg _ false P2 i r h
      refine ⟨h2, h3, by simp [isPositional, h1], by simp [h4], o, ?_, h5⟩
      exact (findFirst_some _ _ _ _ h4).1
  · simp only [h1, Bool.false_eq_true, if_false] at h ⊢
    by_cases h7 : isOptionAbbr arg = true
    · simp only [h7, if_true] at h ⊢
      cases hn : getOptionAbbr arg with
      | error e => rw [hn] at h; simp [Except.bind] at h
      | ok cl =>
        rw [hn] at h
        simp only [Except.bind] at h
        cases cl with
        | nil => simp at h
        | cons c cs =>
          simp only at h
          obtain ⟨h2, h3, o, h4, h5⟩ := bindOption_pending P arg _ true P2 i r h
          refine ⟨h2, h3, by simp [isPositional, h7], by simp [h4], o, ?_, h5⟩
          exact (findFirst_some _ _ _ _ h4).1
    · simp [h7] at h

end PendingAtEnd

section PendingToken

theorem parseToken_pending_inv (s s1 : ParseState) (t : Str) (i : Nat)
    (h : parseToken s t = .ok s1) (hp : s1.activeOption = some i) :
    s.activeOption = none ∧ s1 = { s with activeOption := some i } ∧
      isPositional t = false ∧ tokenNamesOption s.parser t i = true ∧
      ∃ o, s.parser.options[i]? = some o ∧ o.enabled s.parser.values = true := by
  cases hact : s.activeOption with
  | some j =>
    rw [parseToken_pending s t j hact] at h
    simp only [Except.ok.injEq] at h
    subst h
    simp at hp
  | none =>
    by_cases hpos : isPositional t = true
    · by_cases hopen : s.parser.slotOpen s.pos = true
      · rw [parseToken_open s t hact hpos hopen] at h
        simp only [Except.ok.injEq] at h
        subst h
        simp only at hp
        rw [hact] at hp
        simp at hp
      · have hclosed : s.parser.slotOpen s.pos = false := by simpa using hopen
        rw [parseToken_closed s t hact hpos hclosed] at h
        simp only [Except.ok.injEq] at h
        subst h
        simp only at hp
        rw [hact] at hp
        simp at hp
    · have hshape : isPositional t = false := by simpa using hpos
      cases s with
      | mk P res act pos =>
        simp only at hact
        subst hact
        have hm : (ArgumentParseResult.make false []).merge (ArgumentParseResult.make false []) =
            (ArgumentParseResult.make false [], false) := rfl
        simp only [parseToken, parseArgument_optionShaped P t pos hshape, hm,
          Bool.false_eq_true, if_false] at h
        cases hpo : P.parseOption t none with
        | error e => rw [hpo] at h; simp [Except.bind] at h
        | ok r2 =>
          obtain ⟨P2, act2, ro⟩ := r2
          rw [hpo] at h
          simp only [Except.bind] at h
          rcases parseOption_shape P t none P2 act2 ro hpo with h3 | ⟨h3, h4, h5⟩
          · subst h3
            simp only [ArgumentParseResult.merge, ArgumentParseResult.toBool,
              ArgumentParseResult.make, Bool.false_eq_true, if_false, if_true,
              Except.ok.injEq] at h
            subst h
            simp only at hp
            subst hp
            obtain ⟨h6, _, h8, h9, h10⟩ := parseOption_pending P t P2 i _ hpo
            subst h6
            exact ⟨rfl, rfl, h8, h9, h10⟩
          · subst h3
            subst h4
            subst h5
            simp only [hshape, Bool.false_eq_true, if_false, ArgumentParseResult.merge,
              ArgumentParseResult.toBool, ArgumentParseResult.make] at h
            cases hps : P2.parseSwitch t with
            | error e => rw [hps] at h; simp at h
            | ok r3 =>
              rw [hps] at h
              simp only at h
              by_cases hm3 : r3.2.accepted = true
              · simp only [hm3, if_true, Except.ok.injEq] at h
                subst h
                simp at hp
              · simp only [hm3, Bool.false_eq_true, if_false, Except.ok.injEq] at h
                subst h
                simp at hp

end PendingToken

section PendingClaim

theorem validateOptionsLoop_first (v : Values) (opts : List CmdOption) (i : Nat)
    (o : CmdOption) (h : opts[i]? = some o) (hen : o.enabled v = true)
    (hreq : o.required = Req.required) (hval : o.value = [])
    (hfirst : ∀ k q, k < i → opts[k]? = some q →
      ¬(q.enabled v = true ∧ q.required = Req.required ∧ q.value = [])) :
    validateOptionsLoop v opts = ArgumentParseResult.make false (msgOptionRequired o.name) := by
  induction opts generalizing i with
  | nil => simp at h
  | cons q rest ih =>
    cases i with
    | zero =>
      simp only [List.getElem?_cons_zero, Option.some.injEq] at h
      subst h
      simp [validateOptionsLoop, hen, hreq, hval]
    | succ i =>
      simp only [List.getElem?_cons_succ] at h
      have hq := hfirst 0 q (Nat.succ_pos i) (by simp)
      have hrest := ih i h fun k q2 hk hq2 =>
        hfirst (k + 1) q2 (Nat.succ_lt_succ hk) (by simpa using hq2)
      unfold validateOptionsLoop
      by_cases hqen : q.enabled v = true
      · by_cases hqm : (q.required == Req.required && q.value.isEmpty) = true
        · exfalso
          apply hq
          simp only [Bool.and_eq_true, List.isEmpty_iff] at hqm
          refine ⟨hqen, ?_, hqm.2⟩
          cases hr : q.required
          · rfl
          · rw [hr] at hqm
            exact absurd hqm.1 (by decide)
        · simp only [hqen, Bool.not_true, Bool.false_eq_true, if_false, hqm]
          exact hrest
      · simp only [hqen, Bool.not_false, if_true]
        exact hrest

/-- C22 (amended): whenever the token loop returns on `V ++ [tok]` with the option at
index `i` pending, the loop was idle before `tok`, `tok` is option-shaped and resolves to
that option, which is registered and enabled; `tok` changed nothing but the pending
option, so `parse` returns the parser as it was when `tok` was dispatched: the option
holds the value it had then (a default or an earlier value is kept). If the option is
required and its value is empty, and no option registered before it is enabled, required
and empty, the result contains `Option <name> is required`. -/
theorem pending_at_end (P : Parser) (cmdname : Str) (V : List Str) (tok : Str)
    (s1 : ParseState) (i : Nat)
    (hrun : parseTokens (P.start cmdname) (V ++ [tok]) = .ok s1)
    (hpend : s1.activeOption = some i) :
    ∃ s o, parseTokens (P.start cmdname) V = .ok s ∧ s.activeOption = none ∧
      isPositional tok = false ∧ tokenNamesOption s.parser tok i = true ∧
      s.parser.options[i]? = some o ∧ o.enabled s.parser.values = true ∧
      s1 = { s with activeOption := some i } ∧
      ∃ r, P.parseBody (cmdname :: (V ++ [tok])) = .ok (s.parser, r) ∧
        (P.validateCommand.toBool = true →
          P.parse (cmdname :: (V ++ [tok])) = .ok (s.parser, r)) ∧
        (o.required = Req.required → o.value = [] →
          (∀ k q, k < i → s.parser.options[k]? = some q →
            ¬(q.enabled s.parser.values = true ∧ q.required = Req.required ∧
              q.value = [])) →
          msgOptionRequired o.name ∈ r.errors) := by
  rw [parseTokens_append] at hrun
  cases hV : parseTokens (P.start cmdname) V with
  | error e => rw [hV] at hrun; simp [Except.bind] at hrun
  | ok s =>
    rw [hV] at hrun
    simp only [Except.bind] at hrun
    have htok : parseToken s tok = .ok s1 := by
      simp only [parseTokens] at hrun
      cases ht : parseToken s tok with
      | error e => rw [ht] at hrun; simp [Except.bind] at hrun
      | ok s2 =>
        rw [ht] at hrun
        simp only [Except.bind, Except.ok.injEq] at hrun
        rw [hrun]
    obtain ⟨hidle, hs1, hshape, hname, o, ho, hen⟩ := parseToken_pending_inv s s1 tok i htok hpend
    have hall : parseTokens (P.start cmdname) (V ++ [tok]) = .ok s1 := by
      rw [parseTokens_append, hV]
      exact hrun
    have hbody : P.parseBody (cmdname :: (V ++ [tok])) = .ok (s.parser, s1.finish.2) := by
      rw [parseBody_of_parseTokens P cmdname _ s1 hall]
      have : s1.finish.1 = s.parser := by rw [finish_fst, hs1]
      rw [← this]
    refine ⟨s, o, rfl, hidle, hshape, hname, ho, hen, hs1, s1.finish.2, hbody, ?_, ?_⟩
    · intro hv
      rw [parse_of_valid P _ hv]
      exact hbody
    · intro hreq hval hfirst
      rw [finish_errors]
      have hp : s1.parser = s.parser := by rw [hs1]
      rw [hp]
      have hvo : s.parser.validateOptions =
          ArgumentParseResult.make false (msgOptionRequired o.name) :=
        validateOptionsLoop_first _ _ i o ho hen hreq hval hfirst
      rw [hvo, make_errors_of_ne_nil _ (msgOptionRequired_ne_nil _)]
      simp

end PendingClaim

section PendingExamples

/-- C22 (amended) on the parser `testSeveralMissing`: `--oo` as last token leaves the
required option `oo` pending and empty, and the result holds its message. -/
theorem pending_at_end_witness :
    ∃ r, testSeveralMissing.parseBody ["appname".toList, "--oo".toList] =
        .ok ({ testSeveralMissing with cmdname := "appname".toList }, r) ∧
      "Option oo is required".toList ∈ r.errors := by
  obtain ⟨s, o, hV, _, _, _, ho, _, _, r, hbody, _, hmsg⟩ :=
    pending_at_end testSeveralMissing "appname".toList [] "--oo".toList
      { testSeveralMissing.start "appname".toList with activeOption := some 0 } 0 rfl rfl
  simp only [parseTokens, Except.ok.injEq] at hV
  subst hV
  have ho2 : o = CmdOption.new "oo".toList NoAbbr [] Req.required [] enableAlways := by
    have h0 : (testSeveralMissing.start "appname".toList).parser.options[0]? =
        some (CmdOption.new "oo".toList NoAbbr [] Req.required [] enableAlways) := rfl
    rw [h0] at ho
    exact (Option.some.inj ho).symm
  subst ho2
  exact ⟨r, hbody, hmsg rfl rfl (fun k q hk _ => absurd hk (Nat.not_lt_zero k))⟩

/-- C22 as stated fails: on the parser of the test case "Parsing options" the token `-q`
as last token leaves the option `qwerty` pending, and after the parse the option still
holds its default `default`, not the empty string. -/
theorem pending_option_keeps_default :
    (parseTokens (testParsingOptions.start "appname".toList) ["-q".toList]).toOption.map
        (fun s => s.activeOption) = some (some 0) ∧
    (testParsingOptions.parse ["appname".toList, "-q".toList]).toOption.map
        (fun x => (x.1.options.map (fun o => o.value), x.2.errors)) =
      some (["default".toList, []], []) :=
  ⟨rfl, rfl⟩

end PendingExamples

/-! ## The error list is written, never read -/

section ErrorsWriteOnly

theorem parseArgument_shape (P : Parser) (t : Str) (pos : Nat) :
    P.parseArgument t pos = (P.setArgValue pos t, pos + 1, ArgumentParseResult.make true []) ∨
      ∃ e, P.parseArgument t pos = (P, pos, ArgumentParseResult.make false e) := by
  by_cases hpos : isPositional t = true
  · by_cases hopen : P.slotOpen pos = true
    · exact Or.inl (parseArgument_open P t pos hpos hopen)
    · exact Or.inr ⟨_, parseArgument_closed P t pos hpos (by simpa using hopen)⟩
  · exact Or.inr ⟨_, parseArgument_optionShaped P t pos (by simpa using hpos)⟩

theorem parseToken_added (s s1 : ParseState) (t : Str) (h : parseToken s t = .ok s1) :
    ∃ added, s1.result.errors = s.result.errors ++ added ∧
      ∀ R : ParseResult, parseToken { s with result := R } t =
        .ok { s1 with result := { errors := R.errors ++ added } } := by
  cases s with
  | mk P res act pos =>
    cases act with
    | some j =>
      rw [parseToken_pending _ t j rfl] at h
      simp only [Except.ok.injEq] at h
      subst h
      refine ⟨[], by simp, ?_⟩
      intro R
      rw [parseToken_pending _ t j rfl]
      simp
    | none =>
      simp only [parseToken] at h ⊢
      by_cases hm1 : ((ArgumentParseResult.make false []).merge
          (P.parseArgument t pos).2.2).2 = true
      · simp only [hm1, if_true, Except.ok.injEq] at h ⊢
        subst h
        exact ⟨[], by simp, fun R => by simp⟩
      · simp only [hm1, Bool.false_eq_true, if_false] at h ⊢
        cases hpo : (P.parseArgument t pos).1.parseOption t none with
        | error e => rw [hpo] at h; simp [Except.bind] at h
        | ok r2 =>
          rw [hpo] at h
          simp only [Except.bind] at h ⊢
          by_cases hm2 : (((ArgumentParseResult.make false []).merge
              (P.parseArgument t pos).2.2).1.merge r2.2.2).2 = true
          · simp only [hm2, if_true, Except.ok.injEq] at h ⊢
            subst h
            exact ⟨[], by simp, fun R => by simp⟩
          · simp only [hm2, Bool.false_eq_true, if_false] at h ⊢
            cases hps : r2.1.parseSwitch t with
            | error e => rw [hps] at h; simp at h
            | ok r3 =>
              rw [hps] at h
              simp only at h ⊢
              by_cases hm3 : ((((ArgumentParseResult.make false []).merge
                  (P.parseArgument t pos).2.2).1.merge r2.2.2).1.merge r3.2).2 = true
              · simp only [hm3, if_true, Except.ok.injEq] at h ⊢
                subst h
                exact ⟨[], by simp, fun R => by simp⟩
              · simp only [hm3, Bool.false_eq_true, if_false, Except.ok.injEq] at h ⊢
                subst h
                exact ⟨_, rfl, fun R => rfl⟩

theorem parseToken_error_result (s : ParseState) (t : Str) (f : Fault)
    (h : parseToken s t = .error f) (R : ParseResult) :
    parseToken { s with result := R } t = .error f := by
  cases s with
  | mk P res act pos =>
    cases act with
    | some j =>
      rw [parseToken_pending _ t j rfl] at h
      simp at h
    | none =>
      simp only [parseToken] at h ⊢
      by_cases hm1 : ((ArgumentParseResult.make false []).merge
          (P.parseArgument t pos).2.2).2 = true
      · simp [hm1] at h
      · simp only [hm1, Bool.false_eq_true, if_false] at h ⊢
        cases hpo : (P.parseArgument t pos).1.parseOption t none with
        | error e =>
          rw [hpo] at h
          simpa [Except.bind] using h
        | ok r2 =>
          rw [hpo] at h
          simp only [Except.bind] at h ⊢
          by_cases hm2 : (((ArgumentParseResult.make false []).merge
              (P.parseArgument t pos).2.2).1.merge r2.2.2).2 = true
          · simp [hm2] at h
          · simp only [hm2, Bool.false_eq_true, if_false] at h ⊢
            cases hps : r2.1.parseSwitch t with
            | error e =>
              rw [hps] at h
              simpa using h
            | ok r3 =>
              rw [hps] at h
              simp only at h
              by_cases hm3 : ((((ArgumentParseResult.make false []).merge
                  (P.parseArgument t pos).2.2).1.merge r2.2.2).1.merge r3.2).2 = true
              · simp [hm3] at h
              · simp [hm3] at h

theorem parseTokens_added (V : List Str) (s s2 : ParseState)
    (h : parseTokens s V = .ok s2) :
    ∃ added, s2.result.errors = s.result.errors ++ added ∧
      ∀ R : ParseResult, parseTokens { s with result := R } V =
        .ok { s2 with result := { errors := R.errors ++ added } } := by
  induction V generalizing s with
  | nil =>
    simp only [parseTokens, Except.ok.injEq] at h
    subst h
    exact ⟨[], by simp, fun R => by simp [parseTokens]⟩
  | cons t V ih =>
    simp only [parseTokens] at h
    cases ht : parseToken s t with
    | error e => rw [ht] at h; simp [Except.bind] at h
    | ok s1 =>
      rw [ht] at h
      simp only [Except.bind] at h
      obtain ⟨a1, h1, h2⟩ := parseToken_added s s1 t ht
      obtain ⟨a2, h3, h4⟩ := ih s1 h
      refine ⟨a1 ++ a2, by rw [h3, h1, List.append_assoc], ?_⟩
      intro R
      simp only [parseTokens, h2 R, Except.bind]
      have := h4 { errors := R.errors ++ a1 }
      simpa [List.append_assoc] using this

theorem parseTokens_error_result (V : List Str) (s : ParseState) (f : Fault)
    (h : parseTokens s V = .error f) (R : ParseResult) :
    parseTokens { s with result := R } V = .error f := by
  induction V generalizing s R with
  | nil => simp [parseTokens] at h
  | cons t V ih =>
    simp only [parseTokens] at h ⊢
    cases ht : parseToken s t with
    | error e =>
      rw [ht] at h
      simp only [Except.bind] at h
      rw [parseToken_error_result s t e ht R]
      simpa [Except.bind] using h
    | ok s1 =>
      rw [ht] at h
      simp only [Except.bind] at h
      obtain ⟨a1, _, h2⟩ := parseToken_added s s1 t ht
      rw [h2 R]
      simp only [Except.bind]
      exact ih s1 h _

end ErrorsWriteOnly

/-! ## A rejected token does not stop the parse -/

section RejectedToken

theorem parseToken_rejected (s : ParseState) (t : Str)
    (r2 : Parser × Option Nat × ArgumentParseResult) (r3 : Parser × ArgumentParseResult)
    (hidle : s.activeOption = none)
    (h1 : (s.parser.parseArgument t s.pos).2.2.accepted = false)
    (h2 : s.parser.parseOption t none = .ok r2) (hacc2 : r2.2.2.accepted = false)
    (h3 : s.parser.parseSwitch t = .ok r3) (hacc3 : r3.2.accepted = false) :
    parseToken s t =
      .ok { parser := r3.1,
            result := { errors := s.result.errors ++
              ((s.parser.parseArgument t s.pos).2.2.errors ++ r2.2.2.errors ++
                r3.2.errors) },
            activeOption := none, pos := s.pos } := by
  cases s with
  | mk P res act pos =>
    simp only at hidle h1 h2 h3 ⊢
    subst hidle
    obtain ⟨P2, act2, ro⟩ := r2
    obtain ⟨P3, rs⟩ := r3
    simp only at hacc2 hacc3
    rcases parseArgument_shape P t pos with ha | ⟨e, ha⟩
    · rw [ha] at h1
      simp [ArgumentParseResult.make] at h1
    · rcases parseOption_shape P t none P2 act2 ro h2 with h4 | ⟨h4, h5, _⟩
      · rw [h4] at hacc2
        simp [ArgumentParseResult.make] at hacc2
      · subst h4
        subst h5
        simp [parseToken, ha, h2, h3, ArgumentParseResult.merge, ArgumentParseResult.toBool,
          ParseResult.mergeArg, hacc2, hacc3, ArgumentParseResult.make]

/-- C24 (amended): a token that no branch accepts, dispatched in the idle state with
`parseOption` and `parseSwitch` returning, does not stop the loop: it leaves position and
pending option as they are, appends the errors of the three branches in branch order, and
changes the parser at most by the switches a short-form token has set before its first
failing character (no rollback); a token that is not short-form changes nothing. When the
rejected token left the parser as it was, the rest of the vector is dispatched and bound
as if the token were absent: same throw, or same final parser, position and pending
option, the errors of the token standing before those of the rest. Every token only
appends to the error list, and the list `parse` returns is the list of the loop followed
by the errors of `validateArguments`, then those of `validateOptions`. -/
theorem rejected_token_continues :
    (∀ (s : ParseState) (t : Str) (r2 : Parser × Option Nat × ArgumentParseResult)
        (r3 : Parser × ArgumentParseResult),
      s.activeOption = none →
      (s.parser.parseArgument t s.pos).2.2.accepted = false →
      s.parser.parseOption t none = .ok r2 → r2.2.2.accepted = false →
      s.parser.parseSwitch t = .ok r3 → r3.2.accepted = false →
      (isOptionAbbr t = false → r3.1 = s.parser) ∧
      (∃ ws, r3.1 = s.parser.writes ws ∧
        ∀ w ∈ ws, ∃ j, w = Write.sw j ∧ tokenNamesSwitch s.parser t j = true) ∧
      parseToken s t =
        .ok { parser := r3.1,
              result := { errors := s.result.errors ++
                ((s.parser.parseArgument t s.pos).2.2.errors ++ r2.2.2.errors ++
                  r3.2.errors) },
              activeOption := none, pos := s.pos } ∧
      (∀ rest s2, r3.1 = s.parser → parseTokens s rest = .ok s2 →
        ∃ added, s2.result.errors = s.result.errors ++ added ∧
          parseTokens s (t :: rest) =
            .ok { s2 with result := { errors := s.result.errors ++
              ((s.parser.parseArgument t s.pos).2.2.errors ++ r2.2.2.errors ++
                r3.2.errors) ++ added } }) ∧
      (∀ rest f, r3.1 = s.parser → parseTokens s rest = .error f →
        parseTokens s (t :: rest) = .error f)) ∧
    (∀ (s s1 : ParseState) (t : Str), parseToken s t = .ok s1 →
      ∃ added, s1.result.errors = s.result.errors ++ added) ∧
    (∀ (P : Parser) (cmdname : Str) (V : List Str) (P1 : Parser) (r : ParseResult),
      P.parseBody (cmdname :: V) = .ok (P1, r) →
      ∃ s2, parseTokens (P.start cmdname) V = .ok s2 ∧ s2.parser = P1 ∧
        r.errors = s2.result.errors ++ P1.validateArguments.errors ++
          P1.validateOptions.errors) := by
  refine ⟨?_, ?_, ?_⟩
  · intro s t r2 r3 hidle h1 h2 hacc2 h3 hacc3
    have htok := parseToken_rejected s t r2 r3 hidle h1 h2 hacc2 h3 hacc3
    refine ⟨?_, ?_, htok, ?_, ?_⟩
    · intro hab
      rcases parseSwitch_shape s.parser t r3.1 r3.2 h3 with h4 | ⟨h4, _⟩ | ⟨_, h4, _⟩
      · rw [h4] at hacc3
        simp [ArgumentParseResult.make] at hacc3
      · rw [hab] at h4
        exact absurd h4 (by simp)
      · exact h4
    · obtain ⟨ws, hw1, _, hw3⟩ :=
        parseSwitch_effect (Sim.refl s.parser) t r3.1 r3.2 h3
      exact ⟨ws, hw1, hw3⟩
    · intro rest s2 hsame hrest
      obtain ⟨added, ha1, ha2⟩ := parseTokens_added rest s s2 hrest
      refine ⟨added, ha1, ?_⟩
      simp only [parseTokens, htok, Except.bind]
      rw [hsame]
      have := ha2 { errors := s.result.errors ++
        ((s.parser.parseArgument t s.pos).2.2.errors ++ r2.2.2.errors ++ r3.2.errors) }
      rw [← this]
      cases s with
      | mk P res act pos =>
        simp only at hidle
        subst hidle
        rfl
    · intro rest f hsame hrest
      simp only [parseTokens, htok, Except.bind]
      rw [hsame]
      have := parseTokens_error_result rest s f hrest { errors := s.result.errors ++
        ((s.parser.parseArgument t s.pos).2.2.errors ++ r2.2.2.errors ++ r3.2.errors) }
      rw [← this]
      cases s with
      | mk P res act pos =>
        simp only at hidle
        subst hidle
        rfl
  · intro s s1 t h
    obtain ⟨added, ha, _⟩ := parseToken_added s s1 t h
    exact ⟨added, ha⟩
  · intro P cmdname V P1 r h
    obtain ⟨s2, hs2, hfin⟩ := parseTokens_of_parseBody P cmdname V P1 r h
    have hP1 : s2.parser = P1 := by
      have := congrArg Prod.fst hfin
      simpa [finish_fst] using this
    refine ⟨s2, hs2, hP1, ?_⟩
    have hr : s2.finish.2 = r := by
      have := congrArg Prod.snd hfin
      simpa using this
    rw [← hr, finish_errors, hP1]

end RejectedToken

section RejectedTokenExamples

/-- C24 (amended) on the parser `testTwoSwitches`: the rejected token `--zz` adds its
message and the following token `-a` still sets its switch. -/
theorem rejected_token_continues_witness :
    (parseTokens (testTwoSwitches.start "app".toList) ["--zz".toList, "-a".toList]).toOption.map
        (fun s => (s.parser.switches.map Switch.on, s.result.errors, s.pos, s.activeOption)) =
      some ([false, true, false], ["This command does not accept \"--zz\" option".toList],
        0, none) := by
  obtain ⟨added, ha, hrun⟩ :=
    (rejected_token_continues.1 (testTwoSwitches.start "app".toList) "--zz".toList _ _
      rfl rfl rfl rfl rfl rfl).2.2.2.1 ["-a".toList] _ rfl rfl
  have ha2 : ([] : List Str) = [] ++ added := ha
  simp only [List.nil_append] at ha2
  subst ha2
  rw [hrun]
  rfl

/-- C24 as stated fails: on `testConditionalAbbr` the short token `-sz` is accepted by no
branch (`z` is no switch), yet it has set the switch `s`, which enables the argument: in
`[appname, -sz, val]` the token `val` is stored, while in `[appname, val]` it is
refused. -/
theorem rejected_cluster_changes_the_rest :
    ((testConditionalAbbr.start "appname".toList).parser.parseArgument "-sz".toList
        0).2.2.accepted = false ∧
    ((testConditionalAbbr.start "appname".toList).parser.parseOption "-sz".toList
        none).toOption.map (fun r => r.2.2.accepted) = some false ∧
    ((testConditionalAbbr.start "appname".toList).parser.parseSwitch
        "-sz".toList).toOption.map (fun r => r.2.accepted) = some false ∧
    (testConditionalAbbr.parse ["appname".toList, "-sz".toList, "val".toList]).toOption.map
        (fun x => (x.1.args.map (fun a => a.value), x.2.errors)) =
      some (["val".toList], ["This command does not accept \"-sz\" option".toList,
        "This command does not accept \"-sz\" switch".toList]) ∧
    (testConditionalAbbr.parse ["appname".toList, "val".toList]).toOption.map
        (fun x => (x.1.args.map (fun a => a.value), x.2.errors)) =
      some ([[]], ["This command does not accept 1 positional arguments".toList]) :=
  ⟨rfl, rfl, rfl, rfl, rfl⟩

/-- The call `parse` throws `std::out_of_range`: on the parser `testEqualsAbbr`, which
passes `validateCommand`, the tokens `-=v` and `-=` resolve to the enabled option
abbreviated `=`; `getNameEqualsValue` then calls `getOptionName` on the text before the
first `=`, the one character `-`, and `substr(2, ...)` is out of range. The long token
`--=v` does not throw. -/
theorem parse_throws_on_equals_abbreviation :
    testEqualsAbbr.validateCommand.toBool = true ∧
    getNameEqualsValue "-=v".toList = .error Fault.out_of_range ∧
    testEqualsAbbr.parse ["appname".toList, "-=v".toList] = .error Fault.out_of_range ∧
    testEqualsAbbr.parse ["appname".toList, "-=".toList] = .error Fault.out_of_range ∧
    (testEqualsAbbr.parse ["appname".toList, "--=v".toList]).toOption.map
        (fun x => x.2.errors) =
      some ["This command does not accept \"--=v\" option".toList] :=
  ⟨rfl, rfl, rfl, rfl, rfl⟩

end RejectedTokenExamples

/-! ## Help text -/

section HelpText

theorem foldl_append_flatten {α : Type} (f : α → Str) (l : List α) (init : Str) :
    l.foldl (fun r a => r ++ f a) init = init ++ (l.map f).flatten := by
  induction l generalizing init with
  | nil => simp
  | cons x xs ih => simp [List.foldl, ih, List.append_assoc]

theorem getNameLength_foldl (m : Nat) (l : List Nat) (acc : Nat) :
    l.foldl (fun result width => if width ≤ m ∧ width > result then width else result) acc =
      max acc ((l.filter fun w => decide (w ≤ m)).foldr max 0) := by
  induction l generalizing acc with
  | nil => simp
  | cons w ws ih =>
    simp only [List.foldl, ih, List.filter]
    by_cases hw : w ≤ m
    · simp only [hw, decide_True, List.foldr]
      by_cases hr : w > acc
      · simp only [hr, and_self, if_true]
        omega
      · simp only [hr, and_false, if_false]
        omega
    · simp [hw]

/-- The width `getNameLength` computes is the greatest length of a rendered form that
does not exceed `helpMaxArgWidth`, and 0 when there is none. -/
theorem getNameLength_eq (P : Parser) (args : List Param) :
    P.getNameLength args =
      (((args.map fun a => (getArgRepresentation a).length).filter
        fun w => decide (w ≤ P.helpMaxArgWidth)).foldr max 0) := by
  unfold Parser.getNameLength
  have h := getNameLength_foldl P.helpMaxArgWidth
    (args.map fun a => (getArgRepresentation a).length) 0
  rw [List.foldl_map] at h
  simpa using h

theorem sectionText_eq (P : Parser) (args : List Param) (name : Str) :
    P.sectionText args name =
      (if name = [] then [] else name ++ ":\n".toList) ++
        (args.map (sectionEntry (P.getNameLength args))).flatten := by
  unfold Parser.sectionText
  simp only [foldl_append_flatten]
  cases name <;> simp

end HelpText

section HelpStructure

theorem parseBody_cmdname (P : Parser) (cmdname : Str) (V : List Str) (P1 : Parser)
    (r : ParseResult) (h : P.parseBody (cmdname :: V) = .ok (P1, r)) :
    P1.cmdname = cmdname := by
  obtain ⟨s1, hs1, hfin⟩ := parseTokens_of_parseBody P cmdname V P1 r h
  have hP1 : s1.parser = P1 := by
    have := congrArg Prod.fst hfin
    simpa [finish_fst] using this
  obtain ⟨ws, hw1, _⟩ :=
    parseTokens_effect V (P.start cmdname) (P.start cmdname).parser (Sim.refl _) s1 hs1
  rw [← hP1, hw1, (writes_fields ws _).1]
  rfl

/-- C25: for every parser state, `getHelp()` is, in this order: the text of the help
producer followed by an empty line, when a producer is set; the heading `Usage:` and an
empty line; the usage line, made of two spaces, `cmdname`, ` [Options]` and ` <name>`
for each enabled argument in registration order; then, iff some argument is enabled, an
empty line and the section `Arguments:` with one entry per enabled argument; then, iff
some option or switch is enabled, an empty line and the section `Options:` with one entry
per enabled option in registration order followed by one per enabled switch in
registration order. The enumerations keep exactly the enabled parameters, in their order;
two parsers with the same producer, `cmdname`, width cap and enabled parameters have the
same help text, so a disabled parameter contributes nothing. `cmdname` is token 0 of the
last parse that returned. -/
theorem getHelp_structure :
    (∀ P : Parser, P.getHelp =
      (match P.helpPred with
        | some help => help ++ "\n\n".toList
        | none => []) ++
      "Usage:\n\n".toList ++
      ("  ".toList ++ P.cmdname ++ " [Options]".toList ++
        (P.getArguments.map fun a => " <".toList ++ a.name ++ ">".toList).flatten ++
        "\n".toList) ++
      (if P.getArguments.isEmpty then []
        else "\n".toList ++ ("Arguments:\n".toList ++
          ((P.getArguments.map Param.argument).map
            (sectionEntry (P.getNameLength (P.getArguments.map Param.argument)))).flatten)) ++
      (if P.getOptions.isEmpty && P.getSwitches.isEmpty then []
        else "\n".toList ++ ("Options:\n".toList ++
          ((P.getOptions.map Param.option ++ P.getSwitches.map Param.switch).map
            (sectionEntry (P.getNameLength
              (P.getOptions.map Param.option ++ P.getSwitches.map Param.switch)))).flatten))) ∧
    (∀ P : Parser,
      (∀ a, a ∈ P.getArguments ↔ a ∈ P.args ∧ a.enabled P.values = true) ∧
      (∀ o, o ∈ P.getOptions ↔ o ∈ P.options ∧ o.enabled P.values = true) ∧
      (∀ s, s ∈ P.getSwitches ↔ s ∈ P.switches ∧ s.enabled P.values = true) ∧
      (P.getArguments.isEmpty = false ↔ ∃ a ∈ P.args, a.enabled P.values = true) ∧
      ((P.getOptions.isEmpty && P.getSwitches.isEmpty) = false ↔
        (∃ o ∈ P.options, o.enabled P.values = true) ∨
          ∃ s ∈ P.switches, s.enabled P.values = true) ∧
      P.getArguments.Sublist P.args ∧ P.getOptions.Sublist P.options ∧
      P.getSwitches.Sublist P.switches) ∧
    (∀ P Q : Parser, P.helpPred = Q.helpPred → P.cmdname = Q.cmdname →
      P.helpMaxArgWidth = Q.helpMaxArgWidth → P.getArguments = Q.getArguments →
      P.getOptions = Q.getOptions → P.getSwitches = Q.getSwitches →
      P.getHelp = Q.getHelp) ∧
    (∀ (P : Parser) (cmdname : Str) (V : List Str) (P1 : Parser) (r : ParseResult),
      P.parse (cmdname :: V) = .ok (P1, r) ∨ P.parseBody (cmdname :: V) = .ok (P1, r) →
      P1.cmdname = cmdname) := by
  have hstruct : ∀ P : Parser, P.getHelp =
      (match P.helpPred with
        | some help => help ++ "\n\n".toList
        | none => []) ++
      "Usage:\n\n".toList ++
      ("  ".toList ++ P.cmdname ++ " [Options]".toList ++
        (P.getArguments.map fun a => " <".toList ++ a.name ++ ">".toList).flatten ++
        "\n".toList) ++
      (if P.getArguments.isEmpty then []
        else "\n".toList ++ ("Arguments:\n".toList ++
          ((P.getArguments.map Param.argument).map
            (sectionEntry (P.getNameLength (P.getArguments.map Param.argument)))).flatten)) ++
      (if P.getOptions.isEmpty && P.getSwitches.isEmpty then []
        else "\n".toList ++ ("Options:\n".toList ++
          ((P.getOptions.map Param.option ++ P.getSwitches.map Param.switch).map
            (sectionEntry (P.getNameLength
              (P.getOptions.map Param.option ++ P.getSwitches.map Param.switch)))).flatten)) := by
    intro P
    have hsec1 := sectionText_eq P (P.getArguments.map Param.argument) "Arguments".toList
    have hsec2 := sectionText_eq P
      (P.getOptions.map Param.option ++ P.getSwitches.map Param.switch) "Options".toList
    have hn1 : (if "Arguments".toList = [] then [] else "Arguments".toList ++ ":\n".toList) =
        "Arguments:\n".toList := rfl
    have hn2 : (if "Options".toList = [] then [] else "Options".toList ++ ":\n".toList) =
        "Options:\n".toList := rfl
    rw [hn1] at hsec1
    rw [hn2] at hsec2
    unfold Parser.getHelp
    simp only [foldl_append_flatten, hsec1, hsec2]
    have he2 : (P.getOptions.map Param.option ++ P.getSwitches.map Param.switch).isEmpty =
        (P.getOptions.isEmpty && P.getSwitches.isEmpty) := by
      cases P.getOptions <;> cases P.getSwitches <;> rfl
    rw [he2]
    cases P.getArguments.isEmpty <;> cases (P.getOptions.isEmpty && P.getSwitches.isEmpty) <;>
      cases P.helpPred <;> simp [List.append_assoc]
  refine ⟨hstruct, ?_, ?_, ?_⟩
  · intro P
    have hne : ∀ {α : Type} (p : α → Bool) (l : List α),
        (l.filter p).isEmpty = false ↔ ∃ x ∈ l, p x = true := by
      intro α p l
      induction l with
      | nil => simp
      | cons x xs ih =>
        by_cases hx : p x = true
        · simp [List.filter, hx]
        · simp [List.filter, hx, ih]
    refine ⟨?_, ?_, ?_, ?_, ?_, List.filter_sublist _, List.filter_sublist _,
      List.filter_sublist _⟩
    · intro a
      simp [Parser.getArguments, List.mem_filter]
    · intro o
      simp [Parser.getOptions, List.mem_filter]
    · intro s
      simp [Parser.getSwitches, List.mem_filter]
    · exact hne _ _
    · rw [Bool.and_eq_false_iff]
      exact or_congr (hne _ _) (hne _ _)
  · intro P Q h1 h2 h3 h4 h5 h6
    rw [hstruct P, hstruct Q, h1, h2, h4, h5, h6]
    simp only [Parser.getNameLength, h3]
  · intro P cmdname V P1 r h
    rcases h with h | h
    · exact parseBody_cmdname P cmdname V P1 r (parseBody_of_parse P _ _ h)
    · exact parseBody_cmdname P cmdname V P1 r h

end HelpStructure

section HelpExamples

/-- C25 on the test case "Help description" (the help text after `parse` stored the
program name) and on the parser of the test case "Parsing conditional arguments", whose
disabled argument leaves the help text as it is without that argument. -/
theorem getHelp_structure_witness :
    (∃ P1 r, testHelpDescription.parse ["TestApp".toList] = .ok (P1, r) ∧
      P1.cmdname = "TestApp".toList ∧
      P1.getHelp =
        ("Example description\n\nUsage:\n\n  TestApp [Options] <arg>\n\nArguments:\n  arg\n" ++
          "\nOptions:\n  --help, -? = Show help message\n").toList) ∧
    testConditionalArguments.getHelp =
      ((Parser.new true).addSwitch
        (Switch.new "switch".toList NoAbbr [] enableAlways)).getHelp :=
  ⟨⟨_, _, rfl,
      getHelp_structure.2.2.2 testHelpDescription "TestApp".toList [] _ _ (Or.inl rfl), rfl⟩,
    getHelp_structure.2.2.1 _ _ rfl rfl rfl rfl rfl rfl⟩

end HelpExamples

section HelpColumns

theorem toInt_of_lt (n : Nat) (h : n < 2 ^ 31) : toInt n = (n : Int) := by
  have h1 : n % INT_MOD = n := Nat.mod_eq_of_lt (by unfold INT_MOD; omega)
  unfold toInt
  rw [h1, if_pos h]

theorem putLeft_of_lt (w : Nat) (text : Str) (h : w < 2 ^ 31) :
    putLeft w text = text ++ List.replicate (w - text.length) ' ' := by
  unfold putLeft
  rw [toInt_of_lt w h]
  congr 2
  omega

/-- What the lambda `section` writes for one entry, for a width below `2^31`: an entry
no longer than `widest` is two spaces and its rendered form padded with spaces to
`widest` columns; a longer entry is two spaces and its rendered form on a line of its
own, then two spaces and a field of spaces that has `widest` columns when `widest` is at
least 1, and one column when `widest` is 0; a non-empty description follows as ` = `,
the description and a newline, an empty one as a newline alone. On the test case "Help
arguments" the width of the options section is 20. -/
theorem sectionEntry_columns :
    (∀ (widest : Nat) (arg : Param), widest < 2 ^ 31 →
      sectionEntry widest arg =
        (if widest < (getArgRepresentation arg).length then
          "  ".toList ++ getArgRepresentation arg ++ "\n".toList ++
            ("  ".toList ++ List.replicate (max widest 1) ' ')
        else
          "  ".toList ++ (getArgRepresentation arg ++
            List.replicate (widest - (getArgRepresentation arg).length) ' ')) ++
        (if arg.toArgument.description = [] then "\n".toList
        else " = ".toList ++ (arg.toArgument.description ++ "\n".toList))) ∧
    (∀ (P : Parser) (args : List Param) (name : Str),
      P.sectionText args name =
        (if name = [] then [] else name ++ ":\n".toList) ++
          (args.map (sectionEntry (P.getNameLength args))).flatten) ∧
    (∀ (P : Parser) (args : List Param),
      P.getNameLength args =
        (((args.map fun a => (getArgRepresentation a).length).filter
          fun w => decide (w ≤ P.helpMaxArgWidth)).foldr max 0)) ∧
    testHelpArguments.getNameLength
      (testHelpArguments.getOptions.map Param.option ++
        testHelpArguments.getSwitches.map Param.switch) = 20 ∧
    testHelpArguments.sectionText
      (testHelpArguments.getOptions.map Param.option ++
        testHelpArguments.getSwitches.map Param.switch) "Options".toList =
      ("Options:\n  --opt, -o [value]    = An option\n  --opt-simple [value]\n" ++
        "  --help, -?           = Show help message\n" ++
        "  --switch, -s         = A switch\n  --switch-simple     \n").toList := by
  refine ⟨?_, sectionText_eq, getNameLength_eq, rfl, rfl⟩
  intro widest arg hw
  unfold sectionEntry
  simp only [putLeft_of_lt _ _ hw]
  have hblank : " ".toList ++ List.replicate (widest - " ".toList.length) ' ' =
      List.replicate (max widest 1) ' ' := by
    have h1 : " ".toList = List.replicate 1 ' ' := rfl
    rw [h1, List.length_replicate, ← List.replicate_add]
    congr 1
    omega
  rw [hblank]
  by_cases hlong : widest < (getArgRepresentation arg).length
  · have hlong2 : (getArgRepresentation arg).length > widest := hlong
    cases hd : arg.toArgument.description <;>
      simp [hlong, hlong2, List.append_assoc]
  · have hlong2 : ¬ (getArgRepresentation arg).length > widest := hlong
    cases hd : arg.toArgument.description <;>
      simp [hlong, hlong2, List.append_assoc]

/-- On `testHelpWideOption` every entry of the options section is longer than
`helpMaxArgWidth`, so `widest` is 0; the line after the entry holds two spaces and a
field of one column, not of 0 columns, before ` = Where to build`. On
`testHelpWideArgument`, `widest` is 0 as well, and the two descriptions of the section
start in different columns: after 5 characters for the argument with the empty name,
after 6 for the long one. -/
theorem wide_entry_blank_field :
    testHelpWideOption.getNameLength
      (testHelpWideOption.getOptions.map Param.option ++
        testHelpWideOption.getSwitches.map Param.switch) = 0 ∧
    testHelpWideOption.getHelp =
      ("Usage:\n\n   [Options]\n\nOptions:\n" ++
        "  --output-directory-for-intermediate-build-artifacts [value]\n" ++
        "    = Where to build\n").toList ∧
    testHelpWideArgument.getNameLength
      (testHelpWideArgument.getArguments.map Param.argument) = 0 ∧
    testHelpWideArgument.sectionText
      (testHelpWideArgument.getArguments.map Param.argument) "Arguments".toList =
      ("Arguments:\n   = Anything\n" ++
        "  path-of-the-configuration-file-to-read-at-program-start\n" ++
        "    = Settings\n").toList :=
  ⟨rfl, rfl, rfl, rfl⟩

end HelpColumns

end cmdline
